import Mathlib

/-! # renderer_d3d9: batch accumulator, draw submitter, text layout, atlas packer

A shallow embedding of `src/renderer/renderer.inl`, `src/renderer/renderer.cpp`
and `src/font/font.cpp`.

Modelling conventions.

* `float` quantities are rationals (`ℚ`): every statement about coordinates is
  a statement over exact arithmetic.  The two `float` computations that decide
  the layout of the atlas are rounded as the program rounds them, to IEEE 754
  single precision with round to nearest, ties to even (`f32_round`,
  `f32_grid`): the spacing `ceil(size.cy * 0.3f)` and `text_scale`
  (`static_cast<float>(MaxTextureWidth) / tex_width`, `text_scale *= 0.9f`).
* `std::size_t` quantities are sizes of in-memory vectors, or are bounded by
  one (a batch count never exceeds the size of the vertex pool), so they are
  natural numbers.  The narrowing conversions to the 32-bit `UINT` arguments of
  the device interface in `Renderer::draw` are explicit (`% 2 ^ 32`).
* `long` quantities of the atlas packer are integers; the doubling of the
  atlas side in the measure loop checks the range of the 32-bit `long`
  (`double_long`).
* `char` is a signed 8-bit code, modelled by an integer; a text is a list of
  codes.  A `std::string` built from `text.c_str()` ends before the first
  NUL (`c_str`).
* pointers (`IDirect3DTexture9 *`) are natural numbers, `0` being `nullptr`.
* a C++ exception is the `none` result of an `Option`-valued function; the
  public text operations of `Renderer` end in an `Outcome`, which tells the
  exceptions apart and has a case for an access past the end of `fonts`.
* the rasterizer and the device the constructor of `Font` talks to are an
  explicit environment (`Gdi`, `FontEnv`); the `DWORD` device cap is a natural
  number whose conversion to `long` is explicit (`to_long`).
* the loops of the constructor take a fuel: `none` means the fuel ran out or,
  in the measure loop, that the side left the range of `long`.
-/

namespace RendererD3D9

/-! ## Data model (`renderer.hpp`) -/

/-- The primitive topologies of `d3d9types.h` (`D3DPRIMITIVETYPE`). -/
inductive D3DPRIMITIVETYPE where
  | D3DPT_POINTLIST
  | D3DPT_LINELIST
  | D3DPT_LINESTRIP
  | D3DPT_TRIANGLELIST
  | D3DPT_TRIANGLESTRIP
  | D3DPT_TRIANGLEFAN
  | D3DPT_FORCE_DWORD
  deriving DecidableEq, Repr

open D3DPRIMITIVETYPE

/-- `using ToplogyType = D3DPRIMITIVETYPE;` -/
abbrev ToplogyType := D3DPRIMITIVETYPE

/-- `using Color = D3DCOLOR;` a 32-bit ARGB value. -/
abbrev Color := Nat

/-- An `IDirect3DTexture9 *`; `0` is `nullptr`. -/
abbrev Texture := Nat

/-- `D3DXVECTOR2`. -/
structure Vec2 where
  x : ℚ
  y : ℚ
  deriving DecidableEq

/-- `D3DXVECTOR4`. -/
structure Vec4 where
  x : ℚ
  y : ℚ
  z : ℚ
  w : ℚ
  deriving DecidableEq

/-- `struct Vertex`: homogeneous position, packed colour, texture coordinate. -/
structure Vertex where
  position : Vec4
  color : Color
  tex : Vec2
  deriving DecidableEq

/-- `struct Batch`: vertex count, topology, texture. -/
structure Batch where
  count : Nat
  topology : ToplogyType
  texture : Texture
  deriving DecidableEq, Repr

/-- `class RenderList`: the vertex pool and the parallel batch list.  The tail
batch (`batches.back()`) is the last element of `batches`. -/
structure RenderList where
  vertices : List Vertex
  batches : List Batch
  deriving DecidableEq

/-- `RenderList::RenderList(max_vertices)`: both vectors start empty. -/
def RenderList.empty : RenderList := ⟨[], []⟩

/-- `RenderList::clear` (renderer.cpp 344-348). -/
def RenderList.clear (_rl : RenderList) : RenderList := ⟨[], []⟩

/-! ## Batch accumulator (`renderer.inl`) -/

/-- Lines 7-10 of `Renderer::add_vertices`: start a new batch with count 0
when there is no batch or the tail batch differs in topology or texture. -/
def open_batch (batches : List Batch) (topology : ToplogyType) (texture : Texture) :
    List Batch :=
  match batches.getLast? with
  | none => batches ++ [⟨0, topology, texture⟩]
  | some back =>
    if back.topology ≠ topology ∨ back.texture ≠ texture then
      batches ++ [⟨0, topology, texture⟩]
    else batches

/-- Line 12: `render_list->batches.back().count += N`. -/
def bump_back (batches : List Batch) (N : Nat) : List Batch :=
  match batches.getLast? with
  | none => batches
  | some back => batches.dropLast ++ [{ back with count := back.count + N }]

/-- Lines 17-24: after a line strip or a triangle strip an empty sentinel
batch `(0, D3DPT_FORCE_DWORD, nullptr)` is pushed; every other topology falls
to `default: break`. -/
def close_strip (batches : List Batch) (topology : ToplogyType) : List Batch :=
  match topology with
  | D3DPT_LINESTRIP => batches ++ [⟨0, D3DPT_FORCE_DWORD, 0⟩]
  | D3DPT_TRIANGLESTRIP => batches ++ [⟨0, D3DPT_FORCE_DWORD, 0⟩]
  | _ => batches

/-- `Renderer::add_vertices` (renderer.inl 3-25); `N` is the length of
`vertex_array`. -/
def add_vertices (render_list : RenderList) (vertex_array : List Vertex)
    (topology : ToplogyType) (texture : Texture) : RenderList :=
  let N := vertex_array.length
  let batches := bump_back (open_batch render_list.batches topology texture) N
  { vertices := render_list.vertices ++ vertex_array
    batches := close_strip batches topology }

/-- One call on a render list between two flushes. -/
inductive Call where
  | add (vertex_array : List Vertex) (topology : ToplogyType) (texture : Texture)
  | clear

/-- Effect of one call. -/
def Call.apply (rl : RenderList) : Call → RenderList
  | Call.add vs t x => add_vertices rl vs t x
  | Call.clear => rl.clear

/-- The render list reached from the empty one by a sequence of calls. -/
def run_calls (calls : List Call) : RenderList :=
  calls.foldl Call.apply RenderList.empty

/-- Sum of the counts of a batch list. -/
def count_sum (batches : List Batch) : Nat :=
  (batches.map Batch.count).sum

/-! ## Draw submitter (`renderer.cpp`) -/

/-- `is_toplogy_list` (renderer.cpp 352-355). -/
def is_toplogy_list (topology : D3DPRIMITIVETYPE) : Bool :=
  topology == D3DPT_POINTLIST || topology == D3DPT_LINELIST || topology == D3DPT_TRIANGLELIST

/-- `topology_order` (renderer.cpp 357-373). -/
def topology_order (topology : D3DPRIMITIVETYPE) : Int :=
  match topology with
  | D3DPT_POINTLIST => 1
  | D3DPT_LINELIST => 2
  | D3DPT_LINESTRIP => 2
  | D3DPT_TRIANGLELIST => 3
  | D3DPT_TRIANGLESTRIP => 3
  | D3DPT_TRIANGLEFAN => 3
  | _ => 0

/-- Width of `std::uint32_t` and of the `UINT` arguments of `DrawPrimitive`. -/
def UINT_MOD : Nat := 2 ^ 32

/-- Lines 125-130 of `Renderer::draw`: `std::uint32_t primitive_count =
batch.count`, then `primitive_count /= order` for a list topology and
`primitive_count -= (order - 1)` otherwise, both in 32-bit unsigned
arithmetic (`order` is converted to unsigned). -/
def primitive_count (count : Nat) (topology : D3DPRIMITIVETYPE) : Nat :=
  let order := topology_order topology
  let pc : Int := (count % UINT_MOD : Nat)
  if is_toplogy_list topology then (pc / order).toNat
  else ((pc - (order - 1)) % (UINT_MOD : Int)).toNat

/-- One `SetTexture` + `DrawPrimitive` pair issued to the device. -/
structure DrawCall where
  topology : D3DPRIMITIVETYPE
  texture : Texture
  start_vertex : Nat
  primitive_count : Nat
  deriving DecidableEq, Repr

/-- The loop of `Renderer::draw` (renderer.cpp 116-136) from position `pos`. -/
def draw_from (pos : Nat) : List Batch → List DrawCall
  | [] => []
  | batch :: rest =>
    if batch.count ≠ 0 ∧ topology_order batch.topology > 0 then
      ⟨batch.topology, batch.texture, pos % UINT_MOD,
        primitive_count batch.count batch.topology⟩ :: draw_from (pos + batch.count) rest
    else draw_from pos rest

/-- `Renderer::draw(render_list)` (renderer.cpp 95-137): the device draw calls,
in order.  The copy of the pool into the vertex buffer has no effect on the
calls; the unused reference `prev_batch` of line 118 is left out. -/
def draw (render_list : RenderList) : List DrawCall :=
  draw_from 0 render_list.batches

/-! ## Font (`font.hpp`, `font.cpp`) -/

/-- `TEXT_RIGHT = 1 << 1`. -/
def TEXT_RIGHT : Nat := 2
/-- `TEXT_CENTERED_X = 1 << 2`. -/
def TEXT_CENTERED_X : Nat := 4
/-- `TEXT_CENTERED_Y = 1 << 3`. -/
def TEXT_CENTERED_Y : Nat := 8
/-- `TEXT_CENTERED = 1 << 2 | 1 << 3`. -/
def TEXT_CENTERED : Nat := 12
/-- `TEXT_SHADOW = 1 << 4`. -/
def TEXT_SHADOW : Nat := 16
/-- `TEXT_COLORTAGS = 1 << 5`. -/
def TEXT_COLORTAGS : Nat := 32

/-- The data members of `class Font` that the text routines read.
`tex_coords i j` is `tex_coords[i][j]`. -/
structure Font where
  texture : Texture
  tex_width : Int
  tex_height : Int
  text_scale : ℚ
  tex_coords : Nat → Nat → ℚ
  spacing : Int

/-- `(tex_coords[0][3] - tex_coords[0][1]) * tex_height` (font.cpp 189, 265). -/
def row_height (f : Font) : ℚ :=
  (f.tex_coords 0 3 - f.tex_coords 0 1) * f.tex_height

/-- `(tx2 - tx1) * tex_width - 2.f * spacing` for character `c`
(font.cpp 204-207). -/
def advance (f : Font) (c : Int) : ℚ :=
  (f.tex_coords (c - 32).toNat 2 - f.tex_coords (c - 32).toNat 0) * f.tex_width
    - 2 * f.spacing

/-- The locals of `Font::get_text_extent`. -/
structure ExtentState where
  row_width : ℚ
  width : ℚ
  height : ℚ

/-- One iteration of the loop of `Font::get_text_extent` (font.cpp 193-211). -/
def get_text_extent_step (f : Font) (s : ExtentState) (c : Int) : ExtentState :=
  let s1 : ExtentState :=
    if c = 10 then { s with row_width := 0, height := s.height + row_height f } else s
  if c < 32 then s1
  else
    let row_width := s1.row_width + advance f c
    { s1 with
      row_width := row_width
      width := if row_width > s1.width then row_width else s1.width }

/-- `Font::get_text_extent` (font.cpp 186-214); the result is
`{ width, height }`. -/
def get_text_extent (f : Font) (text : List Int) : Vec2 :=
  let s := text.foldl (get_text_extent_step f) ⟨0, 0, row_height f⟩
  ⟨s.width, s.height⟩

/-- `std::isalnum` in the "C" locale on a character code: the ASCII digits and
letters.  Every other code, a negative one included, counts as not
alphanumeric. -/
def isalnum (c : Int) : Bool :=
  (48 ≤ c && c ≤ 57) || (65 ≤ c && c ≤ 90) || (97 ≤ c && c ≤ 122)

/-- Value of a hexadecimal digit, if the code is one. -/
def hex_digit (c : Int) : Option Nat :=
  if 48 ≤ c ∧ c ≤ 57 then some (c - 48).toNat
  else if 97 ≤ c ∧ c ≤ 102 then some (c - 87).toNat
  else if 65 ≤ c ∧ c ≤ 70 then some (c - 55).toNat
  else none

/-- `ULONG_MAX` of the target platform (Windows: `unsigned long` has 32 bits). -/
def ULONG_MAX : Nat := 2 ^ 32 - 1

/-- The digits `strtoul` reads: the longest run of hexadecimal digits at the
front of the string. -/
def hex_run : List Int → List Nat
  | [] => []
  | c :: cs =>
    match hex_digit c with
    | some d => d :: hex_run cs
    | none => []

/-- `std::stoul(str, nullptr, 16)` on a string of alphanumeric characters (no
white space and no sign can occur in it): an optional `0x`/`0X` prefix, then
the longest run of hexadecimal digits.  `none` is a thrown exception:
`std::invalid_argument` when there is no digit, `std::out_of_range` when the
value exceeds `ULONG_MAX`. -/
def stoul16 (str : List Int) : Option Nat :=
  let body : List Int :=
    match str with
    | 48 :: x :: d :: rest =>
      if (x = 120 ∨ x = 88) ∧ (hex_digit d).isSome then d :: rest else str
    | _ => str
  match hex_run body with
  | [] => none
  | ds =>
    let v := ds.foldl (fun acc d => 16 * acc + d) 0
    if v ≤ ULONG_MAX then some v else none

/-- The colour-tag test of `Font::draw_text` (font.cpp 242-259) at a `{` whose
position is `index`; `from_index` is the text from `index` on, so that
`std::size(text) > index + 11` is `from_index.length > 11` and
`text.substr(index, 11)` is `from_index.take 11`.  `none`: no tag matched.
`some (n, r)`: a tag matched, `n` is added to `num_to_skip` and `r` is the
outcome of `std::stoul`. -/
def color_tag (from_index : List Int) : Option (Nat × Option Nat) :=
  if from_index.length > 11 then
    let color_str := from_index.take 11
    if color_str.getD 1 0 = 35 then
      let alpha : Bool := color_str.getD 10 0 = 125
      if alpha ∨ color_str.getD 8 0 = 125 then
        let stripped := color_str.filter isalnum
        some (if alpha then 10 else 8,
          stoul16 (if alpha then stripped else [102, 102] ++ stripped))
      else none
    else none
  else none

/-- The loop variables of `Font::draw_text` together with the render list. -/
structure TextState where
  pos : Vec2
  color : Color
  num_to_skip : Nat
  render_list : RenderList

/-- The vertex array `v` of font.cpp 281-290 for character `c` at pen `pos`. -/
def glyph_quad (f : Font) (pos : Vec2) (color : Color) (c : Int) : List Vertex :=
  let tx1 := f.tex_coords (c - 32).toNat 0
  let ty1 := f.tex_coords (c - 32).toNat 1
  let tx2 := f.tex_coords (c - 32).toNat 2
  let ty2 := f.tex_coords (c - 32).toNat 3
  let w := (tx2 - tx1) * f.tex_width / f.text_scale
  let h := (ty2 - ty1) * f.tex_height / f.text_scale
  [ ⟨⟨pos.x - 1/2,     pos.y - 1/2 + h, 9/10, 1⟩, color, ⟨tx1, ty2⟩⟩,
    ⟨⟨pos.x - 1/2,     pos.y - 1/2,     9/10, 1⟩, color, ⟨tx1, ty1⟩⟩,
    ⟨⟨pos.x - 1/2 + w, pos.y - 1/2 + h, 9/10, 1⟩, color, ⟨tx2, ty2⟩⟩,
    ⟨⟨pos.x - 1/2 + w, pos.y - 1/2,     9/10, 1⟩, color, ⟨tx2, ty1⟩⟩,
    ⟨⟨pos.x - 1/2 + w, pos.y - 1/2 + h, 9/10, 1⟩, color, ⟨tx2, ty2⟩⟩,
    ⟨⟨pos.x - 1/2,     pos.y - 1/2,     9/10, 1⟩, color, ⟨tx1, ty1⟩⟩ ]

/-- `vtx.position.x += dx; vtx.position.y += dy` on every vertex. -/
def shift (dx dy : ℚ) (v : List Vertex) : List Vertex :=
  v.map fun vtx => { vtx with position := { vtx.position with
    x := vtx.position.x + dx, y := vtx.position.y + dy } }

/-- `vtx.color = color` on every vertex. -/
def recolor (color : Color) (v : List Vertex) : List Vertex :=
  v.map fun vtx => { vtx with color := color }

/-- `D3DCOLOR_ARGB(a, r, g, b)` of `d3d9types.h`. -/
def D3DCOLOR_ARGB (a r g b : Nat) : Color :=
  ((a &&& 0xff) <<< 24) ||| ((r &&& 0xff) <<< 16) ||| ((g &&& 0xff) <<< 8) ||| (b &&& 0xff)

/-- Lines 292-311 of `Font::draw_text`: the submissions for one visible glyph
whose vertex array is `v`. -/
def emit_glyph (f : Font) (flags : Nat) (render_list : RenderList) (color : Color)
    (v : List Vertex) : RenderList :=
  if flags &&& TEXT_SHADOW ≠ 0 then
    let shadow_color := D3DCOLOR_ARGB ((color >>> 24) &&& 0xff) 0 0 0
    let v1 := shift 1 0 (recolor shadow_color v)
    let rl1 := add_vertices render_list v1 D3DPT_TRIANGLELIST f.texture
    let v2 := shift (-2) 0 v1
    let rl2 := add_vertices rl1 v2 D3DPT_TRIANGLELIST f.texture
    let v3 := shift 1 1 v2
    let rl3 := add_vertices rl2 v3 D3DPT_TRIANGLELIST f.texture
    let v4 := shift 0 (-2) v3
    let rl4 := add_vertices rl3 v4 D3DPT_TRIANGLELIST f.texture
    let v5 := shift 0 (-1) (recolor color v4)
    add_vertices rl4 v5 D3DPT_TRIANGLELIST f.texture
  else
    add_vertices render_list v D3DPT_TRIANGLELIST f.texture

/-- Lines 262-314 of `Font::draw_text`: the part of one iteration that handles
character `c` as a newline, a control character, a space or a glyph. -/
def draw_glyph (f : Font) (flags : Nat) (start_x : ℚ) (st : TextState) (c : Int) :
    TextState :=
  let st1 : TextState :=
    if c = 10 then { st with pos := ⟨start_x, st.pos.y + row_height f⟩ } else st
  if c < 32 then st1
  else
    let w := (f.tex_coords (c - 32).toNat 2 - f.tex_coords (c - 32).toNat 0)
      * f.tex_width / f.text_scale
    let render_list :=
      if c ≠ 32 then
        emit_glyph f flags st1.render_list st1.color (glyph_quad f st1.pos st1.color c)
      else st1.render_list
    { st1 with
      pos := ⟨st1.pos.x + (w - 2 * f.spacing), st1.pos.y⟩
      render_list := render_list }

/-- One iteration of the loop of `Font::draw_text` (font.cpp 237-315) at
character `c`; `rest` is the text after `c`.  `none` is an exception thrown
by `std::stoul`. -/
def draw_text_step (f : Font) (flags : Nat) (start_x : ℚ) (c : Int) (rest : List Int)
    (st : TextState) : Option TextState :=
  if st.num_to_skip > 0 then some { st with num_to_skip := st.num_to_skip - 1 }
  else if flags &&& TEXT_COLORTAGS ≠ 0 ∧ c = 123 then
    match color_tag (c :: rest) with
    | some (n, some color) => some { st with num_to_skip := st.num_to_skip + n, color := color }
    | some (_, none) => none
    | none => some (draw_glyph f flags start_x st c)
  else some (draw_glyph f flags start_x st c)

/-- The loop of `Font::draw_text` over the remaining text. -/
def draw_text_loop (f : Font) (flags : Nat) (start_x : ℚ) :
    List Int → TextState → Option TextState
  | [], st => some st
  | c :: rest, st =>
    (draw_text_step f flags start_x c rest st).bind (draw_text_loop f flags start_x rest)

/-- The first `n` iterations of the loop of `Font::draw_text`: the state
reached and the text still to walk. -/
def draw_text_steps (f : Font) (flags : Nat) (start_x : ℚ) :
    Nat → List Int → TextState → Option (TextState × List Int)
  | 0, text, st => some (st, text)
  | _ + 1, [], st => some (st, [])
  | n + 1, c :: rest, st =>
    (draw_text_step f flags start_x c rest st).bind (draw_text_steps f flags start_x n rest)

/-- `Font::draw_text` (font.cpp 216-316): the render list after the call, or
`none` when `std::stoul` throws. -/
def draw_text (f : Font) (render_list : RenderList) (pos : Vec2) (text : List Int)
    (color : Color) (flags : Nat) : Option RenderList :=
  let aligned : Vec2 :=
    if flags &&& (TEXT_RIGHT ||| TEXT_CENTERED) ≠ 0 then
      let size := get_text_extent f text
      let x :=
        if flags &&& TEXT_RIGHT ≠ 0 then pos.x - size.x
        else if flags &&& TEXT_CENTERED_X ≠ 0 then pos.x - 1/2 * size.x
        else pos.x
      let y := if flags &&& TEXT_CENTERED_Y ≠ 0 then pos.y - 1/2 * size.y else pos.y
      ⟨x, y⟩
    else pos
  let start : Vec2 := ⟨aligned.x - f.spacing, aligned.y⟩
  (draw_text_loop f flags start.x text ⟨start, color, 0, render_list⟩).map
    TextState.render_list

/-! ## Single-precision rounding (`float` of the target platform) -/

/-- The number of low bits that a 24-bit significand cannot hold: the least `e`
with `n / 2 ^ e < 2 ^ 24`, found in at most `fuel` halvings. -/
def excess_bits_aux : Nat → Nat → Nat
  | 0, _ => 0
  | fuel + 1, n => if n < 2 ^ 24 then 0 else excess_bits_aux fuel (n / 2) + 1

/-- The number of low bits of `n` that a 24-bit significand cannot hold. -/
def excess_bits (n : Nat) : Nat := excess_bits_aux n n

/-- The integer nearest to `N / D`, a tie going to the even one. -/
def rne (N D : Nat) : Nat :=
  if 2 * (N % D) > D ∨ (2 * (N % D) = D ∧ (N / D) % 2 = 1) then N / D + 1 else N / D

/-- The single-precision value nearest to `N / D` (round to nearest, ties to
even), both counted in a unit that is a power of two: the value is rounded to
a multiple of `2 ^ e` units, `e` being the excess of its integer part over 24
bits.  With the unit `2 ^ -149` this is the rounding of IEEE 754 binary32,
subnormal numbers included (values beyond the largest finite one are not
modelled); with another unit it is that rounding for values of at least
`2 ^ 23` units, and exact below. -/
def f32_grid (N D : Nat) : Nat :=
  rne N (D * 2 ^ excess_bits (N / D)) * 2 ^ excess_bits (N / D)

/-- The `float` nearest to the rational `q`. -/
def f32_round (q : ℚ) : ℚ :=
  let t : ℚ := ((f32_grid (q.num.natAbs * 2 ^ 149) q.den : Nat) : ℚ) / 2 ^ 149
  if 0 ≤ q then t else -t

/-- The `float` literal `0.9f`. -/
def FLT_0_9 : ℚ := 15099494 / 2 ^ 24

/-! ## Atlas packer (`font.cpp`) -/

/-- `SIZE` of the GDI: the measured extent of one character. -/
structure SIZE where
  cx : Int
  cy : Int
  deriving DecidableEq

/-- The rasterizer behind the device context `ctx` with its selected font:
`GetTextExtentPoint32 c` is the measured size of character `c` (`none` when
the call returns 0), `ExtTextOut x y c` tells whether painting `c` at `(x, y)`
succeeds. -/
structure Gdi where
  GetTextExtentPoint32 : Int → Option SIZE
  ExtTextOut : Int → Int → Int → Bool

/-- The results of `Font::paint_alphabet`. -/
inductive HRESULT where
  | S_OK
  | E_FAIL
  | D3DERR_MOREDATA
  deriving DecidableEq, Repr

open HRESULT

/-- `static_cast<long>(ceil(size.cy * 0.3f))` (font.cpp 149) in single
precision: `size.cy` is converted to `float`, multiplied by the literal
`0.3f = 10066330 * 2 ^ -25` with one rounding, and the ceiling of the product
is taken.  `a` is the `float` of `|cy|` and `p` the rounded product, counted
in units of `2 ^ -25`. -/
def spacing_of (cy : Int) : Int :=
  let a := f32_grid cy.natAbs 1
  let p := f32_grid (a * 10066330) 1
  if 0 ≤ cy then (((p + (2 ^ 25 - 1)) / 2 ^ 25 : Nat) : Int)
  else -(((p / 2 ^ 25 : Nat) : Int))

/-- The assignments to `tex_coords[i][0..3]` (font.cpp 174-177). -/
def set_tex_coords (tc : Nat → Nat → ℚ) (i : Nat) (u1 v1 u2 v2 : ℚ) : Nat → Nat → ℚ :=
  fun i' j =>
    if i' = i then
      match j with
      | 0 => u1
      | 1 => v1
      | 2 => u2
      | 3 => v2
      | _ => tc i' j
    else tc i' j

/-- Lines 160-164 of `Font::paint_alphabet`: when the glyph would cross the
right edge the cursor wraps to a new row. -/
def wrap_cursor (f : Font) (x y : Int) (size : SIZE) : Int × Int :=
  if x + size.cx + f.spacing > f.tex_width then (f.spacing, y + size.cy + 1) else (x, y)

/-- Lines 174-177 of `Font::paint_alphabet`: the rectangle recorded for
character `c` painted at `(x, y)`. -/
def store_rect (f : Font) (c : Int) (x y : Int) (size : SIZE) : Font :=
  let u1 : ℚ := ((x + 0 - f.spacing : Int) : ℚ) / f.tex_width
  let v1 : ℚ := ((y + 0 + 0 : Int) : ℚ) / f.tex_height
  let u2 : ℚ := ((x + size.cx + f.spacing : Int) : ℚ) / f.tex_width
  let v2 : ℚ := ((y + size.cy + 0 : Int) : ℚ) / f.tex_height
  { f with tex_coords := set_tex_coords f.tex_coords (c - 32).toNat u1 v1 u2 v2 }

/-- The loop of `Font::paint_alphabet` (font.cpp 154-181) over the characters
still to place, with the cursor at `(x, y)`. -/
def paint_chars (gdi : Gdi) (measure_only : Bool) :
    List Int → Int → Int → Font → HRESULT × Font
  | [], _, _, f => (S_OK, f)
  | c :: cs, x, y, f =>
    match gdi.GetTextExtentPoint32 c with
    | none => (E_FAIL, f)
    | some size =>
      let p := wrap_cursor f x y size
      if p.2 + size.cy > f.tex_height then (D3DERR_MOREDATA, f)
      else if measure_only then
        paint_chars gdi measure_only cs (p.1 + size.cx + 2 * f.spacing) p.2 f
      else if gdi.ExtTextOut p.1 p.2 c = false then (E_FAIL, f)
      else
        paint_chars gdi measure_only cs (p.1 + size.cx + 2 * f.spacing) p.2
          (store_rect f c p.1 p.2 size)

/-- The characters `32 .. 126` of `for (char c = 32; c < 127; c++)`. -/
def alphabet : List Int := (List.range 95).map fun i => (i : Int) + 32

/-- `Font::paint_alphabet` (font.cpp 141-184): the result code and the font
with `spacing` (and, when painting, `tex_coords`) updated. -/
def paint_alphabet (gdi : Gdi) (f : Font) (measure_only : Bool) : HRESULT × Font :=
  match gdi.GetTextExtentPoint32 120 with
  | none => (E_FAIL, f)
  | some size =>
    let f1 : Font := { f with spacing := spacing_of size.cy }
    paint_chars gdi measure_only alphabet f1.spacing 0 f1

/-- `v *= 2` on a 32-bit `long`: `none` when the product is not a `long`
(signed overflow, for which the program has no defined behaviour). -/
def double_long (v : Int) : Option Int :=
  if -(2 ^ 31) ≤ v * 2 ∧ v * 2 < 2 ^ 31 then some (v * 2) else none

/-- The measure loop of the constructor (font.cpp 29-33) with `fuel`
iterations allowed; `none` when the fuel runs out, and when doubling the side
overflows the 32-bit `long`. -/
def measure_loop (gdi : Gdi) : Nat → Font → Option (HRESULT × Font)
  | 0, _ => none
  | fuel + 1, f =>
    match paint_alphabet gdi f true with
    | (D3DERR_MOREDATA, f1) =>
      match double_long f1.tex_width, double_long f1.tex_height with
      | some w, some h => measure_loop gdi fuel { f1 with tex_width := w, tex_height := h }
      | _, _ => none
    | r => some r

/-- Lines 26-33 of `Font::Font`: `tex_width = tex_height = 128`, then the
measure loop. -/
def measure_phase (gdi : Gdi) (fuel : Nat) (f : Font) : Option (HRESULT × Font) :=
  measure_loop gdi fuel { f with tex_width := 128, tex_height := 128 }

/-- A rasterizer with fixed glyph metrics: every measurement succeeds and
returns the same size for the same character. -/
def fixed_metrics (metrics : Int → SIZE) : Gdi :=
  { GetTextExtentPoint32 := fun c => some (metrics c)
    ExtTextOut := fun _ _ _ => true }

/-- The font with its atlas side set to `side`. -/
def with_side (f : Font) (side : Int) : Font :=
  { f with tex_width := side, tex_height := side }

/-! ## Specification-side notions for the renderer -/

/-- The sentinel batch pushed after a strip. -/
def sentinel : Batch := ⟨0, D3DPT_FORCE_DWORD, 0⟩

/-- The tail batch is not a strip batch. -/
def tail_not_strip (bs : List Batch) : Prop :=
  ∀ b, bs.getLast? = some b →
    b.topology ≠ D3DPT_LINESTRIP ∧ b.topology ≠ D3DPT_TRIANGLESTRIP

/-- The primitive count as the specification words it, over the integers:
the vertex count divided by 1, 2, 3 for a point, line, triangle list, and the
vertex count minus 1 for a line strip, minus 2 for a triangle strip or fan. -/
def spec_primitive_count (n : Nat) : D3DPRIMITIVETYPE → Int
  | D3DPT_POINTLIST => (n : Int) / 1
  | D3DPT_LINELIST => (n : Int) / 2
  | D3DPT_TRIANGLELIST => (n : Int) / 3
  | D3DPT_LINESTRIP => (n : Int) - 1
  | D3DPT_TRIANGLESTRIP => (n : Int) - 2
  | D3DPT_TRIANGLEFAN => (n : Int) - 2
  | D3DPT_FORCE_DWORD => 0

/-- A vertex at the origin. -/
def sample_vertex : Vertex := ⟨⟨0, 0, 1, 1⟩, 0, ⟨0, 0⟩⟩

/-- A run of `n` vertices. -/
def sample_run (n : Nat) : List Vertex := List.replicate n sample_vertex

/-! ## Specification-side notions for `get_text_extent` -/

/-- The newline-separated rows of a text (a newline is code 10); a text
without newline is one row, the empty text is one empty row. -/
def rows : List Int → List (List Int)
  | [] => [[]]
  | c :: cs =>
    if c = 10 then [] :: rows cs
    else
      match rows cs with
      | [] => [[c]]
      | r :: rs => (c :: r) :: rs

/-- The sum of the per-character contributions of a row. -/
def row_width (f : Font) (row : List Int) : ℚ :=
  (row.map (advance f)).sum

/-! ## Concrete texts and a concrete font -/

/-- The text `{#ff0000ff}`. -/
def long_tag : List Int := [123, 35, 102, 102, 48, 48, 48, 48, 102, 102, 125]

/-- The text `{#ff0000}`. -/
def short_tag : List Int := [123, 35, 102, 102, 48, 48, 48, 48, 125]

/-- The text `{#zz}`. -/
def malformed_tag : List Int := [123, 35, 122, 122, 125]

/-- The text `{#gggggggg}`. -/
def no_digit_tag : List Int := [123, 35, 103, 103, 103, 103, 103, 103, 103, 103, 125]

/-- A font whose 96 glyph rectangles are 3 atlas pixels wide and 8 high in a
128 x 128 atlas, with spacing 1 and no scaling: every advance is 1. -/
def sample_font : Font :=
  { texture := 1
    tex_width := 128
    tex_height := 128
    text_scale := 1
    tex_coords := fun i j =>
      if j = 0 then (i : ℚ) / 128 else if j = 1 then 0
      else if j = 2 then ((i : ℚ) + 3) / 128 else 1 / 16
    spacing := 1 }

/-- The colours of the vertices a call appended, in order. -/
def vertex_colors (r : Option RenderList) : Option (List Color) :=
  r.map fun rl => rl.vertices.map Vertex.color

/-- The loop state at the start of a call that draws in opaque white into an
empty render list with the pen at the origin. -/
def sample_state : TextState := ⟨⟨0, 0⟩, 0xffffffff, 0, RenderList.empty⟩

/-! ## Specification-side notions for the atlas packer -/

/-- The width of the single row holding all 95 glyphs with their padding. -/
def row_need (m : Int → SIZE) : Int :=
  spacing_of (m 120).cy + (alphabet.map fun c => (m c).cx + 2 * spacing_of (m 120).cy).sum

/-- The height of the tallest glyph. -/
def tallest (m : Int → SIZE) : Int :=
  (alphabet.map fun c => (m c).cy).foldr max 0

/-- A side at which the layout is sure to fit: all glyphs in one row. -/
def atlas_need (m : Int → SIZE) : Int := max (row_need m) (tallest m)

/-! ## Font handles (`renderer.hpp`, `renderer.cpp`) -/

/-- `struct FontHandle`. -/
structure FontHandle where
  id : Nat

/-- The data members of `class Renderer` that the text operations use. -/
structure Renderer where
  fonts : List Font
  render_list : RenderList

/-- How a public text operation ends: it returns a value, it throws the
`std::exception` "Bad font handle", it lets the `std::stoul` exception of
`Font::draw_text` escape, or it indexes `fonts` past its end, which is
undefined behaviour. -/
inductive Outcome (α : Type) where
  | returned (value : α)
  | bad_font_handle
  | conversion_error
  | out_of_bounds

/-- `text.c_str()` passed where a `std::string` is expected: the characters
of `text` before its first NUL. -/
def c_str (text : List Int) : List Int :=
  text.takeWhile fun c => c ≠ 0

/-- `Renderer::get_text_extent` (renderer.cpp 271-274): `fonts[font.id]` is
indexed without a range check; the font receives `text.c_str()`. -/
def Renderer.get_text_extent (r : Renderer) (font : FontHandle) (text : List Int) :
    Outcome Vec2 :=
  match r.fonts[font.id]? with
  | some f => Outcome.returned (RendererD3D9.get_text_extent f (c_str text))
  | none => Outcome.out_of_bounds

/-- `Renderer::draw_text` (renderer.cpp 277-283): the handle is checked first
(`font.id < 0` is never true of a `std::size_t`), then the font draws
`text.c_str()`. -/
def Renderer.draw_text (r : Renderer) (render_list : RenderList) (font : FontHandle)
    (position : Vec2) (text : List Int) (color : Color) (flags : Nat) : Outcome RenderList :=
  if font.id ≥ r.fonts.length then Outcome.bad_font_handle
  else
    match r.fonts[font.id]? with
    | some f =>
      match RendererD3D9.draw_text f render_list position (c_str text) color flags with
      | some rl => Outcome.returned rl
      | none => Outcome.conversion_error
    | none => Outcome.out_of_bounds

/-! ## The paint pass as a sequence of glyphs -/

/-- One glyph painted by the paint pass: the character, the pen position
`(x, y)` passed to `ExtTextOut` and the measured size. -/
structure Painted where
  c : Int
  x : Int
  y : Int
  size : SIZE
  deriving DecidableEq

/-- The `ExtTextOut` calls that succeed in the loop of `Font::paint_alphabet`
(font.cpp 154-181) when it paints, in order, with the cursor at `(x, y)`. -/
def painted_chars (gdi : Gdi) (f : Font) : List Int → Int → Int → List Painted
  | [], _, _ => []
  | c :: cs, x, y =>
    match gdi.GetTextExtentPoint32 c with
    | none => []
    | some size =>
      let p := wrap_cursor f x y size
      if p.2 + size.cy > f.tex_height then []
      else if gdi.ExtTextOut p.1 p.2 c = false then []
      else ⟨c, p.1, p.2, size⟩ :: painted_chars gdi f cs (p.1 + size.cx + 2 * f.spacing) p.2

/-- The glyphs painted by `paint_alphabet(ctx, false)`. -/
def painted_alphabet (gdi : Gdi) (f : Font) : List Painted :=
  match gdi.GetTextExtentPoint32 120 with
  | none => []
  | some size =>
    let f1 : Font := { f with spacing := spacing_of size.cy }
    painted_chars gdi f1 alphabet f1.spacing 0

/-- Glyph metrics with one very wide glyph: the space is 200 wide, every other
character 1 wide, all 1 high. -/
def wide_space_metrics (c : Int) : SIZE :=
  if c = 32 then ⟨200, 1⟩ else ⟨1, 1⟩

/-- The rectangle of font.cpp 174-177 for a glyph painted at its pen position. -/
def stored_at (f : Font) (tc : Nat → Nat → ℚ) (g : Painted) : Prop :=
  tc (g.c - 32).toNat 0 = ((g.x - f.spacing : Int) : ℚ) / f.tex_width ∧
  tc (g.c - 32).toNat 1 = ((g.y : Int) : ℚ) / f.tex_height ∧
  tc (g.c - 32).toNat 2 = ((g.x + g.size.cx + f.spacing : Int) : ℚ) / f.tex_width ∧
  tc (g.c - 32).toNat 3 = ((g.y + g.size.cy : Int) : ℚ) / f.tex_height

/-! ## The constructor of `Font` (`font.cpp` 3-123) -/

/-- What `Font::Font` calls outside the font.  `create_gdi_font s` is the
rasterizer selected into the device context by `create_gdi_font` when
`text_scale` is `s` (the family, height and style of the font are fixed), or
`none` when `CreateFontA` returns null; `MaxTextureWidth` is the device cap;
`CreateTexture w h` is the texture created, or `none` on failure. -/
structure FontEnv where
  create_gdi_font : ℚ → Option Gdi
  MaxTextureWidth : Nat
  CreateTexture : Int → Int → Option Texture

/-- How `Font::Font` ends: the font is built, or a `std::runtime_error` is
thrown. -/
inductive Construction where
  | built (f : Font)
  | raised

/-- The `do ... while` loop of font.cpp 48-64 with `fuel` iterations allowed
(`none` when the fuel runs out).  `some none`: `create_gdi_font` failed and the
constructor throws.  `some (some (hr, f, gdi))`: the loop ended with result
code `hr`, font state `f` and selected rasterizer `gdi`.  `text_scale *= 0.9f`
is a single-precision product. -/
def scale_loop (env : FontEnv) :
    Nat → Bool → Font → Option (Option (HRESULT × Font × Gdi))
  | 0, _, _ => none
  | fuel + 1, first_iteration, f =>
    let f1 : Font :=
      if first_iteration then f
      else { f with text_scale := f32_round (f.text_scale * FLT_0_9) }
    match env.create_gdi_font f1.text_scale with
    | none => some none
    | some gdi =>
      match paint_alphabet gdi f1 true with
      | (D3DERR_MOREDATA, f2) => scale_loop env fuel false f2
      | (hr, f2) => some (some (hr, f2, gdi))

/-- The conversion of a `DWORD` to `long` (32 bits, two's complement). -/
def to_long (n : Nat) : Int :=
  if n % 2 ^ 32 < 2 ^ 31 then ((n % 2 ^ 32 : Nat) : Int)
  else ((n % 2 ^ 32 : Nat) : Int) - 2 ^ 32

/-- `static_cast<float>(d3dCaps.MaxTextureWidth) / tex_width` (font.cpp 43)
in single precision: both operands are converted to `float` and the quotient
is rounded.  The divisor is not zero when the cap is a `long`: the division
is reached with `tex_width` above the cap. -/
def clamp_scale (max_texture_width : Nat) (tex_width : Int) : ℚ :=
  f32_round (f32_round ((max_texture_width % 2 ^ 32 : Nat) : ℚ) / f32_round (tex_width : ℚ))

/-- Lines 41-65 of `Font::Font`: the hardware-limit fallback after the measure
phase ended in font state `f` with rasterizer `gdi` and result `hr`. -/
def clamp_phase (env : FontEnv) (fuel : Nat) (hr : HRESULT) (f : Font) (gdi : Gdi) :
    Option (Option (HRESULT × Font × Gdi)) :=
  if f.tex_width > to_long env.MaxTextureWidth then
    let text_scale : ℚ := clamp_scale env.MaxTextureWidth f.tex_width
    scale_loop env fuel true
      { f with text_scale := text_scale, tex_width := to_long env.MaxTextureWidth,
               tex_height := to_long env.MaxTextureWidth }
  else some (some (hr, f, gdi))

/-- The font state when the body of the constructor starts measuring:
`texture(nullptr)`, `spacing(0)`, `text_scale = 1.0f`; `tex_coords` is not
initialised, its content is the argument. -/
def initial_font (tex_coords : Nat → Nat → ℚ) : Font :=
  { texture := 0, tex_width := 128, tex_height := 128, text_scale := 1,
    tex_coords := tex_coords, spacing := 0 }

/-- Lines 67-89 of `Font::Font`: texture creation and the paint pass. -/
def finish_font (env : FontEnv) (f : Font) (gdi : Gdi) : Construction :=
  match env.CreateTexture f.tex_width f.tex_height with
  | none => Construction.raised
  | some texture =>
    match paint_alphabet gdi { f with texture := texture } false with
    | (S_OK, f') => Construction.built f'
    | _ => Construction.raised

/-- `Font::Font` (font.cpp 3-123) with `fuel` iterations allowed in each of its
two loops; `none` when a loop runs out of fuel. -/
def construct (env : FontEnv) (fuel : Nat) (tex_coords : Nat → Nat → ℚ) :
    Option Construction :=
  match env.create_gdi_font 1 with
  | none => some Construction.raised
  | some gdi =>
    match measure_phase gdi fuel (initial_font tex_coords) with
    | none => none
    | some (hr, f) =>
      if hr ≠ S_OK then some Construction.raised
      else
        match clamp_phase env fuel hr f gdi with
        | none => none
        | some none => some Construction.raised
        | some (some (_, f2, gdi2)) => some (finish_font env f2 gdi2)

/-- The scale of the first attempt of `scale_loop`. -/
def first_scale (first_iteration : Bool) (f : Font) : ℚ :=
  if first_iteration then f.text_scale else f32_round (f.text_scale * FLT_0_9)

/-- The scale of the attempt after `k` retries that started at scale `s`:
`s` multiplied `k` times by `0.9f` in single precision. -/
def retry_scale (s : ℚ) : Nat → ℚ
  | 0 => s
  | k + 1 => retry_scale (f32_round (s * FLT_0_9)) k

/-- What the result `r` of the fallback loop says when its last attempt was
the one at scale `s` on font state `f`. -/
def ends_at (env : FontEnv) (f : Font) (s : ℚ) :
    Option (HRESULT × Font × Gdi) → Prop
  | none => env.create_gdi_font s = none
  | some (hr, f', gdi') =>
    env.create_gdi_font s = some gdi' ∧ hr ≠ D3DERR_MOREDATA ∧
    (paint_alphabet gdi' f true).1 = hr ∧ f'.text_scale = s ∧
    f'.tex_width = f.tex_width ∧ f'.tex_height = f.tex_height

/-- The attempt of the fallback loop at scale `scale` overflows the atlas of
font state `f`. -/
def overflows (env : FontEnv) (f : Font) (scale : ℚ) : Prop :=
  ∃ gdi, env.create_gdi_font scale = some gdi ∧
    (paint_alphabet gdi f true).1 = D3DERR_MOREDATA

/-- A rasterizer whose glyphs are one pixel wide and high at every scale, on a
device whose maximum texture width is 1. -/
def stubborn_env : FontEnv :=
  { create_gdi_font := fun _ => some (fixed_metrics fun _ => ⟨1, 1⟩)
    MaxTextureWidth := 1
    CreateTexture := fun _ _ => some 1 }

/-- The font built by a finished construction, if any. -/
def built_font : Option Construction → Option Font
  | some (Construction.built f) => some f
  | _ => none

/-- A rasterizer whose glyphs are 16 wide and high at every scale, on a device
whose maximum texture width is 250: the measure phase ends at side 256, above
the cap, and the layout fits the clamped atlas at the first attempt. -/
def clamped_env : FontEnv :=
  { create_gdi_font := fun _ => some (fixed_metrics fun _ => ⟨16, 16⟩)
    MaxTextureWidth := 250
    CreateTexture := fun _ _ => some 1 }

/-- A rasterizer whose glyphs are 20 wide and high from scale `9 / 10` up and
16 wide and high below, on a device whose maximum texture width is 251: the
measure phase ends at side 256, the first attempt at the clamped side
overflows and the first retry fits. -/
def retry_env : FontEnv :=
  { create_gdi_font := fun s =>
      if s < 9 / 10 then some (fixed_metrics fun _ => ⟨16, 16⟩)
      else some (fixed_metrics fun _ => ⟨20, 20⟩)
    MaxTextureWidth := 251
    CreateTexture := fun _ _ => some 1 }

/-- Glyph metrics with every glyph 1000 wide and 1 high. -/
def wide_metrics (_ : Int) : SIZE := ⟨1000, 1⟩

/-- Glyph metrics with a space `2 ^ 30 + 1` high, taller than every side the
measure loop can reach, and every other glyph empty. -/
def towering_metrics (c : Int) : SIZE :=
  if c = 32 then ⟨0, 2 ^ 30 + 1⟩ else ⟨0, 0⟩

/-- Glyph metrics with every glyph 20 wide and 50 high. -/
def banner_metrics (_ : Int) : SIZE := ⟨20, 50⟩

/-! ## Specification-side notions for batches and glyph runs -/

/-- Two batches share the same (topology, texture) pair. -/
def same_key (a b : Batch) : Prop :=
  a.topology = b.topology ∧ a.texture = b.texture

/-- No two consecutive batches share the same (topology, texture) pair. -/
def adjacent_distinct (bs : List Batch) : Prop :=
  List.Chain' (fun a b => ¬ same_key a b) bs

/-- The batches that `Renderer::draw` submits: non-zero count and known topology. -/
def submitted (b : Batch) : Bool :=
  decide (b.count ≠ 0 ∧ topology_order b.topology > 0)

/-- The number of characters with a visible glyph: codes 33 .. 126. -/
def visible_count (text : List Int) : Nat :=
  text.countP fun c => decide (33 ≤ c ∧ c ≤ 126)

/-- Appending a sequence of runs as triangle lists carrying texture `x`. -/
def add_runs (rl : RenderList) (x : Texture) (runs : List (List Vertex)) : RenderList :=
  runs.foldl (fun r v => add_vertices r v D3DPT_TRIANGLELIST x) rl

/-- The five vertex arrays submitted for a shadowed glyph, in order. -/
def shadow_passes (color : Color) (v : List Vertex) : List (List Vertex) :=
  let shadow_color := D3DCOLOR_ARGB ((color >>> 24) &&& 0xff) 0 0 0
  let v1 := shift 1 0 (recolor shadow_color v)
  let v2 := shift (-2) 0 v1
  let v3 := shift 1 1 v2
  let v4 := shift 0 (-2) v3
  [v1, v2, v3, v4, shift 0 (-1) (recolor color v4)]

/-! ## Specification-side notions for pool offsets, packing and pen travel -/

/-- The offset in the pool at which each submitted batch's vertices were
stored: the sum of the counts of all the batches that precede it, when the
batches before the list hold `pos` vertices. -/
def pool_offsets (pos : Nat) : List Batch → List Nat
  | [] => []
  | b :: rest =>
    if submitted b then pos :: pool_offsets (pos + b.count) rest
    else pool_offsets (pos + b.count) rest

/-- The call appends with a topology that `topology_order` knows. -/
def Call.known : Call → Prop
  | Call.add _ t _ => 0 < topology_order t
  | Call.clear => True

/-- Every batch that holds vertices has a known topology. -/
def counted_known (bs : List Batch) : Prop :=
  ∀ b ∈ bs, b.count ≠ 0 → 0 < topology_order b.topology

/-- Two painted glyphs share a pixel: the half-open pixel rectangles
`[x, x + cx) x [y, y + cy)` at which they are painted intersect. -/
def overlap (a b : Painted) : Prop :=
  ∃ px py : Int,
    a.x ≤ px ∧ px < a.x + a.size.cx ∧ a.y ≤ py ∧ py < a.y + a.size.cy ∧
    b.x ≤ px ∧ px < b.x + b.size.cx ∧ b.y ≤ py ∧ py < b.y + b.size.cy

/-- Glyph `b` lies to the right of glyph `a` or below it. -/
def separated (a b : Painted) : Prop :=
  a.x + a.size.cx ≤ b.x ∨ a.y + a.size.cy ≤ b.y

/-- Glyph metrics whose heights differ: the space is 10 wide and 20 high, every
other character 10 wide and 5 high. -/
def tall_space_metrics (c : Int) : SIZE :=
  if c = 32 then ⟨10, 20⟩ else ⟨10, 5⟩

/-- Glyph metrics whose heights rise along the alphabet: 10 wide, and 10 high
below code 80, 20 high from code 80 on. -/
def rising_metrics (c : Int) : SIZE :=
  if c < 80 then ⟨10, 10⟩ else ⟨10, 20⟩

/-- The text `{#--------}`. -/
def dash_tag : List Int := [123, 35, 45, 45, 45, 45, 45, 45, 45, 45, 125]

/-- `(tx2 - tx1) * tex_width / text_scale - 2.f * spacing`: what
`Font::draw_text` adds to `pos.x` for character `c` (font.cpp 276, 314). -/
def drawn_advance (f : Font) (c : Int) : ℚ :=
  (f.tex_coords (c - 32).toNat 2 - f.tex_coords (c - 32).toNat 0) * f.tex_width
    / f.text_scale - 2 * f.spacing

/-- The horizontal distance between the pen of `Font::draw_text` when its loop
ends and the pen when it starts, for flags without alignment (the loop starts
at `pos.x - spacing`); `none` when `std::stoul` throws. -/
def pen_travel (f : Font) (render_list : RenderList) (pos : Vec2) (text : List Int)
    (color : Color) (flags : Nat) : Option ℚ :=
  let start : Vec2 := ⟨pos.x - f.spacing, pos.y⟩
  (draw_text_loop f flags start.x text ⟨start, color, 0, render_list⟩).map
    fun st => st.pos.x - start.x

/-! ## Batch accumulator: theorems -/

/-- Claim C1 (merge rule of `add_vertices`).  For every render list, every
list-type topology `t`, every texture `x` and every run `vs` of `N` vertices:
the run is appended to the pool; if the tail batch exists and has topology `t`
and texture `x`, the batch list keeps its length, every batch but the tail is
unchanged and the tail count rises by exactly `N`; if there is no batch, or the
tail batch differs in topology or in texture, the existing batches are
unchanged and one new batch `(N, t, x)` is pushed. -/
theorem add_vertices_merge_rule (rl : RenderList) (t : ToplogyType) (x : Texture)
    (vs : List Vertex) (ht : is_toplogy_list t = true) :
    (add_vertices rl vs t x).vertices = rl.vertices ++ vs ∧
    (∀ back, rl.batches.getLast? = some back → back.topology = t → back.texture = x →
      (add_vertices rl vs t x).batches
        = rl.batches.dropLast ++ [⟨back.count + vs.length, t, x⟩] ∧
      (add_vertices rl vs t x).batches.length = rl.batches.length) ∧
    ((rl.batches = [] ∨ ∃ back, rl.batches.getLast? = some back ∧
        (back.topology ≠ t ∨ back.texture ≠ x)) →
      (add_vertices rl vs t x).batches = rl.batches ++ [⟨vs.length, t, x⟩]) := by
  have hclose : ∀ bs, close_strip bs t = bs := by
    intro bs
    cases t <;> simp_all [close_strip, is_toplogy_list]
  refine ⟨rfl, ?_, ?_⟩
  · intro back hb htop htex
    have hopen : open_batch rl.batches t x = rl.batches := by
      simp [open_batch, hb, htop, htex]
    have hne : rl.batches ≠ [] := by
      intro h; simp [h] at hb
    have : (add_vertices rl vs t x).batches
        = rl.batches.dropLast ++ [⟨back.count + vs.length, t, x⟩] := by
      simp only [add_vertices, hclose, hopen, bump_back, hb]
      cases back; simp_all
    refine ⟨this, ?_⟩
    rw [this]
    simp [List.length_dropLast]
    have := List.length_pos.mpr hne
    omega
  · intro h
    have hopen : open_batch rl.batches t x = rl.batches ++ [⟨0, t, x⟩] := by
      rcases h with h | ⟨back, hb, hd⟩
      · simp [open_batch, h]
      · simp only [open_batch, hb]
        simp [hd]
    simp [add_vertices, hclose, hopen, bump_back]

/-- A list with a last element is its `dropLast` followed by that element. -/
theorem getLast?_eq_some_split {α : Type} (l : List α) (a : α) (h : l.getLast? = some a) :
    l = l.dropLast ++ [a] := by
  induction l using List.reverseRecOn with
  | nil => simp at h
  | append_singleton l b _ =>
    simp [List.getLast?_concat] at h
    simp [h]

/-- Lines 7-12 of `add_vertices` in closed form: merge into the tail or push a new batch. -/
theorem bump_open (bs : List Batch) (t : ToplogyType) (x : Texture) (N : Nat) :
    bump_back (open_batch bs t x) N =
      match bs.getLast? with
      | none => bs ++ [⟨N, t, x⟩]
      | some back =>
        if back.topology = t ∧ back.texture = x then
          bs.dropLast ++ [⟨back.count + N, t, x⟩]
        else bs ++ [⟨N, t, x⟩] := by
  cases h : bs.getLast? with
  | none => simp [open_batch, bump_back, h]
  | some back =>
    by_cases hc : back.topology = t ∧ back.texture = x
    · have hopen : open_batch bs t x = bs := by
        simp [open_batch, h, hc.1, hc.2]
      obtain ⟨h1, h2⟩ := hc
      subst h1 h2
      simp [hopen, bump_back, h]
    · have hd : back.topology ≠ t ∨ back.texture ≠ x := by
        by_contra hn
        push_neg at hn
        exact hc hn
      have hopen : open_batch bs t x = bs ++ [⟨0, t, x⟩] := by
        simp only [open_batch, h]
        simp [hd]
      simp [hopen, bump_back, hc]

/-- Lines 7-12 of `add_vertices` raise the sum of counts by `N`. -/
theorem count_sum_bump_open (bs : List Batch) (t : ToplogyType) (x : Texture) (N : Nat) :
    count_sum (bump_back (open_batch bs t x) N) = count_sum bs + N := by
  rw [bump_open]
  cases h : bs.getLast? with
  | none => simp [count_sum]
  | some back =>
    have hs := getLast?_eq_some_split bs back h
    by_cases hc : back.topology = t ∧ back.texture = x
    · simp only [hc, and_self, if_true]
      conv_rhs => rw [hs]
      simp [count_sum]
      omega
    · simp only [hc, if_false]
      simp [count_sum]

/-- The sentinel contributes nothing to the sum of counts. -/
theorem count_sum_close_strip (bs : List Batch) (t : ToplogyType) :
    count_sum (close_strip bs t) = count_sum bs := by
  cases t <;> simp [close_strip, count_sum]

/-- Length consistency is preserved by one call. -/
theorem apply_length_consistent (rl : RenderList) (c : Call)
    (h : rl.vertices.length = count_sum rl.batches) :
    (c.apply rl).vertices.length = count_sum (c.apply rl).batches := by
  cases c with
  | add vs t x =>
    simp only [Call.apply, add_vertices, count_sum_close_strip, count_sum_bump_open,
      List.length_append, h]
  | clear => simp [Call.apply, RenderList.clear, count_sum]

/-- Length consistency is preserved by a sequence of calls. -/
theorem foldl_length_consistent (calls : List Call) (rl : RenderList)
    (h : rl.vertices.length = count_sum rl.batches) :
    (calls.foldl Call.apply rl).vertices.length
      = count_sum (calls.foldl Call.apply rl).batches := by
  induction calls generalizing rl with
  | nil => simpa using h
  | cons c cs ih => exact ih _ (apply_length_consistent rl c h)

/-- Claim C4 (length consistency).  In every state reached from the empty
render list by any sequence of `add_vertices` and `clear` calls, the number of
vertices in the pool equals the sum of the counts of all batches. -/
theorem render_list_length_consistent (calls : List Call) :
    (run_calls calls).vertices.length = count_sum (run_calls calls).batches :=
  foldl_length_consistent calls RenderList.empty rfl

/-- After lines 7-12 of `add_vertices` the tail batch has the requested topology and texture. -/
theorem bump_open_getLast (bs : List Batch) (t : ToplogyType) (x : Texture) (N : Nat) :
    ∃ c, (bump_back (open_batch bs t x) N).getLast? = some ⟨c, t, x⟩ := by
  rw [bump_open]
  cases h : bs.getLast? with
  | none => exact ⟨_, List.getLast?_concat _⟩
  | some back =>
    by_cases hc : back.topology = t ∧ back.texture = x
    · simp only [hc, and_self, if_true]
      exact ⟨_, List.getLast?_concat _⟩
    · simp only [hc, if_false]
      exact ⟨_, List.getLast?_concat _⟩

/-- After any call the tail batch is not a strip batch. -/
theorem apply_tail_not_strip (rl : RenderList) (c : Call) :
    tail_not_strip (c.apply rl).batches := by
  cases c with
  | add vs t x =>
    obtain ⟨n, hn⟩ := bump_open_getLast rl.batches t x vs.length
    intro b hb
    cases t <;>
      simp_all [Call.apply, add_vertices, close_strip, List.getLast?_concat] <;>
      subst hb <;> simp
  | clear =>
    intro b hb
    simp [Call.apply, RenderList.clear] at hb

/-- In every reachable render list the tail batch is not a strip batch. -/
theorem run_calls_tail_not_strip (calls : List Call) :
    tail_not_strip (run_calls calls).batches := by
  induction calls using List.reverseRecOn with
  | nil => intro b hb; simp [run_calls, RenderList.empty] at hb
  | append_singleton cs c _ =>
    simp only [run_calls, List.foldl_append, List.foldl_cons, List.foldl_nil]
    exact apply_tail_not_strip _ c

/-- A strip appended to a list whose tail has another topology pushes the strip and a sentinel. -/
theorem add_strip_batches (rl : RenderList) (vs : List Vertex) (t : ToplogyType) (x : Texture)
    (ht : t = D3DPT_LINESTRIP ∨ t = D3DPT_TRIANGLESTRIP)
    (hrl : ∀ b, rl.batches.getLast? = some b → b.topology ≠ t) :
    (add_vertices rl vs t x).batches = rl.batches ++ [⟨vs.length, t, x⟩, sentinel] := by
  have hcore : bump_back (open_batch rl.batches t x) vs.length
      = rl.batches ++ [⟨vs.length, t, x⟩] := by
    rw [bump_open]
    cases h : rl.batches.getLast? with
    | none => rfl
    | some back =>
      have := hrl back h
      simp [this]
  simp only [add_vertices, hcore]
  rcases ht with ht | ht <;> subst ht <;> simp [close_strip, sentinel]

/-- Claim C2 (strips never merge).  In every render list reached by calls of
`add_vertices` and `clear`, appending a triangle-strip run and then a second
triangle-strip run with the same texture pushes four batches: the first strip
with count `N1`, an empty sentinel, the second strip with count `N2`, an empty
sentinel; the two runs are never one batch of count `N1 + N2`.  The same holds
for two line-strip runs. -/
theorem strips_never_merge (calls : List Call) (x : Texture) (vs1 vs2 : List Vertex) :
    (add_vertices (add_vertices (run_calls calls) vs1 D3DPT_TRIANGLESTRIP x)
        vs2 D3DPT_TRIANGLESTRIP x).batches
      = (run_calls calls).batches ++
          [⟨vs1.length, D3DPT_TRIANGLESTRIP, x⟩, sentinel,
           ⟨vs2.length, D3DPT_TRIANGLESTRIP, x⟩, sentinel] ∧
    (add_vertices (add_vertices (run_calls calls) vs1 D3DPT_LINESTRIP x)
        vs2 D3DPT_LINESTRIP x).batches
      = (run_calls calls).batches ++
          [⟨vs1.length, D3DPT_LINESTRIP, x⟩, sentinel,
           ⟨vs2.length, D3DPT_LINESTRIP, x⟩, sentinel] := by
  have hr := run_calls_tail_not_strip calls
  constructor
  · rw [add_strip_batches _ vs2 _ x (Or.inr rfl), add_strip_batches _ vs1 _ x (Or.inr rfl)]
    · simp
    · intro b hb; exact (hr b hb).2
    · intro b hb
      rw [add_strip_batches _ vs1 _ x (Or.inr rfl) (fun b hb => (hr b hb).2)] at hb
      have : (run_calls calls).batches ++ [⟨vs1.length, D3DPT_TRIANGLESTRIP, x⟩, sentinel]
          = ((run_calls calls).batches ++ [⟨vs1.length, D3DPT_TRIANGLESTRIP, x⟩]) ++ [sentinel] := by
        simp
      rw [this, List.getLast?_concat] at hb
      cases hb
      simp [sentinel]
  · rw [add_strip_batches _ vs2 _ x (Or.inl rfl), add_strip_batches _ vs1 _ x (Or.inl rfl)]
    · simp
    · intro b hb; exact (hr b hb).1
    · intro b hb
      rw [add_strip_batches _ vs1 _ x (Or.inl rfl) (fun b hb => (hr b hb).1)] at hb
      have : (run_calls calls).batches ++ [⟨vs1.length, D3DPT_LINESTRIP, x⟩, sentinel]
          = ((run_calls calls).batches ++ [⟨vs1.length, D3DPT_LINESTRIP, x⟩]) ++ [sentinel] := by
        simp
      rw [this, List.getLast?_concat] at hb
      cases hb
      simp [sentinel]

/-! ## Draw submitter: theorems -/

/-- Counterexample to C5 as stated.  A triangle strip of one vertex is
submitted with primitive count 4294967295, not `1 - 2`; and a count of `2 ^ 32`
is truncated by the conversion to `std::uint32_t`, so a point list of `2 ^ 32`
vertices gets primitive count 0. -/
theorem primitive_count_wraps :
    draw (add_vertices RenderList.empty (sample_run 1) D3DPT_TRIANGLESTRIP 0)
      = [⟨D3DPT_TRIANGLESTRIP, 0, 0, 4294967295⟩] ∧
    (primitive_count 1 D3DPT_TRIANGLESTRIP : Int) ≠ spec_primitive_count 1 D3DPT_TRIANGLESTRIP ∧
    (primitive_count 4294967296 D3DPT_POINTLIST : Int)
      ≠ spec_primitive_count 4294967296 D3DPT_POINTLIST := by
  decide

/-- Claim C5, amended (primitive-count translation).  For every non-empty batch
with a known topology whose count `n` is below `2 ^ 32` and, for a strip or
fan, at least `order - 1`, `Renderer::draw` issues one draw call for it whose
primitive count is `n div 1`, `n div 2`, `n div 3` for a point, line, triangle
list and `n - 1`, `n - 2` for a line strip, triangle strip or fan; 6 vertices
give 2 primitives as a triangle list and 4 as a triangle strip. -/
theorem primitive_count_translation (pos : Nat) (b : Batch) (rest : List Batch)
    (hne : b.count ≠ 0) (hlt : b.count < 2 ^ 32) (hknown : 0 < topology_order b.topology)
    (hstrip : is_toplogy_list b.topology = false → topology_order b.topology - 1 ≤ b.count) :
    draw_from pos (b :: rest)
      = ⟨b.topology, b.texture, pos % UINT_MOD, primitive_count b.count b.topology⟩
          :: draw_from (pos + b.count) rest ∧
    (primitive_count b.count b.topology : Int) = spec_primitive_count b.count b.topology ∧
    primitive_count 6 D3DPT_TRIANGLELIST = 2 ∧ primitive_count 6 D3DPT_TRIANGLESTRIP = 4 := by
  refine ⟨?_, ?_, by decide, by decide⟩
  · rw [draw_from, if_pos ⟨hne, hknown⟩]
  · obtain ⟨n, t, x⟩ := b
    simp only at hne hlt hknown hstrip ⊢
    have hmod : n % UINT_MOD = n := Nat.mod_eq_of_lt (by simpa [UINT_MOD] using hlt)
    cases t <;>
      simp only [primitive_count, hmod, is_toplogy_list, topology_order, spec_primitive_count,
        UINT_MOD] at hknown hstrip ⊢ <;>
      simp at hknown hstrip ⊢ <;>
      omega

/-- Witness for C5: a triangle strip of 6 vertices is drawn with 4
primitives. -/
theorem primitive_count_translation_witness :
    draw_from 0 [⟨6, D3DPT_TRIANGLESTRIP, 0⟩] = [⟨D3DPT_TRIANGLESTRIP, 0, 0, 4⟩] ∧
    (primitive_count 6 D3DPT_TRIANGLESTRIP : Int) = 6 - 2 :=
  ⟨(primitive_count_translation 0 ⟨6, D3DPT_TRIANGLESTRIP, 0⟩ [] (by decide) (by decide)
      (by decide) (by decide)).1,
   (primitive_count_translation 0 ⟨6, D3DPT_TRIANGLESTRIP, 0⟩ [] (by decide) (by decide)
      (by decide) (by decide)).2.1⟩

/-- Claim C3, evaluation of the code at the failing input: two triangle-fan
runs of 3 vertices with the same texture, appended to the empty render list,
end in ONE batch of count 6 with no sentinel, and `draw` submits it as one fan
of 4 primitives. -/
theorem triangle_fans_merge :
    (add_vertices (add_vertices RenderList.empty (sample_run 3) D3DPT_TRIANGLEFAN 0)
        (sample_run 3) D3DPT_TRIANGLEFAN 0).batches = [⟨6, D3DPT_TRIANGLEFAN, 0⟩] ∧
    draw (add_vertices (add_vertices RenderList.empty (sample_run 3) D3DPT_TRIANGLEFAN 0)
        (sample_run 3) D3DPT_TRIANGLEFAN 0) = [⟨D3DPT_TRIANGLEFAN, 0, 0, 4⟩] := by
  decide

/-! ## Text extent: theorems -/

/-- A text has at least one row. -/
theorem rows_ne_nil (text : List Int) : rows text ≠ [] := by
  cases text with
  | nil => simp [rows]
  | cons c cs =>
    unfold rows
    split_ifs
    · simp
    · cases rows cs <;> simp

/-- A leading newline opens an empty first row. -/
theorem rows_cons_newline (cs : List Int) : rows (10 :: cs) = [] :: rows cs := by
  simp [rows]

/-- A leading non-newline character joins the first row of the rest. -/
theorem rows_cons_glyph (c : Int) (cs : List Int) (hc : c ≠ 10) :
    ∃ r rs, rows cs = r :: rs ∧ rows (c :: cs) = (c :: r) :: rs := by
  cases h : rows cs with
  | nil => exact absurd h (rows_ne_nil cs)
  | cons r rs => exact ⟨r, rs, rfl, by simp [rows, hc, h]⟩

/-- The characters of a row are non-newline characters of the text. -/
theorem rows_mem_text (text : List Int) :
    ∀ r ∈ rows text, ∀ c ∈ r, c ∈ text ∧ c ≠ 10 := by
  induction text with
  | nil => intro r hr c hc; simp [rows] at hr; subst hr; simp at hc
  | cons a cs ih =>
    intro r hr c hc
    by_cases ha : a = 10
    · subst ha
      rw [rows_cons_newline] at hr
      rcases List.mem_cons.mp hr with h | h
      · subst h; simp at hc
      · exact ⟨List.mem_cons_of_mem _ (ih r h c hc).1, (ih r h c hc).2⟩
    · obtain ⟨r0, rs, h1, h2⟩ := rows_cons_glyph a cs ha
      rw [h2] at hr
      rcases List.mem_cons.mp hr with h | h
      · subst h
        rcases List.mem_cons.mp hc with h' | h'
        · subst h'; exact ⟨List.mem_cons_self _ _, ha⟩
        · have := ih r0 (by rw [h1]; exact List.mem_cons_self _ _) c h'
          exact ⟨List.mem_cons_of_mem _ this.1, this.2⟩
      · have := ih r (by rw [h1]; exact List.mem_cons_of_mem _ h) c hc
        exact ⟨List.mem_cons_of_mem _ this.1, this.2⟩

/-- A row of non-negative contributions has a non-negative sum. -/
theorem row_width_nonneg (f : Font) (row : List Int)
    (h : ∀ c ∈ row, 0 ≤ advance f c) : 0 ≤ row_width f row := by
  unfold row_width
  apply List.sum_nonneg
  intro x hx
  obtain ⟨c, hc, rfl⟩ := List.mem_map.mp hx
  exact h c hc

/-- The loop of `get_text_extent` adds one row height per newline. -/
theorem extent_height (f : Font) (text : List Int) :
    ∀ s : ExtentState, (text.foldl (get_text_extent_step f) s).height
      = s.height + (text.count 10 : ℚ) * row_height f := by
  induction text with
  | nil => intro s; simp
  | cons c cs ih =>
    intro s
    rw [List.foldl_cons, ih]
    by_cases hc : c = 10
    · subst hc
      simp [get_text_extent_step]
      ring
    · have : List.count 10 (c :: cs) = List.count 10 cs := by
        rw [List.count_cons]
        simp [hc]
      rw [this]
      unfold get_text_extent_step
      simp only [hc, if_false]
      split_ifs <;> rfl

/-- The loop of `get_text_extent` from a state with `row_width ≤ width`: the final width is the maximum of the initial width, the first row continued from the initial row width, and the later rows. -/
theorem extent_width (f : Font) (text : List Int)
    (hadv : ∀ c, 32 ≤ c → c ≤ 126 → 0 ≤ advance f c)
    (htext : ∀ c ∈ text, c = 10 ∨ (32 ≤ c ∧ c ≤ 126)) :
    ∀ s : ExtentState, s.row_width ≤ s.width → 0 ≤ s.width →
      ∃ r rs, rows text = r :: rs ∧
        s.width ≤ (text.foldl (get_text_extent_step f) s).width ∧
        s.row_width + row_width f r ≤ (text.foldl (get_text_extent_step f) s).width ∧
        (∀ r' ∈ rs, row_width f r' ≤ (text.foldl (get_text_extent_step f) s).width) ∧
        ((text.foldl (get_text_extent_step f) s).width = s.width ∨
         (text.foldl (get_text_extent_step f) s).width = s.row_width + row_width f r ∨
         ∃ r' ∈ rs, (text.foldl (get_text_extent_step f) s).width = row_width f r') := by
  induction text with
  | nil =>
    intro s hs _
    refine ⟨[], [], rfl, ?_⟩
    simp [row_width, hs]
  | cons c cs ih =>
    intro s hs h0
    have hcs : ∀ c ∈ cs, c = 10 ∨ (32 ≤ c ∧ c ≤ 126) :=
      fun a ha => htext a (List.mem_cons_of_mem _ ha)
    rw [List.foldl_cons]
    by_cases hc : c = 10
    · subst hc
      have hstep : get_text_extent_step f s 10
          = { s with row_width := 0, height := s.height + row_height f } := by
        simp [get_text_extent_step]
      obtain ⟨r0, rs0, hrows, ha, hb, hrest, hcase⟩ :=
        ih hcs (get_text_extent_step f s 10) (by rw [hstep]; exact h0) (by rw [hstep]; exact h0)
      rw [hstep] at ha hb hcase hrest ⊢
      simp only at ha hb hcase
      refine ⟨[], r0 :: rs0, by rw [rows_cons_newline, hrows], ha, ?_, ?_, ?_⟩
      · simp only [row_width, List.map_nil, List.sum_nil, add_zero]
        exact le_trans hs ha
      · intro r' hr'
        rcases List.mem_cons.mp hr' with h | h
        · subst h; simpa using hb
        · exact hrest r' h
      · rcases hcase with h | h | ⟨r', hr', h⟩
        · exact Or.inl h
        · exact Or.inr (Or.inr ⟨r0, List.mem_cons_self _ _, by simpa using h⟩)
        · exact Or.inr (Or.inr ⟨r', List.mem_cons_of_mem _ hr', h⟩)
    · have hrange : 32 ≤ c ∧ c ≤ 126 := by
        rcases htext c (List.mem_cons_self _ _) with h | h
        · exact absurd h hc
        · exact h
      have hadvc : 0 ≤ advance f c := hadv c hrange.1 hrange.2
      have hstep : get_text_extent_step f s c
          = { s with row_width := s.row_width + advance f c,
                     width := if s.row_width + advance f c > s.width
                       then s.row_width + advance f c else s.width } := by
        unfold get_text_extent_step
        simp only [hc, if_false]
        rw [if_neg (by omega)]
      obtain ⟨r0, rs0, hrows0, hrows⟩ := rows_cons_glyph c cs hc
      have hr0 : 0 ≤ row_width f r0 := by
        apply row_width_nonneg
        intro a ha
        have hmem := rows_mem_text cs r0 (by rw [hrows0]; exact List.mem_cons_self _ _) a ha
        rcases hcs a hmem.1 with h | h
        · exact absurd h hmem.2
        · exact hadv a h.1 h.2
      have hw' : s.width ≤ (if s.row_width + advance f c > s.width
          then s.row_width + advance f c else s.width) := by
        split_ifs with h
        · exact le_of_lt h
        · exact le_refl _
      have hrw' : s.row_width + advance f c ≤ (if s.row_width + advance f c > s.width
          then s.row_width + advance f c else s.width) := by
        split_ifs with h
        · exact le_refl _
        · exact not_lt.mp h
      obtain ⟨r1, rs1, hrows1, ha, hb, hrest, hcase⟩ :=
        ih hcs (get_text_extent_step f s c) (by rw [hstep]; exact hrw')
          (by rw [hstep]; exact le_trans h0 hw')
      rw [hrows0] at hrows1
      obtain ⟨rfl, rfl⟩ := List.cons.inj hrows1
      rw [hstep] at ha hb hcase hrest ⊢
      simp only at ha hb hcase
      generalize (List.foldl (get_text_extent_step f) _ cs).width = W at ha hb hrest hcase ⊢
      have hsum : row_width f (c :: r0) = advance f c + row_width f r0 := by
        simp [row_width]
      refine ⟨c :: r0, rs0, hrows, le_trans hw' ha, ?_, hrest, ?_⟩
      · rw [hsum]; linarith
      · rcases hcase with h | h | h
        · by_cases hgt : s.row_width + advance f c > s.width
          · rw [if_pos hgt] at h ha
            right; left
            rw [hsum]
            linarith
          · rw [if_neg hgt] at h
            exact Or.inl h
        · right; left
          rw [hsum, h]; ring
        · exact Or.inr (Or.inr h)

/-- The width of a text that is a single row is its row sum. -/
theorem extent_single_row (f : Font) (text : List Int)
    (hadv : ∀ c, 32 ≤ c → c ≤ 126 → 0 ≤ advance f c)
    (htext : ∀ c ∈ text, c = 10 ∨ (32 ≤ c ∧ c ≤ 126)) (hrows : rows text = [text]) :
    (get_text_extent f text).x = row_width f text := by
  obtain ⟨r0, rs0, hr, _, hb, _, hcase⟩ :=
    extent_width f text hadv htext ⟨0, 0, row_height f⟩ (le_refl _) (le_refl _)
  rw [hrows] at hr
  obtain ⟨h1, h2⟩ := List.cons.inj hr
  subst h1 h2
  have h0 : 0 ≤ row_width f text := by
    apply row_width_nonneg
    intro a ha
    rcases htext a ha with h | h
    · have := rows_mem_text text text (by rw [hrows]; exact List.mem_singleton.mpr rfl) a ha
      exact absurd h this.2
    · exact hadv a h.1 h.2
  simp only [zero_add] at hb hcase
  simp only [get_text_extent]
  rcases hcase with h | h | ⟨r', hr', _⟩
  · rw [h] at hb ⊢
    exact le_antisymm h0 hb
  · exact h
  · simp at hr'

/-- Claim C6 (`Font::get_text_extent` over exact arithmetic).  For a font whose
per-character contributions `(u2 - u1) * texWidth - 2 * spacing` are
non-negative on the printable range (as they are for every font the paint pass
builds from non-negative glyph widths) and a text of printable characters
(codes 32..126) and newlines: the height is `(1 + number of newlines) *
rowHeight`; the width is the maximum over the newline-separated rows of the
row sums (it bounds every row sum and is attained by one); the empty text
gives `(0, rowHeight)`; and `A\nBB` gives width `max (widthOf A) (widthOf BB)`
and height `2 * rowHeight`, `widthOf` being the measured width. -/
theorem get_text_extent_spec (f : Font) (text : List Int)
    (hadv : ∀ c, 32 ≤ c → c ≤ 126 → 0 ≤ advance f c)
    (htext : ∀ c ∈ text, c = 10 ∨ (32 ≤ c ∧ c ≤ 126)) :
    (get_text_extent f text).y = (1 + (text.count 10 : ℚ)) * row_height f ∧
    (∀ r ∈ rows text, row_width f r ≤ (get_text_extent f text).x) ∧
    (∃ r ∈ rows text, row_width f r = (get_text_extent f text).x) ∧
    get_text_extent f [] = ⟨0, row_height f⟩ ∧
    get_text_extent f [65, 10, 66, 66]
      = ⟨max (get_text_extent f [65]).x (get_text_extent f [66, 66]).x,
          2 * row_height f⟩ := by
  refine ⟨?_, ?_, ?_, ?_, ?_⟩
  · simp only [get_text_extent, extent_height]
    ring
  · obtain ⟨r0, rs0, hrows, _, hb, hrest, _⟩ :=
      extent_width f text hadv htext ⟨0, 0, row_height f⟩ (le_refl _) (le_refl _)
    intro r hr
    rw [hrows] at hr
    rcases List.mem_cons.mp hr with h | h
    · subst h; simpa [get_text_extent] using hb
    · exact hrest r h
  · obtain ⟨r0, rs0, hrows, _, hb, hrest, hcase⟩ :=
      extent_width f text hadv htext ⟨0, 0, row_height f⟩ (le_refl _) (le_refl _)
    have hr0 : 0 ≤ row_width f r0 := by
      apply row_width_nonneg
      intro a ha
      have hmem := rows_mem_text text r0 (by rw [hrows]; exact List.mem_cons_self _ _) a ha
      rcases htext a hmem.1 with h | h
      · exact absurd h hmem.2
      · exact hadv a h.1 h.2
    simp only [zero_add] at hb hcase
    rcases hcase with h | h | ⟨r', hr', h⟩
    · refine ⟨r0, by rw [hrows]; exact List.mem_cons_self _ _, ?_⟩
      simp only [get_text_extent]
      linarith
    · exact ⟨r0, by rw [hrows]; exact List.mem_cons_self _ _, h.symm⟩
    · exact ⟨r', by rw [hrows]; exact List.mem_cons_of_mem _ hr', h.symm⟩
  · simp [get_text_extent]
  · have hT : ∀ c ∈ ([65, 10, 66, 66] : List Int), c = 10 ∨ (32 ≤ c ∧ c ≤ 126) := by decide
    have hrowsT : rows [65, 10, 66, 66] = [[65], [66, 66]] := by decide
    obtain ⟨r0, rs0, hrows, _, hb, hrest, hcase⟩ :=
      extent_width f [65, 10, 66, 66] hadv hT ⟨0, 0, row_height f⟩ (le_refl _) (le_refl _)
    rw [hrowsT] at hrows
    obtain ⟨rfl, rfl⟩ := List.cons.inj hrows
    have hA : 0 ≤ row_width f [65] := by
      simpa [row_width] using hadv 65 (by norm_num) (by norm_num)
    have h2 := hrest [66, 66] (List.mem_singleton.mpr rfl)
    simp only [zero_add] at hb hcase
    have hx : (get_text_extent f [65, 10, 66, 66]).x
        = max (row_width f [65]) (row_width f [66, 66]) := by
      simp only [get_text_extent]
      rcases hcase with h | h | ⟨r', hr', h⟩
      · rw [h] at hb h2 ⊢
        have e1 : row_width f [65] = 0 := le_antisymm hb hA
        rw [e1]
        exact (max_eq_left h2).symm
      · rw [h] at h2 ⊢
        exact (max_eq_left h2).symm
      · rw [List.mem_singleton.mp hr'] at h
        rw [h] at hb ⊢
        exact (max_eq_right hb).symm
    have hy : (get_text_extent f [65, 10, 66, 66]).y = 2 * row_height f := by
      simp only [get_text_extent, extent_height]
      have : List.count (10 : Int) [65, 10, 66, 66] = 1 := by decide
      rw [this]
      norm_num
      ring
    have hwA := extent_single_row f [65] hadv (by decide) (by decide)
    have hwB := extent_single_row f [66, 66] hadv (by decide) (by decide)
    cases hg : get_text_extent f [65, 10, 66, 66] with
    | mk x y =>
      rw [hg] at hx hy
      simp only at hx hy
      rw [hx, hy, hwA, hwB]

/-! ## Colour tags: theorems -/

/-- The loop of `draw_text` is its first `n` iterations followed by the loop on what is left. -/
theorem draw_text_loop_eq_steps (f : Font) (flags : Nat) (sx : ℚ) (n : Nat) :
    ∀ (text : List Int) (st : TextState),
      draw_text_loop f flags sx text st
        = (draw_text_steps f flags sx n text st).bind
            (fun p => draw_text_loop f flags sx p.2 p.1) := by
  induction n with
  | zero => intro text st; simp [draw_text_steps]
  | succ n ih =>
    intro text st
    cases text with
    | nil => simp [draw_text_steps, draw_text_loop]
    | cons c rest =>
      simp only [draw_text_steps, draw_text_loop]
      cases h : draw_text_step f flags sx c rest st with
      | none => simp
      | some s2 => simp only [Option.some_bind]; exact ih rest s2

/-- Running `n + m` iterations is running `n` and then `m`. -/
theorem draw_text_steps_add (f : Font) (flags : Nat) (sx : ℚ) (n m : Nat) :
    ∀ (text : List Int) (st : TextState),
      draw_text_steps f flags sx (n + m) text st
        = (draw_text_steps f flags sx n text st).bind
            (fun p => draw_text_steps f flags sx m p.2 p.1) := by
  induction n with
  | zero => intro text st; simp [draw_text_steps]
  | succ n ih =>
    intro text st
    cases text with
    | nil =>
      rw [show n + 1 + m = (n + m) + 1 by ring]
      simp only [draw_text_steps, Option.some_bind]
      cases m <;> simp [draw_text_steps]
    | cons c rest =>
      rw [show n + 1 + m = (n + m) + 1 by ring]
      simp only [draw_text_steps]
      cases h : draw_text_step f flags sx c rest st with
      | none => simp
      | some s2 => simp only [Option.some_bind]; exact ih rest s2

/-- With `num_to_skip = k`, the next `k` iterations only count down. -/
theorem draw_text_steps_skip (f : Font) (flags : Nat) (sx : ℚ) (skipped : List Int) :
    ∀ (rest : List Int) (st : TextState), st.num_to_skip = skipped.length →
      draw_text_steps f flags sx skipped.length (skipped ++ rest) st
        = some ({ st with num_to_skip := 0 }, rest) := by
  induction skipped with
  | nil =>
    intro rest st h
    cases st
    simp_all [draw_text_steps]
  | cons c cs ih =>
    intro rest st h
    simp only [List.length_cons] at h
    have hstep : draw_text_step f flags sx c (cs ++ rest) st
        = some { st with num_to_skip := cs.length } := by
      unfold draw_text_step
      rw [if_pos (by omega)]
      simp [h]
    show draw_text_steps f flags sx (cs.length + 1) (c :: (cs ++ rest)) st = _
    rw [draw_text_steps, hstep, Option.some_bind]
    exact ih rest { st with num_to_skip := cs.length } rfl

/-- The tag test at `{#ff0000ff}` followed by further text: the long form, colour `0xff0000ff`. -/
theorem color_tag_long (post : List Int) (hpost : post ≠ []) :
    color_tag (long_tag ++ post) = some (10, some 0xff0000ff) := by
  cases post with
  | nil => exact absurd rfl hpost
  | cons p ps =>
    have h1 : (long_tag ++ p :: ps).length > 11 := by simp [long_tag]
    have h2 : (long_tag ++ p :: ps).take 11 = long_tag := by simp [long_tag]
    unfold color_tag
    rw [if_pos h1, h2]
    decide

/-- From a state that is not skipping, 11 iterations at `{#ff0000ff}` change the colour only. -/
theorem long_tag_step (f : Font) (flags : Nat) (sx : ℚ)
    (hflag : flags &&& TEXT_COLORTAGS ≠ 0) (post : List Int) (hpost : post ≠ [])
    (st : TextState) (hskip : st.num_to_skip = 0) :
    draw_text_steps f flags sx 11 (long_tag ++ post) st
      = some ({ st with color := 0xff0000ff }, post) := by
  have hc := color_tag_long post hpost
  have e : long_tag ++ post
      = 123 :: ([35, 102, 102, 48, 48, 48, 48, 102, 102, 125] ++ post) := rfl
  rw [e] at hc ⊢
  have hstep : draw_text_step f flags sx 123
      ([35, 102, 102, 48, 48, 48, 48, 102, 102, 125] ++ post) st
      = some { st with num_to_skip := 10, color := 0xff0000ff } := by
    unfold draw_text_step
    rw [if_neg (by omega), if_pos ⟨hflag, rfl⟩, hc]
    simp [hskip]
  rw [show (11 : Nat) = 10 + 1 by rfl]
  simp only [draw_text_steps, hstep, Option.some_bind]
  have := draw_text_steps_skip f flags sx [35, 102, 102, 48, 48, 48, 48, 102, 102, 125] post
    { st with num_to_skip := 10, color := 0xff0000ff } rfl
  simpa [hskip] using this

/-- The glyph step leaves `num_to_skip` alone. -/
theorem draw_glyph_skip (f : Font) (flags : Nat) (sx : ℚ) (st : TextState) (c : Int) :
    (draw_glyph f flags sx st c).num_to_skip = st.num_to_skip := by
  unfold draw_glyph
  split_ifs <;> rfl

/-- The glyph step leaves the colour alone. -/
theorem draw_glyph_color (f : Font) (flags : Nat) (sx : ℚ) (st : TextState) (c : Int) :
    (draw_glyph f flags sx st c).color = st.color := by
  unfold draw_glyph
  split_ifs <;> rfl

/-- Indexing into `substr(index, n)` below `n` is indexing into the text. -/
theorem getD_take_lt (T : List Int) (i n : Nat) (h : i < n) :
    (T.take n).getD i 0 = T.getD i 0 := by
  simp [List.getElem?_take_of_lt h]

/-- A matched tag skips 10 or 8 characters, and the character at that offset is a closing brace. -/
theorem color_tag_closing (T : List Int) (n : Nat) (r : Option Nat)
    (h : color_tag T = some (n, r)) :
    (n = 10 ∨ n = 8) ∧ T.getD n 0 = 125 := by
  unfold color_tag at h
  by_cases h1 : T.length > 11
  · rw [if_pos h1] at h
    simp only at h
    by_cases h2 : (T.take 11).getD 1 0 = 35
    · rw [if_pos h2] at h
      rw [getD_take_lt T 10 11 (by norm_num), getD_take_lt T 8 11 (by norm_num)] at h
      by_cases ha : T.getD 10 0 = 125
      · simp only [ha, decide_True, true_or, if_true, Option.some.injEq, Prod.mk.injEq] at h
        exact ⟨Or.inl h.1.symm, by rw [← h.1]; exact ha⟩
      · simp only [ha, decide_False, Bool.false_eq_true, false_or, if_false] at h
        by_cases h8 : T.getD 8 0 = 125
        · rw [if_pos h8] at h
          simp only [Option.some.injEq, Prod.mk.injEq] at h
          exact ⟨Or.inr h.1.symm, by rw [← h.1]; exact h8⟩
        · rw [if_neg h8] at h
          cases h
    · rw [if_neg h2] at h
      cases h
  · rw [if_neg h1] at h
    cases h

/-- If no closing brace occurs in the first ten characters of `R`, an iteration before `R` never schedules a skip that reaches into `R`. -/
theorem draw_text_step_skip_le (f : Font) (flags : Nat) (sx : ℚ) (R : List Int)
    (hR : ∀ i, i ≤ 9 → R.getD i 0 ≠ 125) (c : Int) (pre : List Int) (st s2 : TextState)
    (hle : st.num_to_skip ≤ pre.length + 1)
    (h : draw_text_step f flags sx c (pre ++ R) st = some s2) :
    s2.num_to_skip ≤ pre.length := by
  unfold draw_text_step at h
  split_ifs at h with h1 h2
  · cases h
    simp only
    omega
  · have hz : st.num_to_skip = 0 := by omega
    cases hc : color_tag (c :: (pre ++ R)) with
    | none =>
      rw [hc] at h
      cases h
      rw [draw_glyph_skip]
      omega
    | some p =>
      obtain ⟨n, r⟩ := p
      rw [hc] at h
      cases r with
      | none => cases h
      | some col =>
        cases h
        simp only [hz, zero_add]
        obtain ⟨hn, hcl⟩ := color_tag_closing _ n _ hc
        by_contra hgt
        push_neg at hgt
        have hn1 : n = (n - 1) + 1 := by omega
        rw [hn1, List.getD_cons_succ, List.getD_append_right _ _ _ _ (by omega)] at hcl
        exact hR _ (by omega) hcl
  · cases h
    rw [draw_glyph_skip]
    omega

/-- If no closing brace occurs in the first ten characters of `R`, the walk reaches `R` outside any skipped run. -/
theorem draw_text_steps_reach (f : Font) (flags : Nat) (sx : ℚ) (R : List Int)
    (hR : ∀ i, i ≤ 9 → R.getD i 0 ≠ 125) :
    ∀ (pre : List Int) (st s1 : TextState) (r : List Int),
      st.num_to_skip ≤ pre.length →
      draw_text_steps f flags sx pre.length (pre ++ R) st = some (s1, r) →
      s1.num_to_skip = 0 ∧ r = R := by
  intro pre
  induction pre with
  | nil =>
    intro st s1 r hle h
    simp only [List.length_nil, List.nil_append, draw_text_steps, Option.some.injEq,
      Prod.mk.injEq] at h
    obtain ⟨rfl, rfl⟩ := h
    exact ⟨by simpa using hle, rfl⟩
  | cons c pre ih =>
    intro st s1 r hle h
    change draw_text_steps f flags sx (pre.length + 1) (c :: (pre ++ R)) st = some (s1, r) at h
    rw [draw_text_steps] at h
    cases hs : draw_text_step f flags sx c (pre ++ R) st with
    | none => rw [hs] at h; cases h
    | some s2 =>
      rw [hs, Option.some_bind] at h
      exact ih s2 s1 r
        (draw_text_step_skip_le f flags sx R hR c pre st s2 (by simpa using hle) hs) h

/-- The first ten characters of `{#ff0000ff}` hold no closing brace. -/
theorem long_tag_no_early_brace (post : List Int) :
    ∀ i, i ≤ 9 → (long_tag ++ post).getD i 0 ≠ 125 := by
  intro i hi
  interval_cases i <;> simp [long_tag]

/-- Claim C7, amended (long colour tag).  With the colour-tag flag enabled, for
every text `pre ++ {#ff0000ff} ++ post` with `post` non-empty, walked from a
state that is not skipping: if the walk reaches the tag (no earlier tag raised
a conversion error), it reaches it outside any skipped run, and the next 11
iterations leave the pen and the render list untouched (no geometry), set the
active colour to `0xff0000ff` and leave exactly `post` to walk: the tag
consumes exactly 11 characters, braces included. -/
theorem long_tag_recolors (f : Font) (flags : Nat) (sx : ℚ)
    (hflag : flags &&& TEXT_COLORTAGS ≠ 0) (pre post : List Int) (hpost : post ≠ [])
    (st s1 : TextState) (r : List Int) (hskip : st.num_to_skip = 0)
    (hreach : draw_text_steps f flags sx pre.length (pre ++ (long_tag ++ post)) st
      = some (s1, r)) :
    r = long_tag ++ post ∧ s1.num_to_skip = 0 ∧
    draw_text_steps f flags sx 11 r s1 = some ({ s1 with color := 0xff0000ff }, post) ∧
    draw_text_steps f flags sx (pre.length + 11) (pre ++ (long_tag ++ post)) st
      = some ({ s1 with color := 0xff0000ff }, post) ∧
    draw_text_loop f flags sx (pre ++ (long_tag ++ post)) st
      = draw_text_loop f flags sx post { s1 with color := 0xff0000ff } := by
  obtain ⟨hs1, hr⟩ := draw_text_steps_reach f flags sx (long_tag ++ post)
    (long_tag_no_early_brace post) pre st s1 r (by omega) hreach
  subst hr
  have h11 := long_tag_step f flags sx hflag post hpost s1 hs1
  have hall : draw_text_steps f flags sx (pre.length + 11) (pre ++ (long_tag ++ post)) st
      = some ({ s1 with color := 0xff0000ff }, post) := by
    rw [draw_text_steps_add, hreach, Option.some_bind]
    exact h11
  refine ⟨rfl, hs1, h11, hall, ?_⟩
  rw [draw_text_loop_eq_steps f flags sx (pre.length + 11), hall, Option.some_bind]

/-- Two characters that are not hexadecimal digits contribute no digit after the alphanumeric filter. -/
theorem hex_run_filter_two (p0 p1 : Int) (h0 : hex_digit p0 = none)
    (h1 : hex_digit p1 = none) : hex_run (List.filter isalnum [p0, p1]) = [] := by
  simp only [List.filter]
  cases isalnum p0 <;> cases isalnum p1 <;> simp [hex_run, h0, h1]

/-- The conversion of `ffff0000` followed by a non-digit tail. -/
theorem stoul16_red (tail : List Int) (ht : hex_run tail = []) :
    stoul16 ([102, 102] ++ ([102, 102, 48, 48, 48, 48] ++ tail)) = some 0xffff0000 := by
  have hrun : hex_run ([102, 102] ++ ([102, 102, 48, 48, 48, 48] ++ tail))
      = [15, 15, 15, 15, 0, 0, 0, 0] := by
    simp [hex_run, hex_digit, ht]
  unfold stoul16
  simp only [List.cons_append, List.nil_append]
  simp only [List.cons_append, List.nil_append] at hrun
  rw [hrun]
  decide

/-- The tag test at `{#ff0000}` followed by two non-digits, the second not a closing brace, and one more character. -/
theorem color_tag_short (p0 p1 p2 : Int) (ps : List Int) (h0 : hex_digit p0 = none)
    (h1 : hex_digit p1 = none) (hb : p1 ≠ 125) :
    color_tag (short_tag ++ p0 :: p1 :: p2 :: ps) = some (8, some 0xffff0000) := by
  have hlen : (short_tag ++ p0 :: p1 :: p2 :: ps).length > 11 := by simp [short_tag]
  have htake : (short_tag ++ p0 :: p1 :: p2 :: ps).take 11 = short_tag ++ [p0, p1] := by
    simp [short_tag]
  have hfil : List.filter isalnum (short_tag ++ [p0, p1])
      = [102, 102, 48, 48, 48, 48] ++ List.filter isalnum [p0, p1] := by
    rw [List.filter_append]
    rfl
  unfold color_tag
  rw [if_pos hlen, htake]
  simp only [hfil]
  have e1 : (short_tag ++ [p0, p1]).getD 1 0 = 35 := rfl
  have e8 : (short_tag ++ [p0, p1]).getD 8 0 = 125 := rfl
  have e10 : (short_tag ++ [p0, p1]).getD 10 0 = p1 := rfl
  rw [if_pos e1, e8, e10]
  simp only [hb, decide_False, Bool.false_eq_true, false_or, if_true, if_false]
  rw [stoul16_red _ (hex_run_filter_two p0 p1 h0 h1)]

/-- Claim C8, amended (short colour tag).  With the colour-tag flag enabled,
when the walk is at the opening brace of `{#ff0000}` outside a skipped run and
the tag is followed by at least three characters of which the first two are
not hexadecimal digits and the second is not a closing brace, the next 9
iterations emit no geometry, leave the pen untouched, set the active colour to
one whose RGB part is `ff0000`, and leave exactly the following text to walk:
the tag consumes exactly 9 characters. -/
theorem short_tag_recolors (f : Font) (flags : Nat) (sx : ℚ)
    (hflag : flags &&& TEXT_COLORTAGS ≠ 0) (post : List Int) (st : TextState)
    (hskip : st.num_to_skip = 0) (hlen : 3 ≤ post.length)
    (h0 : hex_digit (post.getD 0 0) = none) (h1 : hex_digit (post.getD 1 0) = none)
    (hb : post.getD 1 0 ≠ 125) :
    ∃ color : Color, color &&& 0xffffff = 0xff0000 ∧
      draw_text_steps f flags sx 9 (short_tag ++ post) st
        = some ({ st with color := color }, post) ∧
      draw_text_loop f flags sx (short_tag ++ post) st
        = draw_text_loop f flags sx post { st with color := color } := by
  obtain ⟨p0, p1, p2, ps, rfl⟩ : ∃ p0 p1 p2 ps, post = p0 :: p1 :: p2 :: ps := by
    match post, hlen with
    | p0 :: p1 :: p2 :: ps, _ => exact ⟨p0, p1, p2, ps, rfl⟩
  simp only [List.getD_cons_zero, List.getD_cons_succ] at h0 h1 hb
  have hc := color_tag_short p0 p1 p2 ps h0 h1 hb
  have e : short_tag ++ p0 :: p1 :: p2 :: ps
      = 123 :: ([35, 102, 102, 48, 48, 48, 48, 125] ++ p0 :: p1 :: p2 :: ps) := rfl
  rw [e] at hc
  have hstep : draw_text_step f flags sx 123
      ([35, 102, 102, 48, 48, 48, 48, 125] ++ p0 :: p1 :: p2 :: ps) st
      = some { st with num_to_skip := 8, color := 0xffff0000 } := by
    unfold draw_text_step
    rw [if_neg (by omega), if_pos ⟨hflag, rfl⟩, hc]
    simp [hskip]
  have h9 : draw_text_steps f flags sx 9 (short_tag ++ p0 :: p1 :: p2 :: ps) st
      = some ({ st with color := 0xffff0000 }, p0 :: p1 :: p2 :: ps) := by
    rw [e, show (9 : Nat) = 8 + 1 by rfl]
    simp only [draw_text_steps, hstep, Option.some_bind]
    have := draw_text_steps_skip f flags sx [35, 102, 102, 48, 48, 48, 48, 125]
      (p0 :: p1 :: p2 :: ps) { st with num_to_skip := 8, color := 0xffff0000 } rfl
    simpa [hskip] using this
  refine ⟨0xffff0000, by decide, h9, ?_⟩
  rw [draw_text_loop_eq_steps f flags sx 9, h9, Option.some_bind]

/-- The tag test fails at `{#zz}` when the text is too short or no closing brace stands at offset 8 or 10. -/
theorem color_tag_malformed (post : List Int)
    (hmal : post.length ≤ 6 ∨ (post.getD 3 0 ≠ 125 ∧ post.getD 5 0 ≠ 125)) :
    color_tag (malformed_tag ++ post) = none := by
  unfold color_tag
  by_cases hlen : (malformed_tag ++ post).length > 11
  · rw [if_pos hlen]
    have hl : ¬ post.length ≤ 6 := by
      simp [malformed_tag] at hlen
      omega
    obtain ⟨h3, h5⟩ := hmal.resolve_left hl
    simp only
    rw [getD_take_lt _ 1 11 (by norm_num), getD_take_lt _ 10 11 (by norm_num),
      getD_take_lt _ 8 11 (by norm_num)]
    have e8 : (malformed_tag ++ post).getD 8 0 = post.getD 3 0 := by
      rw [List.getD_append_right _ _ _ _ (by simp [malformed_tag])]
      rfl
    have e10 : (malformed_tag ++ post).getD 10 0 = post.getD 5 0 := by
      rw [List.getD_append_right _ _ _ _ (by simp [malformed_tag])]
      rfl
    have e1 : (malformed_tag ++ post).getD 1 0 = 35 := rfl
    rw [e8, e10, if_pos e1]
    simp only [h3, h5, decide_False, Bool.false_eq_true, false_or, if_false]
  · rw [if_neg hlen]

/-- Outside a skipped run a character other than the opening brace takes the glyph step. -/
theorem draw_text_step_plain (f : Font) (flags : Nat) (sx : ℚ) (c : Int) (rest : List Int)
    (st : TextState) (hskip : st.num_to_skip = 0) (hc : c ≠ 123) :
    draw_text_step f flags sx c rest st = some (draw_glyph f flags sx st c) := by
  unfold draw_text_step
  rw [if_neg (by omega), if_neg (fun h => hc h.2)]

/-- Outside a skipped run characters other than the opening brace each take the glyph step. -/
theorem draw_text_steps_plain (f : Font) (flags : Nat) (sx : ℚ) (cs : List Int) :
    ∀ (rest : List Int) (st : TextState), st.num_to_skip = 0 → (∀ c ∈ cs, c ≠ 123) →
      draw_text_steps f flags sx cs.length (cs ++ rest) st
        = some (cs.foldl (draw_glyph f flags sx) st, rest) := by
  induction cs with
  | nil => intro rest st _ _; rfl
  | cons c cs ih =>
    intro rest st hskip hcs
    show draw_text_steps f flags sx (cs.length + 1) (c :: (cs ++ rest)) st = _
    rw [draw_text_steps, draw_text_step_plain f flags sx c _ st hskip
      (hcs c (List.mem_cons_self _ _)), Option.some_bind, List.foldl_cons]
    exact ih rest _ (by rw [draw_glyph_skip, hskip])
      (fun a ha => hcs a (List.mem_cons_of_mem _ ha))

/-- A visible glyph appends its vertex array once, or five times with the shadow flag. -/
theorem emit_glyph_length (f : Font) (flags : Nat) (rl : RenderList) (color : Color)
    (v : List Vertex) :
    (emit_glyph f flags rl color v).vertices.length
      = rl.vertices.length + (if flags &&& TEXT_SHADOW ≠ 0 then 5 else 1) * v.length := by
  unfold emit_glyph
  split_ifs
  · simp [add_vertices, shift, recolor]; ring
  · simp [add_vertices]

/-- Claim C9, amended (malformed colour tag).  When the walk is at the opening
brace of `{#zz}` outside a skipped run and either at most 6 characters follow
the tag or neither the fourth nor the sixth character after it is a closing
brace, the tag is not consumed: the iteration at the brace is the ordinary
glyph step (it submits the glyph quad of the brace, 6 vertices, or 30 with the
shadow flag), the five characters of the tag are each handled by the ordinary
glyph step, none is skipped, and the active colour is unchanged. -/
theorem malformed_tag_literal (f : Font) (flags : Nat) (sx : ℚ) (post : List Int)
    (st : TextState) (hskip : st.num_to_skip = 0)
    (hmal : post.length ≤ 6 ∨ (post.getD 3 0 ≠ 125 ∧ post.getD 5 0 ≠ 125)) :
    draw_text_steps f flags sx 1 (malformed_tag ++ post) st
      = some (draw_glyph f flags sx st 123, [35, 122, 122, 125] ++ post) ∧
    (draw_glyph f flags sx st 123).render_list
      = emit_glyph f flags st.render_list st.color (glyph_quad f st.pos st.color 123) ∧
    (draw_glyph f flags sx st 123).render_list.vertices.length
      = st.render_list.vertices.length + (if flags &&& TEXT_SHADOW ≠ 0 then 30 else 6) ∧
    draw_text_steps f flags sx 5 (malformed_tag ++ post) st
      = some (malformed_tag.foldl (draw_glyph f flags sx) st, post) ∧
    (malformed_tag.foldl (draw_glyph f flags sx) st).color = st.color ∧
    (malformed_tag.foldl (draw_glyph f flags sx) st).num_to_skip = 0 := by
  have hc := color_tag_malformed post hmal
  have e : malformed_tag ++ post = 123 :: ([35, 122, 122, 125] ++ post) := rfl
  rw [e] at hc
  have hstep : draw_text_step f flags sx 123 ([35, 122, 122, 125] ++ post) st
      = some (draw_glyph f flags sx st 123) := by
    unfold draw_text_step
    rw [if_neg (by omega)]
    split_ifs
    · rw [hc]
    · rfl
  have hrl : (draw_glyph f flags sx st 123).render_list
      = emit_glyph f flags st.render_list st.color (glyph_quad f st.pos st.color 123) := by
    unfold draw_glyph
    simp
  refine ⟨?_, hrl, ?_, ?_, ?_, ?_⟩
  · rw [e]
    simp only [draw_text_steps, hstep, Option.some_bind]
  · rw [hrl, emit_glyph_length]
    simp only [glyph_quad, List.length_cons, List.length_nil]
    split_ifs <;> rfl
  · have h1 : draw_text_steps f flags sx 1 (malformed_tag ++ post) st
        = some (draw_glyph f flags sx st 123, [35, 122, 122, 125] ++ post) := by
      rw [e]
      simp only [draw_text_steps, hstep, Option.some_bind]
    rw [show (5 : Nat) = 1 + 4 by rfl, draw_text_steps_add, h1, Option.some_bind]
    exact draw_text_steps_plain f flags sx [35, 122, 122, 125] post _
      (by rw [draw_glyph_skip, hskip]) (by decide)
  · simp only [malformed_tag, List.foldl_cons, List.foldl_nil, draw_glyph_color]
  · simp only [malformed_tag, List.foldl_cons, List.foldl_nil, draw_glyph_skip, hskip]

/-! ## Single-precision rounding: theorems -/

/-- With enough fuel, the excess is at most `k` exactly when `n` has at most `24 + k` bits. -/
theorem excess_bits_aux_le (fuel : Nat) :
    ∀ n k : Nat, n < 2 ^ (24 + fuel) → (excess_bits_aux fuel n ≤ k ↔ n < 2 ^ (24 + k)) := by
  induction fuel with
  | zero =>
    intro n k hn
    simp only [excess_bits_aux, Nat.zero_le, true_iff]
    exact lt_of_lt_of_le hn (Nat.pow_le_pow_right (by norm_num) (by omega))
  | succ fuel ih =>
    intro n k hn
    unfold excess_bits_aux
    by_cases h : n < 2 ^ 24
    · rw [if_pos h]
      simp only [Nat.zero_le, true_iff]
      exact lt_of_lt_of_le h (Nat.pow_le_pow_right (by norm_num) (by omega))
    · rw [if_neg h]
      have hn2 : n / 2 < 2 ^ (24 + fuel) := by
        rw [Nat.div_lt_iff_lt_mul (by norm_num)]
        calc n < 2 ^ (24 + (fuel + 1)) := hn
          _ = 2 ^ (24 + fuel) * 2 := by rw [← Nat.add_assoc, pow_succ]
      cases k with
      | zero =>
        simp only [Nat.add_zero]
        constructor
        · intro h0; omega
        · intro h0; exact absurd h0 h
      | succ k =>
        rw [Nat.add_le_add_iff_right, ih (n / 2) k hn2, Nat.div_lt_iff_lt_mul (by norm_num),
          ← Nat.add_assoc, pow_succ]

/-- The excess is at most `k` exactly when `n` has at most `24 + k` bits. -/
theorem excess_bits_le (n k : Nat) : excess_bits n ≤ k ↔ n < 2 ^ (24 + k) := by
  apply excess_bits_aux_le
  calc n < 2 ^ n := Nat.lt_two_pow n
    _ ≤ 2 ^ (24 + n) := Nat.pow_le_pow_right (by norm_num) (by omega)

/-- The excess grows with the number. -/
theorem excess_bits_mono {n m : Nat} (h : n ≤ m) : excess_bits n ≤ excess_bits m := by
  rw [excess_bits_le]
  exact lt_of_le_of_lt h ((excess_bits_le m _).mp (le_refl _))

/-- After the excess is dropped the significand has at most 24 bits, and exactly 24 when bits were dropped. -/
theorem excess_bits_spec (n : Nat) :
    n / 2 ^ excess_bits n < 2 ^ 24 ∧
    (excess_bits n ≠ 0 → 2 ^ 23 ≤ n / 2 ^ excess_bits n) := by
  have h1 : n < 2 ^ (24 + excess_bits n) := (excess_bits_le n _).mp (le_refl _)
  constructor
  · rw [Nat.div_lt_iff_lt_mul (by positivity), ← pow_add]
    exact h1
  · intro h0
    obtain ⟨e, he⟩ : ∃ e, excess_bits n = e + 1 := ⟨excess_bits n - 1, by omega⟩
    have h2 : ¬ n < 2 ^ (24 + e) := by
      rw [← excess_bits_le]
      omega
    rw [he, Nat.le_div_iff_mul_le (by positivity), ← pow_add]
    have : 23 + (e + 1) = 24 + e := by omega
    rw [this]
    omega

/-- The rounded quotient lies between the quotient and its successor. -/
theorem rne_bounds (N D : Nat) : N / D ≤ rne N D ∧ rne N D ≤ N / D + 1 := by
  unfold rne
  split_ifs <;> omega

/-- An exact quotient is not changed by rounding. -/
theorem rne_exact (m D : Nat) (hD : 0 < D) : rne (m * D) D = m := by
  unfold rne
  rw [Nat.mul_mod_left, Nat.mul_div_cancel _ hD]
  simp
  omega

/-- Rounding is monotone in the numerator. -/
theorem rne_mono (N N' D : Nat) (h : N ≤ N') : rne N D ≤ rne N' D := by
  have hq : N / D ≤ N' / D := Nat.div_le_div_right h
  rcases Nat.lt_or_ge (N / D) (N' / D) with hlt | hge
  · exact le_trans (rne_bounds N D).2 (le_trans hlt (rne_bounds N' D).1)
  · have heq : N / D = N' / D := le_antisymm hq hge
    have hr : N % D ≤ N' % D := by
      have e1 := Nat.div_add_mod N D
      have e2 := Nat.div_add_mod N' D
      rw [heq] at e1
      omega
    unfold rne
    rw [heq]
    split_ifs with a b <;> omega

/-- Rounding sees the quotient only: a common factor does not matter. -/
theorem rne_scale (a N D : Nat) (ha : 0 < a) : rne (a * N) (a * D) = rne N D := by
  unfold rne
  rw [Nat.mul_mod_mul_left, Nat.mul_div_mul_left _ _ ha]
  have h1 : (2 * (a * (N % D)) > a * D) ↔ (2 * (N % D) > D) := by
    rw [show 2 * (a * (N % D)) = a * (2 * (N % D)) by ring]
    exact Nat.mul_lt_mul_left ha
  have h2 : (2 * (a * (N % D)) = a * D) ↔ (2 * (N % D) = D) := by
    rw [show 2 * (a * (N % D)) = a * (2 * (N % D)) by ring]
    exact Nat.mul_right_inj (by omega)
  simp only [h1, h2]

/-- Single-precision rounding is monotone in the numerator. -/
theorem f32_grid_mono (N N' D : Nat) (h : N ≤ N') :
    f32_grid N D ≤ f32_grid N' D := by
  unfold f32_grid
  have ha : N / D ≤ N' / D := Nat.div_le_div_right h
  have he := excess_bits_mono ha
  rcases Nat.lt_or_ge (excess_bits (N / D)) (excess_bits (N' / D)) with hlt | hge
  · obtain ⟨s1, _⟩ := excess_bits_spec (N / D)
    obtain ⟨_, s2⟩ := excess_bits_spec (N' / D)
    have s2' := s2 (by omega)
    have hl : rne N (D * 2 ^ excess_bits (N / D)) ≤ 2 ^ 24 := by
      have := (rne_bounds N (D * 2 ^ excess_bits (N / D))).2
      rw [← Nat.div_div_eq_div_mul] at this
      omega
    have hr : 2 ^ 23 ≤ rne N' (D * 2 ^ excess_bits (N' / D)) := by
      have := (rne_bounds N' (D * 2 ^ excess_bits (N' / D))).1
      rw [← Nat.div_div_eq_div_mul] at this
      omega
    calc rne N (D * 2 ^ excess_bits (N / D)) * 2 ^ excess_bits (N / D)
        ≤ 2 ^ 24 * 2 ^ excess_bits (N / D) := Nat.mul_le_mul_right _ hl
      _ = 2 ^ 23 * 2 ^ (excess_bits (N / D) + 1) := by rw [pow_succ]; ring
      _ ≤ 2 ^ 23 * 2 ^ excess_bits (N' / D) :=
          Nat.mul_le_mul_left _ (Nat.pow_le_pow_right (by norm_num) hlt)
      _ ≤ rne N' (D * 2 ^ excess_bits (N' / D)) * 2 ^ excess_bits (N' / D) :=
          Nat.mul_le_mul_right _ hr
  · have heq : excess_bits (N / D) = excess_bits (N' / D) := le_antisymm he hge
    rw [heq]
    exact Nat.mul_le_mul_right _ (rne_mono N N' _ h)

/-- Single-precision rounding sees the quotient only. -/
theorem f32_grid_scale (a N D : Nat) (ha : 0 < a) : f32_grid (a * N) (a * D) = f32_grid N D := by
  unfold f32_grid
  rw [Nat.mul_div_mul_left _ _ ha, Nat.mul_assoc, rne_scale a N _ ha]

/-- A significand of at most 24 bits, shifted, is a fixed point of the rounding. -/
theorem f32_grid_fixed (m e : Nat) (hm : m ≤ 2 ^ 24) (he : e ≠ 0 → 2 ^ 23 ≤ m) :
    f32_grid (m * 2 ^ e) 1 = m * 2 ^ e := by
  unfold f32_grid
  rw [Nat.div_one, Nat.one_mul]
  rcases Nat.lt_or_ge m (2 ^ 24) with hlt | hge
  · by_cases h0 : e = 0
    · subst h0
      have : excess_bits (m * 2 ^ 0) = 0 := by
        apply Nat.le_zero.mp
        rw [excess_bits_le]
        simpa using hlt
      rw [this]
      simp only [pow_zero, Nat.mul_one]
      have h1 := rne_exact m 1 (by norm_num)
      rwa [Nat.mul_one] at h1
    · have hm23 := he h0
      have hx : excess_bits (m * 2 ^ e) = e := by
        apply le_antisymm
        · rw [excess_bits_le, pow_add]
          exact Nat.mul_lt_mul_of_pos_right hlt (by positivity)
        · obtain ⟨e', rfl⟩ : ∃ e', e = e' + 1 := ⟨e - 1, by omega⟩
          by_contra hcon
          have hle : excess_bits (m * 2 ^ (e' + 1)) ≤ e' := by omega
          rw [excess_bits_le] at hle
          have : 2 ^ (24 + e') ≤ m * 2 ^ (e' + 1) := by
            calc 2 ^ (24 + e') = 2 ^ 23 * 2 ^ (e' + 1) := by rw [pow_succ, pow_add]; ring
              _ ≤ m * 2 ^ (e' + 1) := Nat.mul_le_mul_right _ hm23
          omega
      rw [hx, rne_exact m (2 ^ e) (by positivity)]
  · have hm24 : m = 2 ^ 24 := le_antisymm hm hge
    subst hm24
    have hx : excess_bits (2 ^ 24 * 2 ^ e) = e + 1 := by
      apply le_antisymm
      · rw [excess_bits_le, ← pow_add]
        exact Nat.pow_lt_pow_right (by norm_num) (by omega)
      · by_contra hcon
        have hle : excess_bits (2 ^ 24 * 2 ^ e) ≤ e := by omega
        rw [excess_bits_le, ← pow_add] at hle
        exact absurd hle (lt_irrefl _)
    rw [hx]
    have : (2 : Nat) ^ 24 * 2 ^ e = 2 ^ 23 * 2 ^ (e + 1) := by rw [pow_succ]; ring
    rw [this, rne_exact (2 ^ 23) (2 ^ (e + 1)) (by positivity)]

/-- The result of the rounding is a fixed point of the rounding. -/
theorem f32_grid_idem (N D : Nat) : f32_grid (f32_grid N D) 1 = f32_grid N D := by
  have h : f32_grid N D
      = rne N (D * 2 ^ excess_bits (N / D)) * 2 ^ excess_bits (N / D) := rfl
  rw [h]
  obtain ⟨s1, s2⟩ := excess_bits_spec (N / D)
  obtain ⟨b1, b2⟩ := rne_bounds N (D * 2 ^ excess_bits (N / D))
  rw [← Nat.div_div_eq_div_mul] at b1 b2
  apply f32_grid_fixed
  · omega
  · intro h0
    have := s2 h0
    omega

/-- The natural number `2 ^ 149` as a rational. -/
theorem cast_two_pow_149 : ((2 ^ 149 : ℕ) : ℚ) = 2 ^ 149 := by
  rw [Nat.cast_pow, Nat.cast_ofNat]

/-- The rounding of a non-negative rational written as any fraction. -/
theorem f32_round_div (N D : Nat) (hD : 0 < D) :
    f32_round ((N : ℚ) / D) = ((f32_grid (N * 2 ^ 149) D : Nat) : ℚ) / 2 ^ 149 := by
  have hq : (0 : ℚ) ≤ (N : ℚ) / D := by positivity
  obtain ⟨c, hc1, hc2⟩ := Rat.exists_eq_mul_div_num_and_eq_mul_div_den (N : ℤ)
    (show ((D : ℕ) : ℤ) ≠ 0 by exact_mod_cast hD.ne')
  simp only [Int.cast_natCast] at hc1 hc2
  have hnum : 0 ≤ ((N : ℚ) / D).num := Rat.num_nonneg.mpr hq
  have hden : 0 < (((N : ℚ) / D).den : ℤ) := by exact_mod_cast ((N : ℚ) / D).den_pos
  have hcpos : 0 < c := by
    by_contra hcon
    have hc0 : c ≤ 0 := not_lt.mp hcon
    have : (D : ℤ) ≤ 0 := by
      rw [hc2]
      exact mul_nonpos_of_nonpos_of_nonneg hc0 hden.le
    have hD' : (0 : ℤ) < D := by exact_mod_cast hD
    omega
  have hct : 0 < c.toNat := by omega
  unfold f32_round
  simp only [hq, if_true]
  generalize ((N : ℚ) / D).num = n0 at hc1 hnum ⊢
  generalize ((N : ℚ) / D).den = d0 at hc2 hden ⊢
  have e1 : N = c.toNat * n0.natAbs := by
    zify
    rw [Int.toNat_of_nonneg hcpos.le, abs_of_nonneg hnum]
    exact hc1
  have e2 : D = c.toNat * d0 := by
    zify
    rw [Int.toNat_of_nonneg hcpos.le]
    exact hc2
  have key : f32_grid (n0.natAbs * 2 ^ 149) d0 = f32_grid (N * 2 ^ 149) D := by
    rw [e1, e2, Nat.mul_assoc, f32_grid_scale _ _ _ hct]
  rw [key]

/-- The rounding of a non-negative rational is non-negative. -/
theorem f32_round_nonneg (q : ℚ) (hq : 0 ≤ q) : 0 ≤ f32_round q := by
  unfold f32_round
  simp only [hq, if_true]
  positivity

/-- The rounding is monotone on the non-negative rationals. -/
theorem f32_round_mono (x y : ℚ) (hx : 0 ≤ x) (h : x ≤ y) : f32_round x ≤ f32_round y := by
  have hy : 0 ≤ y := le_trans hx h
  have hxn : 0 ≤ x.num := Rat.num_nonneg.mpr hx
  have hyn : 0 ≤ y.num := Rat.num_nonneg.mpr hy
  unfold f32_round
  simp only [hx, hy, if_true]
  apply div_le_div_of_nonneg_right _ (by positivity)
  rw [Nat.cast_le]
  have hcross : x.num.natAbs * y.den ≤ y.num.natAbs * x.den := by
    have := (Rat.le_def).mp h
    zify
    rw [abs_of_nonneg hxn, abs_of_nonneg hyn]
    exact this
  calc f32_grid (x.num.natAbs * 2 ^ 149) x.den
      = f32_grid (y.den * (x.num.natAbs * 2 ^ 149)) (y.den * x.den) :=
        (f32_grid_scale _ _ _ y.den_pos).symm
    _ ≤ f32_grid (x.den * (y.num.natAbs * 2 ^ 149)) (y.den * x.den) := by
        apply f32_grid_mono
        calc y.den * (x.num.natAbs * 2 ^ 149) = x.num.natAbs * y.den * 2 ^ 149 := by ring
          _ ≤ y.num.natAbs * x.den * 2 ^ 149 := Nat.mul_le_mul_right _ hcross
          _ = x.den * (y.num.natAbs * 2 ^ 149) := by ring
    _ = f32_grid (x.den * (y.num.natAbs * 2 ^ 149)) (x.den * y.den) := by
        rw [Nat.mul_comm y.den x.den]
    _ = f32_grid (y.num.natAbs * 2 ^ 149) y.den := f32_grid_scale _ _ _ x.den_pos

/-- A rounded value is a fixed point of the rounding. -/
theorem f32_round_idem (q : ℚ) (hq : 0 ≤ q) : f32_round (f32_round q) = f32_round q := by
  have h : f32_round q
      = ((f32_grid (q.num.natAbs * 2 ^ 149) q.den : Nat) : ℚ) / ((2 ^ 149 : Nat) : ℚ) := by
    unfold f32_round
    simp only [hq, if_true]
    rw [cast_two_pow_149]
  have key : f32_grid (f32_grid (q.num.natAbs * 2 ^ 149) q.den * 2 ^ 149) (2 ^ 149)
      = f32_grid (q.num.natAbs * 2 ^ 149) q.den := by
    have h1 := f32_grid_scale (2 ^ 149) (f32_grid (q.num.natAbs * 2 ^ 149) q.den) 1
      (Nat.two_pow_pos 149)
    rw [Nat.mul_one, Nat.mul_comm] at h1
    rw [h1, f32_grid_idem]
  rw [h, f32_round_div _ _ (Nat.two_pow_pos 149), key, cast_two_pow_149]

set_option maxRecDepth 2000 in
/-- One is a `float`. -/
theorem f32_round_one : f32_round 1 = 1 := by
  have h := f32_round_div 1 1 (by norm_num)
  have e : f32_grid (1 * 2 ^ 149) 1 = 2 ^ 149 := by decide
  rw [e, cast_two_pow_149] at h
  calc f32_round 1 = f32_round (((1 : ℕ) : ℚ) / ((1 : ℕ) : ℚ)) := by norm_num
    _ = (2 : ℚ) ^ 149 / 2 ^ 149 := h
    _ = 1 := div_self (pow_ne_zero 149 (by norm_num))

/-! ## Atlas size discovery: theorems -/

/-- The packer loop never changes the atlas size or the spacing. -/
theorem paint_chars_tex_size (gdi : Gdi) (mo : Bool) (cs : List Int) :
    ∀ (x y : Int) (f : Font),
      (paint_chars gdi mo cs x y f).2.tex_width = f.tex_width ∧
      (paint_chars gdi mo cs x y f).2.tex_height = f.tex_height ∧
      (paint_chars gdi mo cs x y f).2.spacing = f.spacing := by
  induction cs with
  | nil => intro x y f; simp [paint_chars]
  | cons c cs ih =>
    intro x y f
    unfold paint_chars
    cases hm : gdi.GetTextExtentPoint32 c with
    | none => simp
    | some size =>
      simp only []
      split_ifs
      · simp
      · exact ih _ _ f
      · simp
      · exact ih _ _ (store_rect f c _ _ size)

/-- The result code of a measure pass depends on the atlas size and the spacing only. -/
theorem paint_chars_hr_congr (gdi : Gdi) (cs : List Int) :
    ∀ (x y : Int) (f g : Font), f.tex_width = g.tex_width → f.tex_height = g.tex_height →
      f.spacing = g.spacing →
      (paint_chars gdi true cs x y f).1 = (paint_chars gdi true cs x y g).1 := by
  induction cs with
  | nil => intro x y f g _ _ _; simp [paint_chars]
  | cons c cs ih =>
    intro x y f g hw hh hs
    unfold paint_chars
    cases hm : gdi.GetTextExtentPoint32 c with
    | none => simp
    | some size =>
      have hp : wrap_cursor f x y size = wrap_cursor g x y size := by
        simp [wrap_cursor, hw, hs]
      simp only [hp, hh, hs]
      split_ifs
      · rfl
      · exact ih _ _ f g hw hh hs

/-- The result code of `paint_alphabet` in measure mode depends on the atlas size only. -/
theorem paint_alphabet_hr_congr (gdi : Gdi) (f g : Font) (hw : f.tex_width = g.tex_width)
    (hh : f.tex_height = g.tex_height) :
    (paint_alphabet gdi f true).1 = (paint_alphabet gdi g true).1 := by
  unfold paint_alphabet
  cases gdi.GetTextExtentPoint32 120 with
  | none => rfl
  | some size => exact paint_chars_hr_congr gdi _ _ _ _ _ hw hh rfl

/-- `paint_alphabet` never changes the atlas size. -/
theorem paint_alphabet_tex_size (gdi : Gdi) (mo : Bool) (f : Font) :
    (paint_alphabet gdi f mo).2.tex_width = f.tex_width ∧
    (paint_alphabet gdi f mo).2.tex_height = f.tex_height := by
  unfold paint_alphabet
  cases gdi.GetTextExtentPoint32 120 with
  | none => exact ⟨rfl, rfl⟩
  | some size =>
    have := paint_chars_tex_size gdi mo alphabet (spacing_of size.cy) 0
      { f with spacing := spacing_of size.cy }
    exact ⟨this.1, this.2.1⟩

/-- With fixed metrics a measure pass never fails. -/
theorem paint_chars_fixed_ne_fail (m : Int → SIZE) (cs : List Int) :
    ∀ (x y : Int) (f : Font), (paint_chars (fixed_metrics m) true cs x y f).1 ≠ E_FAIL := by
  induction cs with
  | nil => intro x y f; simp [paint_chars]
  | cons c cs ih =>
    intro x y f
    unfold paint_chars
    simp only [fixed_metrics]
    split_ifs
    · simp
    · exact ih _ _ f

/-- With fixed metrics a measure pass either fits or overflows. -/
theorem paint_alphabet_fixed_cases (m : Int → SIZE) (f : Font) :
    (paint_alphabet (fixed_metrics m) f true).1 = S_OK ∨
    (paint_alphabet (fixed_metrics m) f true).1 = D3DERR_MOREDATA := by
  have h : (paint_alphabet (fixed_metrics m) f true).1 ≠ E_FAIL := by
    unfold paint_alphabet
    simp only [fixed_metrics]
    exact paint_chars_fixed_ne_fail m _ _ _ _
  cases hr : (paint_alphabet (fixed_metrics m) f true).1 with
  | S_OK => exact Or.inl rfl
  | E_FAIL => exact absurd hr h
  | D3DERR_MOREDATA => exact Or.inr rfl

/-- From row 0, the rest of the layout fits in every large enough atlas. -/
theorem paint_chars_fits_large (m : Int → SIZE) (sp : Int) (cs : List Int) :
    ∀ x : Int, ∃ S0 : Int, ∀ f : Font, f.spacing = sp → S0 ≤ f.tex_width →
      S0 ≤ f.tex_height → (paint_chars (fixed_metrics m) true cs x 0 f).1 = S_OK := by
  induction cs with
  | nil => intro x; exact ⟨0, fun f _ _ _ => by simp [paint_chars]⟩
  | cons c cs ih =>
    intro x
    obtain ⟨S1, hS1⟩ := ih (x + (m c).cx + 2 * sp)
    refine ⟨max (x + (m c).cx + sp) (max (m c).cy S1), ?_⟩
    intro f hsp hw hh
    have h1 : x + (m c).cx + sp ≤ f.tex_width := le_trans (le_max_left _ _) hw
    have h2 : (m c).cy ≤ f.tex_height :=
      le_trans (le_trans (le_max_left _ _) (le_max_right _ _)) hh
    have h3 : S1 ≤ f.tex_width :=
      le_trans (le_trans (le_max_right _ _) (le_max_right _ _)) hw
    have h4 : S1 ≤ f.tex_height :=
      le_trans (le_trans (le_max_right _ _) (le_max_right _ _)) hh
    have hp : wrap_cursor f x 0 (m c) = (x, 0) := by
      unfold wrap_cursor
      rw [if_neg]
      rw [hsp]; omega
    unfold paint_chars
    simp only [fixed_metrics, hp]
    rw [if_neg (by omega)]
    simp only [if_true]
    rw [hsp]
    exact hS1 f hsp h3 h4

/-- The layout fits in every large enough atlas. -/
theorem paint_alphabet_fits_large (m : Int → SIZE) :
    ∃ S0 : Int, ∀ f : Font, S0 ≤ f.tex_width → S0 ≤ f.tex_height →
      (paint_alphabet (fixed_metrics m) f true).1 = S_OK := by
  obtain ⟨S0, h⟩ := paint_chars_fits_large m (spacing_of (m 120).cy) alphabet
    (spacing_of (m 120).cy)
  refine ⟨S0, fun f hw hh => ?_⟩
  unfold paint_alphabet
  simp only [fixed_metrics]
  exact h _ rfl hw hh

/-- Doubling a side `128 * 2 ^ j` that stays within `2 ^ 30` does not overflow. -/
theorem double_long_side (v : Int) (j : Nat) (hv : v = 128 * 2 ^ j) (hj : j + 1 ≤ 23) :
    double_long v = some (128 * 2 ^ (j + 1)) := by
  have h1 : (2 : Int) ^ (j + 1) ≤ 2 ^ 23 := pow_le_pow_right₀ (by norm_num) hj
  have h2 : (0 : Int) < 2 ^ (j + 1) := by positivity
  have h3 : v * 2 = 128 * 2 ^ (j + 1) := by rw [hv, pow_succ]; ring
  unfold double_long
  rw [if_pos ⟨by rw [h3]; omega, by rw [h3]; omega⟩, h3]

/-- When doubling succeeds the result is twice the side. -/
theorem double_long_some (v w : Int) (h : double_long v = some w) : w = v * 2 := by
  unfold double_long at h
  split_ifs at h
  simp only [Option.some.injEq] at h
  exact h.symm

/-- If the layout overflows at the next `k` sides and fits at the one after, none above `2 ^ 30`, the measure loop stops there. -/
theorem measure_loop_finds (gdi : Gdi) (f0 : Font) (k : Nat) :
    ∀ (j0 : Nat) (f : Font), j0 + k ≤ 23 →
      f.tex_width = 128 * 2 ^ j0 → f.tex_height = 128 * 2 ^ j0 →
      (∀ j, j < k →
        (paint_alphabet gdi (with_side f0 (128 * 2 ^ (j0 + j))) true).1 = D3DERR_MOREDATA) →
      (paint_alphabet gdi (with_side f0 (128 * 2 ^ (j0 + k))) true).1 = S_OK →
      ∀ n, k + 1 ≤ n → ∃ f', measure_loop gdi n f = some (S_OK, f') ∧
        f'.tex_width = 128 * 2 ^ (j0 + k) ∧ f'.tex_height = 128 * 2 ^ (j0 + k) := by
  induction k with
  | zero =>
    intro j0 f _ hw hh _ hok n hn
    obtain ⟨n', rfl⟩ : ∃ n', n = n' + 1 := ⟨n - 1, by omega⟩
    have hr : (paint_alphabet gdi f true).1 = S_OK := by
      rw [paint_alphabet_hr_congr gdi f (with_side f0 (128 * 2 ^ (j0 + 0))) (by simpa using hw)
        (by simpa using hh)]
      exact hok
    have hsz := paint_alphabet_tex_size gdi true f
    unfold measure_loop
    cases hpa : paint_alphabet gdi f true with
    | mk hres f1 =>
      rw [hpa] at hr hsz
      simp only at hr hsz
      subst hr
      exact ⟨f1, rfl, by simpa [hw] using hsz.1, by simpa [hh] using hsz.2⟩
  | succ k ih =>
    intro j0 f hj hw hh hlt hok n hn
    obtain ⟨n', rfl⟩ : ∃ n', n = n' + 1 := ⟨n - 1, by omega⟩
    have hr : (paint_alphabet gdi f true).1 = D3DERR_MOREDATA := by
      rw [paint_alphabet_hr_congr gdi f (with_side f0 (128 * 2 ^ (j0 + 0))) (by simpa using hw)
        (by simpa using hh)]
      exact hlt 0 (Nat.succ_pos k)
    have hsz := paint_alphabet_tex_size gdi true f
    unfold measure_loop
    cases hpa : paint_alphabet gdi f true with
    | mk hres f1 =>
      rw [hpa] at hr hsz
      simp only at hr hsz
      subst hr
      simp only
      rw [double_long_side f1.tex_width j0 (hsz.1.trans hw) (by omega),
        double_long_side f1.tex_height j0 (hsz.2.trans hh) (by omega)]
      simp only
      have := ih (j0 + 1)
        (Font.mk f1.texture (128 * 2 ^ (j0 + 1)) (128 * 2 ^ (j0 + 1)) f1.text_scale
          f1.tex_coords f1.spacing) (by omega) rfl rfl
        (fun j hj => by
          have := hlt (j + 1) (by omega)
          rwa [show j0 + (j + 1) = j0 + 1 + j by ring] at this)
        (by rwa [show j0 + (k + 1) = j0 + 1 + k by ring] at hok)
        n' (by omega)
      rwa [show j0 + 1 + k = j0 + (k + 1) by ring] at this

/-- The spacing derived from a non-negative height is non-negative. -/
theorem spacing_of_nonneg (cy : Int) (h : 0 ≤ cy) : 0 ≤ spacing_of cy := by
  unfold spacing_of
  simp only []
  rw [if_pos h]
  exact Int.natCast_nonneg _

/-- Every element is below the running maximum. -/
theorem le_foldr_max (l : List Int) : ∀ a ∈ l, a ≤ l.foldr max 0 := by
  induction l with
  | nil => intro a ha; simp at ha
  | cons b l ih =>
    intro a ha
    rw [List.foldr_cons]
    rcases List.mem_cons.mp ha with h | h
    · subst h; exact le_max_left _ _
    · exact le_trans (ih a h) (le_max_right _ _)

/-- With non-negative widths the rest of the layout fits in row 0 when the row is wide enough and the atlas tall enough. -/
theorem paint_chars_fits_row (m : Int → SIZE) (cs : List Int) :
    ∀ (x : Int) (f : Font), 0 ≤ f.spacing → (∀ c ∈ cs, 0 ≤ (m c).cx) →
      x + (cs.map fun c => (m c).cx + 2 * f.spacing).sum ≤ f.tex_width →
      (∀ c ∈ cs, (m c).cy ≤ f.tex_height) →
      (paint_chars (fixed_metrics m) true cs x 0 f).1 = S_OK := by
  induction cs with
  | nil => intro x f _ _ _ _; simp [paint_chars]
  | cons c cs ih =>
    intro x f hsp hcx hw hh
    have hrest : 0 ≤ (cs.map fun c => (m c).cx + 2 * f.spacing).sum := by
      apply List.sum_nonneg
      intro a ha
      obtain ⟨d, hd, rfl⟩ := List.mem_map.mp ha
      have := hcx d (List.mem_cons_of_mem _ hd)
      omega
    have hc0 := hcx c (List.mem_cons_self _ _)
    have hcy := hh c (List.mem_cons_self _ _)
    simp only [List.map_cons, List.sum_cons] at hw
    have hp : wrap_cursor f x 0 (m c) = (x, 0) := by
      unfold wrap_cursor
      rw [if_neg]
      omega
    unfold paint_chars
    simp only [fixed_metrics, hp]
    rw [if_neg (by omega)]
    simp only [if_true]
    exact ih _ f hsp (fun a ha => hcx a (List.mem_cons_of_mem _ ha)) (by omega)
      (fun a ha => hh a (List.mem_cons_of_mem _ ha))

/-- With non-negative metrics the layout fits at every side of at least `atlas_need`. -/
theorem paint_alphabet_fits_need (m : Int → SIZE)
    (hm : ∀ c, 0 ≤ (m c).cx ∧ 0 ≤ (m c).cy) (f : Font)
    (hw : atlas_need m ≤ f.tex_width) (hh : atlas_need m ≤ f.tex_height) :
    (paint_alphabet (fixed_metrics m) f true).1 = S_OK := by
  unfold paint_alphabet
  simp only [fixed_metrics]
  apply paint_chars_fits_row m alphabet
  · exact spacing_of_nonneg _ (hm 120).2
  · exact fun c _ => (hm c).1
  · exact le_trans (le_max_left _ _) hw
  · intro c hc
    have h1 : (m c).cy ≤ tallest m :=
      le_foldr_max _ _ (List.mem_map.mpr ⟨c, hc, rfl⟩)
    exact le_trans h1 (le_trans (le_max_right _ _) hh)

/-! ## Concrete instances -/

/-- Witness for C1: a triangle-list run of 6 vertices appended to a list whose
tail is a triangle-list batch of 3 vertices with texture 7 merges when the
texture is 7 and starts a new batch when it is 8. -/
theorem add_vertices_merge_rule_witness :
    is_toplogy_list D3DPT_TRIANGLELIST = true ∧
    (add_vertices ⟨sample_run 3, [⟨3, D3DPT_TRIANGLELIST, 7⟩]⟩ (sample_run 6)
        D3DPT_TRIANGLELIST 7).batches = [⟨9, D3DPT_TRIANGLELIST, 7⟩] ∧
    (add_vertices ⟨sample_run 3, [⟨3, D3DPT_TRIANGLELIST, 7⟩]⟩ (sample_run 6)
        D3DPT_TRIANGLELIST 8).batches
      = [⟨3, D3DPT_TRIANGLELIST, 7⟩, ⟨6, D3DPT_TRIANGLELIST, 8⟩] :=
  ⟨rfl,
   ((add_vertices_merge_rule ⟨sample_run 3, [⟨3, D3DPT_TRIANGLELIST, 7⟩]⟩
      D3DPT_TRIANGLELIST 7 (sample_run 6) rfl).2.1 ⟨3, D3DPT_TRIANGLELIST, 7⟩ rfl rfl rfl).1,
   (add_vertices_merge_rule ⟨sample_run 3, [⟨3, D3DPT_TRIANGLELIST, 7⟩]⟩
      D3DPT_TRIANGLELIST 8 (sample_run 6) rfl).2.2
      (Or.inr ⟨⟨3, D3DPT_TRIANGLELIST, 7⟩, rfl, Or.inr (by decide)⟩)⟩

/-- Every advance of the sample font is 1. -/
theorem sample_font_advance (c : Int) : advance sample_font c = 1 := by
  simp only [advance, sample_font]
  norm_num
  ring

/-- Witness for C6: in the sample font every advance is 1 and the row height is
8, so `A\nBB` measures `(2, 16)`. -/
theorem get_text_extent_spec_witness :
    (∀ c : Int, 32 ≤ c → c ≤ 126 → 0 ≤ advance sample_font c) ∧
    get_text_extent sample_font [65, 10, 66, 66] = ⟨2, 16⟩ := by
  have hadv : ∀ c : Int, 32 ≤ c → c ≤ 126 → 0 ≤ advance sample_font c := by
    intro c _ _
    rw [sample_font_advance]
    norm_num
  refine ⟨hadv, ?_⟩
  have h := (get_text_extent_spec sample_font [65, 10, 66, 66] hadv (by decide)).2.2.2.2
  have hA : (get_text_extent sample_font [65]).x = 1 := by
    rw [extent_single_row sample_font [65] hadv (by decide) (by decide)]
    simp [row_width, sample_font_advance]
  have hB : (get_text_extent sample_font [66, 66]).x = 2 := by
    rw [extent_single_row sample_font [66, 66] hadv (by decide) (by decide)]
    simp only [row_width, List.map_cons, List.map_nil, List.sum_cons, List.sum_nil,
      sample_font_advance]
    norm_num
  rw [h, hA, hB]
  simp only [row_height, sample_font]
  norm_num

/-- Counterexample to C7 as stated.  Drawing `{#ff0000ff}A` with colour tags
enabled emits one quad, in colour `0xff0000ff`, which is ARGB alpha ff, red
00, green 00, blue ff: opaque blue, not red.  Had the tag consumed exactly 10
characters and set red with alpha ff, the closing brace and `A` would have been
drawn (12 vertices) in `0xffff0000`.  And when an earlier tag-shaped token has
no hexadecimal digit, as in `{#gggggggg}{#ff0000ff}A`, the conversion throws
before the tag is reached and nothing after it is drawn. -/
theorem long_tag_counterexample :
    vertex_colors (draw_text sample_font RenderList.empty ⟨0, 0⟩ (long_tag ++ [65])
        0xffffffff TEXT_COLORTAGS) = some (List.replicate 6 0xff0000ff) ∧
    0xff0000ff = D3DCOLOR_ARGB 0xff 0x00 0x00 0xff ∧
    vertex_colors (draw_text sample_font RenderList.empty ⟨0, 0⟩ ((long_tag ++ [65]).drop 10)
        (D3DCOLOR_ARGB 0xff 0xff 0x00 0x00) 0) = some (List.replicate 12 0xffff0000) ∧
    vertex_colors (draw_text sample_font RenderList.empty ⟨0, 0⟩ (long_tag ++ [65])
        0xffffffff TEXT_COLORTAGS)
      ≠ vertex_colors (draw_text sample_font RenderList.empty ⟨0, 0⟩
          ((long_tag ++ [65]).drop 10) (D3DCOLOR_ARGB 0xff 0xff 0x00 0x00) 0) ∧
    vertex_colors (draw_text sample_font RenderList.empty ⟨0, 0⟩
        (no_digit_tag ++ (long_tag ++ [65])) 0xffffffff TEXT_COLORTAGS) = none := by
  decide

/-- Witness for C7: in `A{#ff0000ff}B` the walk reaches the tag after one
iteration, and after 12 iterations the state is the one after `A` with the
colour replaced by `0xff0000ff`, with `B` left to walk. -/
theorem long_tag_recolors_witness :
    sample_state.num_to_skip = 0 ∧
    draw_text_steps sample_font TEXT_COLORTAGS 0 1 ([65] ++ (long_tag ++ [66])) sample_state
      = some (draw_glyph sample_font TEXT_COLORTAGS 0 sample_state 65, long_tag ++ [66]) ∧
    draw_text_steps sample_font TEXT_COLORTAGS 0 12 ([65] ++ (long_tag ++ [66])) sample_state
      = some ({ draw_glyph sample_font TEXT_COLORTAGS 0 sample_state 65 with
                  color := 0xff0000ff }, [66]) :=
  ⟨rfl, rfl,
   (long_tag_recolors sample_font TEXT_COLORTAGS 0 (by decide) [65] [66] (by decide)
      sample_state (draw_glyph sample_font TEXT_COLORTAGS 0 sample_state 65)
      (long_tag ++ [66]) rfl rfl).2.2.2.1⟩

/-- Counterexample to C8 as stated, with call-site colour `0x80ffffff`.
Drawing `{#ff0000}` followed by two spaces and `A` emits one quad in colour
`0xffff0000` (alpha ff), whereas consuming 8 characters and keeping the
call-site alpha would draw the closing brace and `A` in `0x80ff0000`; and in
`{#ff0000}A` the tag is not recognised at all: all ten characters are drawn in
the call-site colour; and in `{#{#ff0000}xy` the tag lies inside the run an
earlier brace skips, which matches the long form with payload `ff0000`: `xy` is
drawn in `0x00ff0000`. -/
theorem short_tag_counterexample :
    vertex_colors (draw_text sample_font RenderList.empty ⟨0, 0⟩ (short_tag ++ [32, 32, 65])
        0x80ffffff TEXT_COLORTAGS) = some (List.replicate 6 0xffff0000) ∧
    vertex_colors (draw_text sample_font RenderList.empty ⟨0, 0⟩
        ((short_tag ++ [32, 32, 65]).drop 8)
        (D3DCOLOR_ARGB ((0x80ffffff >>> 24) &&& 0xff) 0xff 0x00 0x00) 0)
      = some (List.replicate 12 0x80ff0000) ∧
    vertex_colors (draw_text sample_font RenderList.empty ⟨0, 0⟩ (short_tag ++ [65])
        0x80ffffff TEXT_COLORTAGS) = some (List.replicate 60 0x80ffffff) ∧
    vertex_colors (draw_text sample_font RenderList.empty ⟨0, 0⟩
        ([123, 35] ++ (short_tag ++ [120, 121])) 0x80ffffff TEXT_COLORTAGS)
      = some (List.replicate 12 0x00ff0000) := by
  decide

/-- Witness for C8: `{#ff0000}` followed by two spaces and `A`. -/
theorem short_tag_recolors_witness :
    ∃ color : Color, color &&& 0xffffff = 0xff0000 ∧
      draw_text_steps sample_font TEXT_COLORTAGS 0 9 (short_tag ++ [32, 32, 65]) sample_state
        = some ({ sample_state with color := color }, [32, 32, 65]) ∧
      draw_text_loop sample_font TEXT_COLORTAGS 0 (short_tag ++ [32, 32, 65]) sample_state
        = draw_text_loop sample_font TEXT_COLORTAGS 0 [32, 32, 65]
            { sample_state with color := color } :=
  short_tag_recolors sample_font TEXT_COLORTAGS 0 (by decide) [32, 32, 65] sample_state rfl
    (by decide) (by decide) (by decide) (by decide)

/-- Counterexample to C9 as stated.  In `{#zz}abc}xyz` the ninth character is a
closing brace, so the malformed tag matches the short form: with colour tags
enabled only `xyz` is drawn (18 vertices), in colour `0x000000ff`, whereas a
literal rendering (the same call without the flag) draws all twelve characters
(72 vertices) in the call-site colour.  And in `{#12{#zz}abc` the closing brace
of the malformed tag completes a short tag opened four characters earlier, so
the malformed tag is skipped and only `abc` is drawn, in colour `0x0000ff12`. -/
theorem malformed_tag_counterexample :
    vertex_colors (draw_text sample_font RenderList.empty ⟨0, 0⟩
        (malformed_tag ++ [97, 98, 99, 125, 120, 121, 122]) 0xffffffff TEXT_COLORTAGS)
      = some (List.replicate 18 0x000000ff) ∧
    vertex_colors (draw_text sample_font RenderList.empty ⟨0, 0⟩
        (malformed_tag ++ [97, 98, 99, 125, 120, 121, 122]) 0xffffffff 0)
      = some (List.replicate 72 0xffffffff) ∧
    vertex_colors (draw_text sample_font RenderList.empty ⟨0, 0⟩
        ([123, 35, 49, 50] ++ (malformed_tag ++ [97, 98, 99])) 0xffffffff TEXT_COLORTAGS)
      = some (List.replicate 18 0x0000ff12) := by
  decide

/-- Witness for C9: `{#zz}A`, where a single character follows the tag. -/
theorem malformed_tag_literal_witness :
    draw_text_steps sample_font TEXT_COLORTAGS 0 5 (malformed_tag ++ [65]) sample_state
      = some (malformed_tag.foldl (draw_glyph sample_font TEXT_COLORTAGS 0) sample_state, [65]) ∧
    (draw_glyph sample_font TEXT_COLORTAGS 0 sample_state 123).render_list.vertices.length = 6 :=
  ⟨(malformed_tag_literal sample_font TEXT_COLORTAGS 0 [65] sample_state rfl
      (Or.inl (by decide))).2.2.2.1,
   (malformed_tag_literal sample_font TEXT_COLORTAGS 0 [65] sample_state rfl
      (Or.inl (by decide))).2.2.1⟩

/-! ## Batch adjacency and draw submission: theorems -/

/-- Pushing a batch that differs from the tail keeps consecutive batches distinct. -/
theorem adjacent_distinct_concat (bs : List Batch) (b : Batch) (h : adjacent_distinct bs)
    (hb : ∀ a, bs.getLast? = some a → ¬ same_key a b) : adjacent_distinct (bs ++ [b]) := by
  unfold adjacent_distinct at *
  rw [List.chain'_append]
  refine ⟨h, List.chain'_singleton b, ?_⟩
  intro x hx y hy
  simp only [List.head?_cons, Option.mem_def, Option.some.injEq] at hy
  subst hy
  exact hb x hx

/-- Lines 7-12 of `add_vertices` keep consecutive batches distinct. -/
theorem adjacent_distinct_bump_open (bs : List Batch) (t : ToplogyType) (x : Texture) (N : Nat)
    (h : adjacent_distinct bs) : adjacent_distinct (bump_back (open_batch bs t x) N) := by
  rw [bump_open]
  cases hl : bs.getLast? with
  | none =>
    exact adjacent_distinct_concat bs _ h (fun a ha => by rw [hl] at ha; cases ha)
  | some back =>
    by_cases hc : back.topology = t ∧ back.texture = x
    · simp only [hc, and_self, if_true]
      have hs := getLast?_eq_some_split bs back hl
      rw [hs] at h
      unfold adjacent_distinct at *
      rw [List.chain'_append] at h ⊢
      refine ⟨h.1, List.chain'_singleton _, ?_⟩
      intro a ha b hb
      simp only [List.head?_cons, Option.mem_def, Option.some.injEq] at hb
      subst hb
      have := h.2.2 a ha back (by simp)
      simpa [same_key, hc.1, hc.2] using this
    · simp only [hc, if_false]
      apply adjacent_distinct_concat bs _ h
      intro a ha
      rw [hl] at ha
      cases ha
      intro hk
      exact hc ⟨hk.1, hk.2⟩

/-- One call keeps consecutive batches distinct. -/
theorem adjacent_distinct_apply (rl : RenderList) (c : Call)
    (h : adjacent_distinct rl.batches) : adjacent_distinct (c.apply rl).batches := by
  cases c with
  | add vs t x =>
    have h1 := adjacent_distinct_bump_open rl.batches t x vs.length h
    obtain ⟨n, hn⟩ := bump_open_getLast rl.batches t x vs.length
    simp only [Call.apply, add_vertices]
    cases t <;> simp only [close_strip] <;> first
      | exact h1
      | (apply adjacent_distinct_concat _ _ h1
         intro a ha
         rw [hn] at ha
         cases ha
         simp [same_key])
  | clear => exact List.chain'_nil

/-- A sequence of calls keeps consecutive batches distinct. -/
theorem adjacent_distinct_foldl (calls : List Call) :
    ∀ rl : RenderList, adjacent_distinct rl.batches →
      adjacent_distinct (calls.foldl Call.apply rl).batches := by
  induction calls with
  | nil => intro rl h; exact h
  | cons c cs ih => intro rl h; exact ih _ (adjacent_distinct_apply rl c h)

/-- Claim C13 (batch adjacency invariant).  In every state reachable from the
empty render list by `add_vertices` calls (any topology value, any texture, any
run of vertices) and `clear` calls, no two consecutive batches of the batch
list have the same (topology, texture) pair. -/
theorem batch_adjacency (calls : List Call) :
    adjacent_distinct (run_calls calls).batches ∧
    ∀ (i : Nat) (a b : Batch), (run_calls calls).batches[i]? = some a →
      (run_calls calls).batches[i + 1]? = some b →
      ¬ (a.topology = b.topology ∧ a.texture = b.texture) := by
  have h : adjacent_distinct (run_calls calls).batches :=
    adjacent_distinct_foldl calls RenderList.empty List.chain'_nil
  refine ⟨h, ?_⟩
  intro i a b ha hb
  unfold adjacent_distinct at h
  rw [List.chain'_iff_get] at h
  obtain ⟨hi1, ea⟩ := List.getElem?_eq_some.mp ha
  obtain ⟨hi2, eb⟩ := List.getElem?_eq_some.mp hb
  have := h i (by omega)
  simp only [List.get_eq_getElem, ea, eb] at this
  exact this

/-- The draw calls issued from any start position are those of the submitted batches. -/
theorem draw_from_submitted (bs : List Batch) : ∀ pos : Nat,
    (draw_from pos bs).map (fun d => (d.topology, d.texture, d.primitive_count))
      = (bs.filter submitted).map
          (fun b => (b.topology, b.texture, primitive_count b.count b.topology)) := by
  induction bs with
  | nil => intro pos; rfl
  | cons b bs ih =>
    intro pos
    unfold draw_from
    by_cases h : b.count ≠ 0 ∧ topology_order b.topology > 0
    · rw [if_pos h]
      have hs : submitted b = true := by simp [submitted, h]
      simp only [List.filter_cons, hs, if_true, List.map_cons, ih]
    · rw [if_neg h]
      have hs : submitted b = false := by simp only [submitted, h, decide_False]
      simp only [List.filter_cons, hs, Bool.false_eq_true, if_false, ih]

/-- Claim C14 (draw submission).  For every render list, the device draw calls
of `Renderer::draw` are, in batch order, exactly the batches with a non-zero
count and a topology of order above 0: one draw call per such batch, carrying
that batch's topology and texture and the primitive count computed from its
count; a batch with zero count or a topology of order 0 produces no draw call,
and `draw` has no failing outcome. -/
theorem draw_submission (rl : RenderList) :
    (draw rl).map (fun d => (d.topology, d.texture, d.primitive_count))
      = (rl.batches.filter submitted).map
          (fun b => (b.topology, b.texture, primitive_count b.count b.topology)) ∧
    (draw rl).length = (rl.batches.filter submitted).length := by
  have h := draw_from_submitted rl.batches 0
  refine ⟨h, ?_⟩
  have := congrArg List.length h
  simpa using this

/-! ## Font handles: theorems -/

/-- Claim C11 (out-of-range font handles), evaluated on the code.  For every
renderer and every handle whose id is at least the number of registered
fonts, `Renderer::draw_text` throws "Bad font handle", while
`Renderer::get_text_extent` indexes the font table past its end with no
check: it reports no error.  In particular measuring the text `A` with handle
0 on a renderer without fonts is an out-of-bounds access. -/
theorem font_handle_unchecked_in_extent (r : Renderer) (font : FontHandle) (text : List Int)
    (rl : RenderList) (position : Vec2) (color : Color) (flags : Nat) :
    (r.fonts.length ≤ font.id →
      r.get_text_extent font text = Outcome.out_of_bounds ∧
      r.draw_text rl font position text color flags = Outcome.bad_font_handle) ∧
    Renderer.get_text_extent ⟨[], RenderList.empty⟩ ⟨0⟩ [65] = Outcome.out_of_bounds := by
  refine ⟨?_, rfl⟩
  intro h
  constructor
  · unfold Renderer.get_text_extent
    rw [List.getElem?_eq_none h]
  · unfold Renderer.draw_text
    rw [if_pos h]

/-! ## Glyph geometry: theorems -/

/-- The submissions for one glyph are one run, or the five shadow passes. -/
theorem emit_glyph_runs (f : Font) (flags : Nat) (rl : RenderList) (color : Color)
    (v : List Vertex) :
    emit_glyph f flags rl color v
      = add_runs rl f.texture (if flags &&& TEXT_SHADOW ≠ 0 then shadow_passes color v else [v]) := by
  unfold emit_glyph
  split_ifs <;> rfl

/-- There are five shadow passes, each as long as the glyph quad. -/
theorem shadow_passes_length (color : Color) (v : List Vertex) :
    (shadow_passes color v).length = 5 ∧ ∀ r ∈ shadow_passes color v, r.length = v.length := by
  refine ⟨rfl, ?_⟩
  intro r hr
  simp only [shadow_passes, List.mem_cons, List.mem_singleton, List.not_mem_nil, or_false] at hr
  rcases hr with h | h | h | h | h <;> subst h <;> simp [shift, recolor]

/-- Appending runs in two steps. -/
theorem add_runs_append (rl : RenderList) (x : Texture) (a b : List (List Vertex)) :
    add_runs rl x (a ++ b) = add_runs (add_runs rl x a) x b := by
  simp [add_runs, List.foldl_append]

/-- Runs of six vertices add six vertices each to the pool. -/
theorem add_runs_vertices_length (x : Texture) (runs : List (List Vertex)) :
    ∀ rl : RenderList, (∀ r ∈ runs, r.length = 6) →
      (add_runs rl x runs).vertices.length = rl.vertices.length + 6 * runs.length := by
  induction runs with
  | nil => intro rl _; simp [add_runs]
  | cons r rs ih =>
    intro rl h
    have h1 := ih (add_vertices rl r D3DPT_TRIANGLELIST x)
      (fun a ha => h a (List.mem_cons_of_mem _ ha))
    have h2 : r.length = 6 := h r (List.mem_cons_self _ _)
    simp only [add_runs, List.foldl_cons, List.length_cons] at h1 ⊢
    rw [h1]
    simp only [add_vertices, List.length_append, h2]
    ring

/-- The runs one glyph step appends. -/
theorem draw_glyph_runs (f : Font) (flags : Nat) (sx : ℚ) (st : TextState) (c : Int)
    (hc : c = 10 ∨ (32 ≤ c ∧ c ≤ 126)) :
    ∃ runs : List (List Vertex),
      (draw_glyph f flags sx st c).render_list = add_runs st.render_list f.texture runs ∧
      (∀ r ∈ runs, r.length = 6) ∧
      runs.length = (if flags &&& TEXT_SHADOW ≠ 0 then 5 else 1) * visible_count [c] := by
  unfold draw_glyph
  rcases hc with h | ⟨h1, h2⟩
  · subst h
    refine ⟨[], ?_, by simp, ?_⟩
    · simp [add_runs]
    · simp [visible_count]
  · have hn : c ≠ 10 := by omega
    rw [if_neg hn, if_neg (by omega)]
    by_cases hs : c = 32
    · subst hs
      refine ⟨[], ?_, by simp, ?_⟩
      · simp [add_runs]
      · simp [visible_count]
    · have hv : visible_count [c] = 1 := by
        have : 33 ≤ c := by omega
        simp [visible_count, this, h2]
      simp only [hs, ne_eq, not_false_eq_true, if_true, emit_glyph_runs, hv, mul_one]
      by_cases hsh : flags &&& TEXT_SHADOW ≠ 0
      · simp only [hsh, ne_eq, not_false_eq_true, if_true]
        refine ⟨_, rfl, ?_, (shadow_passes_length _ _).1⟩
        intro r hr
        rw [(shadow_passes_length _ _).2 r hr]
        rfl
      · simp only [hsh, if_false]
        refine ⟨_, rfl, ?_, rfl⟩
        intro r hr
        rw [List.mem_singleton.mp hr]
        rfl

/-- Without the colour-tag flag an iteration is the glyph step. -/
theorem draw_text_step_untagged (f : Font) (flags : Nat) (sx : ℚ) (c : Int) (rest : List Int)
    (st : TextState) (hskip : st.num_to_skip = 0) (hflag : flags &&& TEXT_COLORTAGS = 0) :
    draw_text_step f flags sx c rest st = some (draw_glyph f flags sx st c) := by
  unfold draw_text_step
  rw [if_neg (by omega), if_neg (fun h => h.1 hflag)]

/-- Without the colour-tag flag the walk is a fold of the glyph step and never fails. -/
theorem draw_text_loop_untagged (f : Font) (flags : Nat) (sx : ℚ)
    (hflag : flags &&& TEXT_COLORTAGS = 0) (text : List Int) :
    ∀ st : TextState, st.num_to_skip = 0 →
      draw_text_loop f flags sx text st = some (text.foldl (draw_glyph f flags sx) st) := by
  induction text with
  | nil => intro st _; rfl
  | cons c cs ih =>
    intro st hskip
    rw [draw_text_loop, draw_text_step_untagged f flags sx c cs st hskip hflag,
      Option.some_bind, List.foldl_cons]
    exact ih _ (by rw [draw_glyph_skip, hskip])

/-- Counting the visible characters of a text by its head. -/
theorem visible_count_cons (c : Int) (cs : List Int) :
    visible_count (c :: cs) = visible_count [c] + visible_count cs := by
  simp only [visible_count, List.countP_cons, List.countP_nil]
  omega

/-- The runs the whole walk appends. -/
theorem foldl_draw_glyph_runs (f : Font) (flags : Nat) (sx : ℚ) (text : List Int)
    (htext : ∀ c ∈ text, c = 10 ∨ (32 ≤ c ∧ c ≤ 126)) :
    ∀ st : TextState, ∃ runs : List (List Vertex),
      (text.foldl (draw_glyph f flags sx) st).render_list
        = add_runs st.render_list f.texture runs ∧
      (∀ r ∈ runs, r.length = 6) ∧
      runs.length = (if flags &&& TEXT_SHADOW ≠ 0 then 5 else 1) * visible_count text := by
  induction text with
  | nil => intro st; exact ⟨[], by simp [add_runs], by simp, by simp [visible_count]⟩
  | cons c cs ih =>
    intro st
    obtain ⟨r1, e1, l1, n1⟩ := draw_glyph_runs f flags sx st c (htext c (List.mem_cons_self _ _))
    obtain ⟨r2, e2, l2, n2⟩ := ih (fun a ha => htext a (List.mem_cons_of_mem _ ha))
      (draw_glyph f flags sx st c)
    refine ⟨r1 ++ r2, ?_, ?_, ?_⟩
    · rw [List.foldl_cons, e2, e1, add_runs_append]
    · intro r hr
      rcases List.mem_append.mp hr with h | h
      · exact l1 r h
      · exact l2 r h
    · rw [List.length_append, n1, n2, visible_count_cons c cs]
      ring

/-- Claim C16 (glyph geometry count).  For every font, render list, origin,
colour, flags without the colour-tag flag, and every text over the codes
32 .. 126 and newlines, `Font::draw_text` returns a render list obtained by
appending runs as triangle lists carrying the font's texture; every run has
six vertices; there is one run per character with code 33 .. 126 without the
shadow flag and five with it, so the pool grows by `6 * V` vertices without the
shadow flag and by `30 * V` with it, where `V` is the number of characters with
code 33 .. 126: spaces and newlines append nothing. -/
theorem glyph_geometry_count (f : Font) (rl : RenderList) (pos : Vec2) (text : List Int)
    (color : Color) (flags : Nat) (hflag : flags &&& TEXT_COLORTAGS = 0)
    (htext : ∀ c ∈ text, c = 10 ∨ (32 ≤ c ∧ c ≤ 126)) :
    ∃ (rl' : RenderList) (runs : List (List Vertex)),
      draw_text f rl pos text color flags = some rl' ∧
      rl' = add_runs rl f.texture runs ∧
      (∀ r ∈ runs, r.length = 6) ∧
      runs.length = (if flags &&& TEXT_SHADOW ≠ 0 then 5 else 1) * visible_count text ∧
      rl'.vertices.length
        = rl.vertices.length
          + (if flags &&& TEXT_SHADOW ≠ 0 then 30 else 6) * visible_count text := by
  unfold draw_text
  simp only []
  rw [draw_text_loop_untagged f flags _ hflag text _ rfl]
  obtain ⟨runs, e, l, n⟩ := foldl_draw_glyph_runs f flags
    ((if flags &&& (TEXT_RIGHT ||| TEXT_CENTERED) ≠ 0 then
      (⟨if flags &&& TEXT_RIGHT ≠ 0 then pos.x - (get_text_extent f text).x
        else if flags &&& TEXT_CENTERED_X ≠ 0 then pos.x - 1 / 2 * (get_text_extent f text).x
        else pos.x,
        if flags &&& TEXT_CENTERED_Y ≠ 0 then pos.y - 1 / 2 * (get_text_extent f text).y
        else pos.y⟩ : Vec2) else pos).x - f.spacing) text htext
    ⟨⟨(if flags &&& (TEXT_RIGHT ||| TEXT_CENTERED) ≠ 0 then
      (⟨if flags &&& TEXT_RIGHT ≠ 0 then pos.x - (get_text_extent f text).x
        else if flags &&& TEXT_CENTERED_X ≠ 0 then pos.x - 1 / 2 * (get_text_extent f text).x
        else pos.x,
        if flags &&& TEXT_CENTERED_Y ≠ 0 then pos.y - 1 / 2 * (get_text_extent f text).y
        else pos.y⟩ : Vec2) else pos).x - f.spacing,
      (if flags &&& (TEXT_RIGHT ||| TEXT_CENTERED) ≠ 0 then
      (⟨if flags &&& TEXT_RIGHT ≠ 0 then pos.x - (get_text_extent f text).x
        else if flags &&& TEXT_CENTERED_X ≠ 0 then pos.x - 1 / 2 * (get_text_extent f text).x
        else pos.x,
        if flags &&& TEXT_CENTERED_Y ≠ 0 then pos.y - 1 / 2 * (get_text_extent f text).y
        else pos.y⟩ : Vec2) else pos).y⟩, color, 0, rl⟩
  refine ⟨_, runs, rfl, e, l, n, ?_⟩
  simp only [Option.map_some', e] 
  rw [add_runs_vertices_length f.texture runs rl l, n]
  split_ifs <;> ring

/-! ## Alignment: theorems -/

/-- The submissions for a glyph depend on the flags through the shadow bit only. -/
theorem emit_glyph_flags_congr (f : Font) (flags1 flags2 : Nat)
    (hs : flags1 &&& TEXT_SHADOW = flags2 &&& TEXT_SHADOW) (rl : RenderList) (color : Color)
    (v : List Vertex) : emit_glyph f flags1 rl color v = emit_glyph f flags2 rl color v := by
  unfold emit_glyph
  rw [hs]

/-- The glyph step depends on the flags through the shadow bit only. -/
theorem draw_glyph_flags_congr (f : Font) (flags1 flags2 : Nat)
    (hs : flags1 &&& TEXT_SHADOW = flags2 &&& TEXT_SHADOW) (sx : ℚ) (st : TextState) (c : Int) :
    draw_glyph f flags1 sx st c = draw_glyph f flags2 sx st c := by
  unfold draw_glyph
  simp only [emit_glyph_flags_congr f flags1 flags2 hs]

/-- An iteration depends on the flags through the shadow and colour-tag bits only. -/
theorem draw_text_step_flags_congr (f : Font) (flags1 flags2 : Nat)
    (hs : flags1 &&& TEXT_SHADOW = flags2 &&& TEXT_SHADOW)
    (hc : flags1 &&& TEXT_COLORTAGS = flags2 &&& TEXT_COLORTAGS) (sx : ℚ) (c : Int)
    (rest : List Int) (st : TextState) :
    draw_text_step f flags1 sx c rest st = draw_text_step f flags2 sx c rest st := by
  unfold draw_text_step
  simp only [hc, draw_glyph_flags_congr f flags1 flags2 hs]

/-- The walk depends on the flags through the shadow and colour-tag bits only. -/
theorem draw_text_loop_flags_congr (f : Font) (flags1 flags2 : Nat)
    (hs : flags1 &&& TEXT_SHADOW = flags2 &&& TEXT_SHADOW)
    (hc : flags1 &&& TEXT_COLORTAGS = flags2 &&& TEXT_COLORTAGS) (sx : ℚ) (text : List Int) :
    ∀ st : TextState, draw_text_loop f flags1 sx text st = draw_text_loop f flags2 sx text st := by
  induction text with
  | nil => intro st; rfl
  | cons c cs ih =>
    intro st
    simp only [draw_text_loop, draw_text_step_flags_congr f flags1 flags2 hs hc]
    cases draw_text_step f flags2 sx c cs st with
    | none => rfl
    | some s => exact ih s

/-- No alignment bit set means each of the three alignment bits is clear. -/
theorem land_of_land_14 (n : Nat) (h : n &&& 14 = 0) :
    n &&& 2 = 0 ∧ n &&& 4 = 0 ∧ n &&& 8 = 0 := by
  have e2 : (14 : Nat) &&& 2 = 2 := by decide
  have e4 : (14 : Nat) &&& 4 = 4 := by decide
  have e8 : (14 : Nat) &&& 8 = 8 := by decide
  refine ⟨?_, ?_, ?_⟩
  · rw [← e2, ← Nat.and_assoc, h]; rfl
  · rw [← e4, ← Nat.and_assoc, h]; rfl
  · rw [← e8, ← Nat.and_assoc, h]; rfl

/-- Setting bits outside a mask leaves the masked value unchanged. -/
theorem lor_land_disjoint (n k m : Nat) (h : k &&& m = 0) : (n ||| k) &&& m = n &&& m := by
  rw [Nat.and_distrib_right, h, Nat.or_zero]

/-- Masking a union when the first operand has no bit in the mask. -/
theorem lor_land_clear (n k m : Nat) (h : n &&& m = 0) : (n ||| k) &&& m = k &&& m := by
  rw [Nat.and_distrib_right, h, Nat.zero_or]

/-- The bits of the flags after adding one alignment flag to flags without alignment. -/
theorem alignment_bits (n : Nat) (h : n &&& 14 = 0) :
    ((n ||| 2) &&& 14 ≠ 0 ∧ (n ||| 2) &&& 2 ≠ 0 ∧ (n ||| 2) &&& 8 = 0 ∧
      (n ||| 2) &&& 16 = n &&& 16 ∧ (n ||| 2) &&& 32 = n &&& 32) ∧
    ((n ||| 4) &&& 14 ≠ 0 ∧ (n ||| 4) &&& 2 = 0 ∧ (n ||| 4) &&& 4 ≠ 0 ∧ (n ||| 4) &&& 8 = 0 ∧
      (n ||| 4) &&& 16 = n &&& 16 ∧ (n ||| 4) &&& 32 = n &&& 32) ∧
    ((n ||| 8) &&& 14 ≠ 0 ∧ (n ||| 8) &&& 2 = 0 ∧ (n ||| 8) &&& 4 = 0 ∧ (n ||| 8) &&& 8 ≠ 0 ∧
      (n ||| 8) &&& 16 = n &&& 16 ∧ (n ||| 8) &&& 32 = n &&& 32) := by
  obtain ⟨h2, h4, h8⟩ := land_of_land_14 n h
  refine ⟨⟨?_, ?_, ?_, ?_, ?_⟩, ⟨?_, ?_, ?_, ?_, ?_, ?_⟩, ⟨?_, ?_, ?_, ?_, ?_, ?_⟩⟩
  · rw [lor_land_clear n 2 14 h]; decide
  · rw [lor_land_clear n 2 2 h2]; decide
  · rw [lor_land_clear n 2 8 h8]; decide
  · exact lor_land_disjoint n 2 16 (by decide)
  · exact lor_land_disjoint n 2 32 (by decide)
  · rw [lor_land_clear n 4 14 h]; decide
  · rw [lor_land_clear n 4 2 h2]; decide
  · rw [lor_land_clear n 4 4 h4]; decide
  · rw [lor_land_clear n 4 8 h8]; decide
  · exact lor_land_disjoint n 4 16 (by decide)
  · exact lor_land_disjoint n 4 32 (by decide)
  · rw [lor_land_clear n 8 14 h]; decide
  · rw [lor_land_clear n 8 2 h2]; decide
  · rw [lor_land_clear n 8 4 h4]; decide
  · rw [lor_land_clear n 8 8 h8]; decide
  · exact lor_land_disjoint n 8 16 (by decide)
  · exact lor_land_disjoint n 8 32 (by decide)

/-- Claim C17 (alignment is a single shift of the origin).  For every font,
render list, text, origin `o`, colour and flags without alignment bits, with
`(W, H) = get_text_extent(text)`: `Font::draw_text` with the RIGHT flag added
returns what it returns without it at origin `o - (W, 0)`; with CENTER_X added,
what it returns at `o - (W / 2, 0)`; with CENTER_Y added, what it returns at
`o - (0, H / 2)`; and for any flags `g` without CENTER_Y (whatever their
horizontal alignment), adding CENTER_Y is the same as drawing with `g` at
`o - (0, H / 2)`.  The whole result is equal, so rows after a newline restart at
the same shifted x. -/
theorem alignment_is_origin_shift (f : Font) (rl : RenderList) (o : Vec2) (text : List Int)
    (color : Color) (flags : Nat)
    (hleft : flags &&& (TEXT_RIGHT ||| TEXT_CENTERED) = 0) :
    draw_text f rl o text color (flags ||| TEXT_RIGHT)
      = draw_text f rl ⟨o.x - (get_text_extent f text).x, o.y⟩ text color flags ∧
    draw_text f rl o text color (flags ||| TEXT_CENTERED_X)
      = draw_text f rl ⟨o.x - (get_text_extent f text).x / 2, o.y⟩ text color flags ∧
    draw_text f rl o text color (flags ||| TEXT_CENTERED_Y)
      = draw_text f rl ⟨o.x, o.y - (get_text_extent f text).y / 2⟩ text color flags ∧
    ∀ g : Nat, g &&& TEXT_CENTERED_Y = 0 →
      draw_text f rl o text color (g ||| TEXT_CENTERED_Y)
        = draw_text f rl ⟨o.x, o.y - (get_text_extent f text).y / 2⟩ text color g := by
  have e14 : TEXT_RIGHT ||| TEXT_CENTERED = 14 := rfl
  rw [e14] at hleft
  obtain ⟨⟨r1, r2, r3, r4, r5⟩, ⟨x1, x2, x3, x4, x5, x6⟩, ⟨y1, y2, y3, y4, y5, y6⟩⟩ :=
    alignment_bits flags hleft
  refine ⟨?_, ?_, ?_, ?_⟩
  · unfold draw_text
    simp only [e14]
    simp only [TEXT_RIGHT, TEXT_CENTERED_X, TEXT_CENTERED_Y, hleft, r1, r2, r3, ne_eq,
      not_true_eq_false, not_false_eq_true, if_true, if_false]
    rw [draw_text_loop_flags_congr f (flags ||| 2) flags r4 r5]
  · unfold draw_text
    simp only [e14]
    simp only [TEXT_RIGHT, TEXT_CENTERED_X, TEXT_CENTERED_Y, hleft, x1, x2, x3, x4, ne_eq,
      not_true_eq_false, not_false_eq_true, if_true, if_false]
    rw [draw_text_loop_flags_congr f (flags ||| 4) flags x5 x6,
      show (1 : ℚ) / 2 * (get_text_extent f text).x = (get_text_extent f text).x / 2 by ring]
  · unfold draw_text
    simp only [e14]
    simp only [TEXT_RIGHT, TEXT_CENTERED_X, TEXT_CENTERED_Y, hleft, y1, y2, y3, y4, ne_eq,
      not_true_eq_false, not_false_eq_true, if_true, if_false]
    rw [draw_text_loop_flags_congr f (flags ||| 8) flags y5 y6,
      show (1 : ℚ) / 2 * (get_text_extent f text).y = (get_text_extent f text).y / 2 by ring]
  · intro g hg
    have hg8 : g &&& 8 = 0 := hg
    have b2 : (g ||| 8) &&& 2 = g &&& 2 := lor_land_disjoint g 8 2 (by decide)
    have b4 : (g ||| 8) &&& 4 = g &&& 4 := lor_land_disjoint g 8 4 (by decide)
    have b8 : (g ||| 8) &&& 8 ≠ 0 := by rw [lor_land_clear g 8 8 hg8]; decide
    have b16 : (g ||| 8) &&& 16 = g &&& 16 := lor_land_disjoint g 8 16 (by decide)
    have b32 : (g ||| 8) &&& 32 = g &&& 32 := lor_land_disjoint g 8 32 (by decide)
    have b14 : (g ||| 8) &&& 14 ≠ 0 := fun h0 => b8 (land_of_land_14 _ h0).2.2
    have hy : (1 : ℚ) / 2 * (get_text_extent f text).y = (get_text_extent f text).y / 2 := by
      ring
    unfold draw_text
    simp only [e14]
    simp only [TEXT_RIGHT, TEXT_CENTERED_X, TEXT_CENTERED_Y, b2, b4, b8, b14, hg8, ne_eq,
      not_true_eq_false, not_false_eq_true, if_true, if_false, hy]
    rw [draw_text_loop_flags_congr f (g ||| 8) g b16 b32]
    by_cases h14 : g &&& 14 = 0
    · obtain ⟨h2, h4, _⟩ := land_of_land_14 g h14
      simp only [h14, h2, h4, not_true_eq_false, if_false]
    · simp only [h14, not_false_eq_true, if_true]

/-- The last shadow pass is the quad in its colour, moved by `(0, -2)`. -/
theorem shadow_passes_last (color : Color) (v : List Vertex) :
    (shadow_passes color v).getLast? = some (shift 0 (-2) (recolor color v)) := by
  simp only [shadow_passes, List.getLast?_cons_cons, List.getLast?_singleton,
    Option.some.injEq, shift, recolor, List.map_map]
  apply List.map_congr_left
  intro vtx _
  simp only [Function.comp_apply, Vertex.mk.injEq, Vec4.mk.injEq, and_true, true_and]
  constructor <;> ring

/-! ## Shadow passes: theorems -/

/-- Drawing a single visible character that opens no tag. -/
theorem draw_text_single (f : Font) (flags : Nat) (rl : RenderList) (pos : Vec2) (c : Int)
    (color : Color) (hflag : flags &&& (TEXT_RIGHT ||| TEXT_CENTERED) = 0)
    (hc : 33 ≤ c) (hc' : c ≠ 123) :
    draw_text f rl pos [c] color flags
      = some (emit_glyph f flags rl color (glyph_quad f ⟨pos.x - f.spacing, pos.y⟩ color c)) := by
  unfold draw_text
  simp only [hflag, ne_eq, not_true_eq_false, if_false, draw_text_loop]
  rw [draw_text_step_plain f flags _ c [] _ rfl hc']
  simp only [Option.some_bind, Option.map_some', draw_glyph]
  rw [if_neg (by omega), if_neg (by omega), if_pos (by omega)]

/-- Claim C15 (final pass of a shadowed glyph), evaluated on the code.  With
the shadow flag the submissions for a glyph quad `v` are the five arrays of
`shadow_passes`, and the last of them is `v` in the original colour moved by
`(0, -2)`: x and the colour are restored, y is not.  For the sample font, the
text `A`, origin `(0, 0)` and opaque white, the last six vertices of the
shadowed call are the vertices of the unshadowed call moved by -2 in y: their
y-coordinates are `11/2, -5/2, ...` against `15/2, -1/2, ...`. -/
theorem shadow_final_pass_shifted :
    (∀ (f : Font) (flags : Nat) (rl : RenderList) (color : Color) (v : List Vertex),
      flags &&& TEXT_SHADOW ≠ 0 →
      emit_glyph f flags rl color v = add_runs rl f.texture (shadow_passes color v) ∧
      (shadow_passes color v).getLast? = some (shift 0 (-2) (recolor color v))) ∧
    (draw_text sample_font RenderList.empty ⟨0, 0⟩ [65] 0xffffffff TEXT_SHADOW).map
        (fun rl => rl.vertices.drop 24)
      = (draw_text sample_font RenderList.empty ⟨0, 0⟩ [65] 0xffffffff 0).map
          (fun rl => shift 0 (-2) rl.vertices) ∧
    (draw_text sample_font RenderList.empty ⟨0, 0⟩ [65] 0xffffffff TEXT_SHADOW).map
        (fun rl => (rl.vertices.drop 24).map fun v => v.position.y)
      = some [11 / 2, -5 / 2, 11 / 2, -5 / 2, 11 / 2, -5 / 2] ∧
    (draw_text sample_font RenderList.empty ⟨0, 0⟩ [65] 0xffffffff 0).map
        (fun rl => rl.vertices.map fun v => v.position.y)
      = some [15 / 2, -1 / 2, 15 / 2, -1 / 2, 15 / 2, -1 / 2] := by
  refine ⟨fun f flags rl color v h => ⟨?_, shadow_passes_last color v⟩, ?_⟩
  · rw [emit_glyph_runs, if_pos h]
  rw [draw_text_single sample_font TEXT_SHADOW _ _ 65 _ (by decide) (by decide) (by decide),
    draw_text_single sample_font 0 _ _ 65 _ (by decide) (by decide) (by decide)]
  have hs : TEXT_SHADOW &&& TEXT_SHADOW ≠ 0 := by decide
  have h0 : ¬ (0 &&& TEXT_SHADOW ≠ 0) := by decide
  simp only [emit_glyph, hs, h0, if_true, if_false, ne_eq, not_true_eq_false, not_false_eq_true,
    add_vertices, RenderList.empty, glyph_quad, List.nil_append, Option.map_some',
    shift, recolor, List.map_cons, List.map_nil, List.cons_append, List.drop_succ_cons,
    List.drop_zero, sample_font]
  norm_num
  ring

/-! ## Glyph rectangles: theorems -/

/-- The painted glyphs depend on the atlas size and the spacing only. -/
theorem painted_chars_congr (gdi : Gdi) (f g : Font) (hw : f.tex_width = g.tex_width)
    (hh : f.tex_height = g.tex_height) (hs : f.spacing = g.spacing) (cs : List Int) :
    ∀ x y : Int, painted_chars gdi f cs x y = painted_chars gdi g cs x y := by
  induction cs with
  | nil => intro x y; rfl
  | cons c cs ih =>
    intro x y
    unfold painted_chars
    cases gdi.GetTextExtentPoint32 c with
    | none => rfl
    | some size =>
      have hp : wrap_cursor f x y size = wrap_cursor g x y size := by
        simp [wrap_cursor, hw, hs]
      simp only [hp, hh, hs, ih]

/-- The packer loop leaves the rectangles of other characters untouched. -/
theorem paint_chars_frame (gdi : Gdi) (mo : Bool) (i : Nat) (cs : List Int) :
    ∀ (x y : Int) (f : Font), (∀ c ∈ cs, (c - 32).toNat ≠ i) →
      (paint_chars gdi mo cs x y f).2.tex_coords i = f.tex_coords i := by
  induction cs with
  | nil => intro x y f _; simp [paint_chars]
  | cons c cs ih =>
    intro x y f h
    have hc := h c (List.mem_cons_self _ _)
    have hcs := fun a ha => h a (List.mem_cons_of_mem c ha)
    unfold paint_chars
    cases gdi.GetTextExtentPoint32 c with
    | none => rfl
    | some size =>
      simp only []
      split_ifs
      · rfl
      · exact ih _ _ f hcs
      · rfl
      · rw [ih _ _ _ hcs]
        funext j
        simp [store_rect, set_tex_coords, Ne.symm hc]

/-- The four values stored by lines 174-177. -/
theorem store_rect_values (f : Font) (c x y : Int) (size : SIZE) :
    (store_rect f c x y size).tex_coords (c - 32).toNat 0
      = ((x - f.spacing : Int) : ℚ) / f.tex_width ∧
    (store_rect f c x y size).tex_coords (c - 32).toNat 1 = ((y : Int) : ℚ) / f.tex_height ∧
    (store_rect f c x y size).tex_coords (c - 32).toNat 2
      = ((x + size.cx + f.spacing : Int) : ℚ) / f.tex_width ∧
    (store_rect f c x y size).tex_coords (c - 32).toNat 3
      = ((y + size.cy : Int) : ℚ) / f.tex_height := by
  simp [store_rect, set_tex_coords]

/-- When the paint loop succeeds it painted every character once, and each rectangle is the one stored at its pen position. -/
theorem paint_chars_painted (gdi : Gdi) (cs : List Int) :
    ∀ (x y : Int) (f : Font), cs.Nodup → (∀ c ∈ cs, 32 ≤ c) →
      ((paint_chars gdi false cs x y f).1 = S_OK →
        (painted_chars gdi f cs x y).map Painted.c = cs) ∧
      ∀ g ∈ painted_chars gdi f cs x y,
        gdi.GetTextExtentPoint32 g.c = some g.size ∧
        stored_at f (paint_chars gdi false cs x y f).2.tex_coords g := by
  induction cs with
  | nil => intro x y f _ _; simp [painted_chars]
  | cons c cs ih =>
    intro x y f hnd hge
    have hnd' := (List.nodup_cons.mp hnd)
    have hge' : ∀ a ∈ cs, 32 ≤ a := fun a ha => hge a (List.mem_cons_of_mem _ ha)
    have hc32 := hge c (List.mem_cons_self _ _)
    unfold paint_chars
    unfold painted_chars
    cases hm : gdi.GetTextExtentPoint32 c with
    | none =>
      exact ⟨(fun hok => by cases hok), fun g hg => absurd hg (List.not_mem_nil g)⟩
    | some size =>
      simp only []
      by_cases h1 : (wrap_cursor f x y size).2 + size.cy > f.tex_height
      · rw [if_pos h1, if_pos h1]
        exact ⟨(fun hok => by cases hok), fun g hg => absurd hg (List.not_mem_nil g)⟩
      · rw [if_neg h1, if_neg h1]
        simp only [Bool.false_eq_true, if_false]
        by_cases h2 : gdi.ExtTextOut (wrap_cursor f x y size).1 (wrap_cursor f x y size).2 c = false
        · rw [if_pos h2, if_pos h2]
          exact ⟨(fun hok => by cases hok), fun g hg => absurd hg (List.not_mem_nil g)⟩
        · rw [if_neg h2, if_neg h2]
          obtain ⟨ihc, ihg⟩ := ih ((wrap_cursor f x y size).1 + size.cx + 2 * f.spacing)
            (wrap_cursor f x y size).2
            (store_rect f c (wrap_cursor f x y size).1 (wrap_cursor f x y size).2 size)
            hnd'.2 hge'
          have hcongr := painted_chars_congr gdi
            (store_rect f c (wrap_cursor f x y size).1 (wrap_cursor f x y size).2 size) f
            rfl rfl rfl cs
            ((wrap_cursor f x y size).1 + size.cx + 2 * f.spacing) (wrap_cursor f x y size).2
          rw [hcongr] at ihc ihg
          refine ⟨fun hok => by rw [List.map_cons, ihc hok], ?_⟩
          intro g hg
          rcases List.mem_cons.mp hg with hgc | hgt
          · subst hgc
            refine ⟨hm, ?_⟩
            unfold stored_at
            simp only []
            rw [paint_chars_frame gdi false _ cs _ _ _ ?_]
            · exact store_rect_values f c _ _ size
            · intro a ha hidx
              have ha32 := hge' a ha
              have : a = c := by
                have h3 := congrArg (fun n : Nat => (n : Int)) hidx
                simp only [] at h3
                rw [Int.toNat_of_nonneg (by omega), Int.toNat_of_nonneg (by omega)] at h3
                omega
              exact hnd'.1 (this ▸ ha)
          · obtain ⟨hgm, hgr⟩ := ihg g hgt
            exact ⟨hgm, hgr⟩

/-- When the paint pass succeeds it painted the whole alphabet in order, and each rectangle is the one stored at its pen position. -/
theorem paint_alphabet_painted (gdi : Gdi) (f : Font) :
    ((paint_alphabet gdi f false).1 = S_OK →
      (painted_alphabet gdi f).map Painted.c = alphabet) ∧
    ∀ g ∈ painted_alphabet gdi f,
      gdi.GetTextExtentPoint32 g.c = some g.size ∧
      stored_at (paint_alphabet gdi f false).2 (paint_alphabet gdi f false).2.tex_coords g := by
  unfold paint_alphabet
  unfold painted_alphabet
  cases hm : gdi.GetTextExtentPoint32 120 with
  | none => exact ⟨(fun hok => by cases hok), fun g hg => absurd hg (List.not_mem_nil g)⟩
  | some size =>
    simp only []
    obtain ⟨h1, h2⟩ := paint_chars_painted gdi alphabet (spacing_of size.cy) 0
      { f with spacing := spacing_of size.cy } (by decide) (by decide)
    refine ⟨h1, fun g hg => ⟨(h2 g hg).1, ?_⟩⟩
    have hsz := paint_chars_tex_size gdi false alphabet (spacing_of size.cy) 0
      { f with spacing := spacing_of size.cy }
    have := (h2 g hg).2
    unfold stored_at at this ⊢
    rw [hsz.1, hsz.2.1, hsz.2.2]
    exact this

/-- The spacing set by `paint_alphabet` from the height of `x`. -/
theorem paint_alphabet_spacing (gdi : Gdi) (mo : Bool) (f : Font) (size : SIZE)
    (hx : gdi.GetTextExtentPoint32 120 = some size) :
    (paint_alphabet gdi f mo).2.spacing = spacing_of size.cy := by
  unfold paint_alphabet
  rw [hx]
  exact (paint_chars_tex_size gdi mo alphabet _ _ _).2.2

/-- Claim C20 (glyph rectangle normalisation round trip).  For every rasterizer
and every atlas of size `W x H` with `W` and `H` not zero: when the paint pass
of `paint_alphabet` succeeds the glyphs painted are the 95 characters of the
alphabet in order, and, whether it succeeds or stops early, for every glyph
painted at pen `(x, y)` with measured size `(cx, cy)` the stored rectangle is
`((x - spacing) / W, y / H, (x + cx + spacing) / W, (y + cy) / H)`, so that
`(u2 - u1) * W - 2 * spacing = cx` and `(v2 - v1) * H = cy`, and the advance
used by `get_text_extent` for the character is exactly `cx`. -/
theorem glyph_rect_round_trip (gdi : Gdi) (f : Font) (hW : f.tex_width ≠ 0)
    (hH : f.tex_height ≠ 0) :
    ((paint_alphabet gdi f false).1 = S_OK →
      (painted_alphabet gdi f).map Painted.c = alphabet) ∧
    ∀ g ∈ painted_alphabet gdi f,
      gdi.GetTextExtentPoint32 g.c = some g.size ∧
      (paint_alphabet gdi f false).2.tex_coords (g.c - 32).toNat 0
        = ((g.x : ℚ) - (paint_alphabet gdi f false).2.spacing) / f.tex_width ∧
      (paint_alphabet gdi f false).2.tex_coords (g.c - 32).toNat 1
        = (g.y : ℚ) / f.tex_height ∧
      (paint_alphabet gdi f false).2.tex_coords (g.c - 32).toNat 2
        = ((g.x : ℚ) + g.size.cx + (paint_alphabet gdi f false).2.spacing) / f.tex_width ∧
      (paint_alphabet gdi f false).2.tex_coords (g.c - 32).toNat 3
        = ((g.y : ℚ) + g.size.cy) / f.tex_height ∧
      ((paint_alphabet gdi f false).2.tex_coords (g.c - 32).toNat 2
          - (paint_alphabet gdi f false).2.tex_coords (g.c - 32).toNat 0) * f.tex_width
        - 2 * (paint_alphabet gdi f false).2.spacing = g.size.cx ∧
      ((paint_alphabet gdi f false).2.tex_coords (g.c - 32).toNat 3
          - (paint_alphabet gdi f false).2.tex_coords (g.c - 32).toNat 1) * f.tex_height
        = g.size.cy ∧
      advance (paint_alphabet gdi f false).2 g.c = g.size.cx := by
  obtain ⟨hmap, hall⟩ := paint_alphabet_painted gdi f
  refine ⟨hmap, ?_⟩
  intro g hg
  obtain ⟨hm, h0, h1, h2, h3⟩ := hall g hg
  have hsz := paint_alphabet_tex_size gdi false f
  rw [hsz.1] at h0 h2
  rw [hsz.2] at h1 h3
  have hWq : (f.tex_width : ℚ) ≠ 0 := by exact_mod_cast hW
  have hHq : (f.tex_height : ℚ) ≠ 0 := by exact_mod_cast hH
  push_cast at h0 h1 h2 h3
  refine ⟨hm, h0, h1, h2, h3, ?_, ?_, ?_⟩
  · rw [h2, h0]
    field_simp
    ring
  · rw [h3, h1]
    field_simp
  · unfold advance
    rw [h2, h0, hsz.1]
    field_simp
    ring

/-- Where the packer loop puts the pen: inside the atlas vertically, and either fitting horizontally or at the start of a row. -/
theorem painted_chars_layout (gdi : Gdi) (f : Font)
    (hpos : ∀ c size, gdi.GetTextExtentPoint32 c = some size → 0 < size.cx ∧ 0 < size.cy)
    (hsp : 0 ≤ f.spacing) (cs : List Int) :
    ∀ x y : Int, f.spacing ≤ x → 0 ≤ y → ∀ g ∈ painted_chars gdi f cs x y,
      f.spacing ≤ g.x ∧ 0 ≤ g.y ∧ g.y + g.size.cy ≤ f.tex_height ∧
      (g.x + g.size.cx + f.spacing ≤ f.tex_width ∨ g.x = f.spacing) ∧
      0 < g.size.cx ∧ 0 < g.size.cy := by
  induction cs with
  | nil => intro x y _ _ g hg; simp [painted_chars] at hg
  | cons c cs ih =>
    intro x y hx hy g hg
    unfold painted_chars at hg
    cases hm : gdi.GetTextExtentPoint32 c with
    | none => rw [hm] at hg; simp at hg
    | some size =>
      rw [hm] at hg
      simp only [] at hg
      obtain ⟨hcx, hcy⟩ := hpos c size hm
      have hwrap : f.spacing ≤ (wrap_cursor f x y size).1 ∧ 0 ≤ (wrap_cursor f x y size).2 ∧
          ((wrap_cursor f x y size).1 + size.cx + f.spacing ≤ f.tex_width ∨
            (wrap_cursor f x y size).1 = f.spacing) := by
        unfold wrap_cursor
        split_ifs with h
        · exact ⟨le_refl _, by simp only []; omega, Or.inr rfl⟩
        · exact ⟨hx, hy, Or.inl (by simp only []; omega)⟩
      by_cases h1 : (wrap_cursor f x y size).2 + size.cy > f.tex_height
      · rw [if_pos h1] at hg; simp at hg
      · rw [if_neg h1] at hg
        by_cases h2 : gdi.ExtTextOut (wrap_cursor f x y size).1 (wrap_cursor f x y size).2 c = false
        · rw [if_pos h2] at hg; simp at hg
        · rw [if_neg h2] at hg
          rcases List.mem_cons.mp hg with hgc | hgt
          · subst hgc
            exact ⟨hwrap.1, hwrap.2.1, by simp only []; omega, hwrap.2.2, hcx, hcy⟩
          · exact ih _ _ (by omega) hwrap.2.1 g hgt

/-- The alphabet as the image of `0 .. 94`. -/
theorem alphabet_eq_map : alphabet = (List.range 95).map (fun n : Nat => (n : Int) + 32) := by
  decide

/-- Claim C12 (GlyphRect invariant), amended.  For every rasterizer whose
measured widths and heights are positive and every atlas of positive width
and height in which every glyph of the alphabet with its padding on both
sides fits the width (`cx + 2 * spacing <= W`): when the paint pass of
`paint_alphabet` succeeds, every one of the 95 stored rectangles satisfies
`0 <= u1 < u2 <= 1` and `0 <= v1 < v2 <= 1`. -/
theorem glyph_rect_invariant (gdi : Gdi) (f : Font)
    (hpos : ∀ c size, gdi.GetTextExtentPoint32 c = some size → 0 < size.cx ∧ 0 < size.cy)
    (hW : 0 < f.tex_width) (hH : 0 < f.tex_height)
    (hfit : ∀ c ∈ alphabet, ∀ size, gdi.GetTextExtentPoint32 c = some size →
      size.cx + 2 * (paint_alphabet gdi f false).2.spacing ≤ f.tex_width)
    (hok : (paint_alphabet gdi f false).1 = S_OK) :
    ∀ i, i < 95 →
      0 ≤ (paint_alphabet gdi f false).2.tex_coords i 0 ∧
      (paint_alphabet gdi f false).2.tex_coords i 0
        < (paint_alphabet gdi f false).2.tex_coords i 2 ∧
      (paint_alphabet gdi f false).2.tex_coords i 2 ≤ 1 ∧
      0 ≤ (paint_alphabet gdi f false).2.tex_coords i 1 ∧
      (paint_alphabet gdi f false).2.tex_coords i 1
        < (paint_alphabet gdi f false).2.tex_coords i 3 ∧
      (paint_alphabet gdi f false).2.tex_coords i 3 ≤ 1 := by
  intro i hi
  obtain ⟨hmap, hall⟩ := paint_alphabet_painted gdi f
  have hmap := hmap hok
  have hmem : ((i : Int) + 32) ∈ alphabet := by
    rw [alphabet_eq_map, List.mem_map]
    exact ⟨i, List.mem_range.mpr hi, rfl⟩
  have hmem' := hmem
  rw [← hmap] at hmem'
  obtain ⟨g, hg, hgc⟩ := List.mem_map.mp hmem'
  obtain ⟨hm, h0, h1, h2, h3⟩ := hall g hg
  have hidx : (g.c - 32).toNat = i := by rw [hgc]; simp
  rw [hidx] at h0 h1 h2 h3
  have hsz := paint_alphabet_tex_size gdi false f
  rw [hsz.1] at h0 h2
  rw [hsz.2] at h1 h3
  -- the layout facts
  cases hx : gdi.GetTextExtentPoint32 120 with
  | none =>
    unfold paint_alphabet at hok
    rw [hx] at hok
    cases hok
  | some sx =>
    have hspv := paint_alphabet_spacing gdi false f sx hx
    have hsp0 : 0 ≤ spacing_of sx.cy := spacing_of_nonneg _ (le_of_lt (hpos 120 sx hx).2)
    have hlay := painted_chars_layout gdi { f with spacing := spacing_of sx.cy } hpos hsp0
      alphabet (spacing_of sx.cy) 0 (le_refl _) (le_refl _) g
      (by
        have : painted_alphabet gdi f
            = painted_chars gdi { f with spacing := spacing_of sx.cy } alphabet
                (spacing_of sx.cy) 0 := by
          unfold painted_alphabet
          rw [hx]
        rw [← this]; exact hg)
    simp only [] at hlay
    obtain ⟨l1, l2, l3, l4, l5, l6⟩ := hlay
    have hfit' := hfit g.c (by rw [hgc]; exact hmem) g.size hm
    rw [hspv] at h0 h2 hfit'
    have hWq : (0 : ℚ) < f.tex_width := by exact_mod_cast hW
    have hHq : (0 : ℚ) < f.tex_height := by exact_mod_cast hH
    rw [h0, h1, h2, h3]
    refine ⟨?_, ?_, ?_, ?_, ?_, ?_⟩
    · apply div_nonneg _ (le_of_lt hWq)
      exact_mod_cast (by omega : 0 ≤ g.x - spacing_of sx.cy)
    · apply div_lt_div_of_pos_right _ hWq
      exact_mod_cast (by omega : g.x - spacing_of sx.cy < g.x + g.size.cx + spacing_of sx.cy)
    · rw [div_le_one hWq]
      exact_mod_cast (by omega : g.x + g.size.cx + spacing_of sx.cy ≤ f.tex_width)
    · apply div_nonneg _ (le_of_lt hHq)
      exact_mod_cast l2
    · apply div_lt_div_of_pos_right _ hHq
      exact_mod_cast (by omega : g.y < g.y + g.size.cy)
    · rw [div_le_one hHq]
      exact_mod_cast l3

/-! ## Atlas size discovery: the side found -/

/-- The result code of the packer loop depends on the font through the atlas size and the spacing only. -/
theorem paint_chars_hr_congr_mode (gdi : Gdi) (mo : Bool) (cs : List Int) :
    ∀ (x y : Int) (f g : Font), f.tex_width = g.tex_width → f.tex_height = g.tex_height →
      f.spacing = g.spacing →
      (paint_chars gdi mo cs x y f).1 = (paint_chars gdi mo cs x y g).1 := by
  induction cs with
  | nil => intro x y f g _ _ _; simp [paint_chars]
  | cons c cs ih =>
    intro x y f g hw hh hs
    unfold paint_chars
    cases hm : gdi.GetTextExtentPoint32 c with
    | none => simp
    | some size =>
      have hp : wrap_cursor f x y size = wrap_cursor g x y size := by
        simp [wrap_cursor, hw, hs]
      simp only [hp, hh, hs]
      split_ifs
      · rfl
      · exact ih _ _ f g hw hh hs
      · rfl
      · exact ih _ _ _ _ hw hh hs

/-- The result code of `paint_alphabet` depends on the font through the atlas size only. -/
theorem paint_alphabet_hr_congr_mode (gdi : Gdi) (mo : Bool) (f g : Font)
    (hw : f.tex_width = g.tex_width) (hh : f.tex_height = g.tex_height) :
    (paint_alphabet gdi f mo).1 = (paint_alphabet gdi g mo).1 := by
  unfold paint_alphabet
  cases gdi.GetTextExtentPoint32 120 with
  | none => rfl
  | some size => exact paint_chars_hr_congr_mode gdi mo _ _ _ _ _ hw hh rfl

/-- With fixed metrics the paint pass ends as the measure pass does. -/
theorem paint_chars_fixed_mode (m : Int → SIZE) (cs : List Int) :
    ∀ (x y : Int) (f : Font),
      (paint_chars (fixed_metrics m) false cs x y f).1
        = (paint_chars (fixed_metrics m) true cs x y f).1 := by
  induction cs with
  | nil => intro x y f; simp [paint_chars]
  | cons c cs ih =>
    intro x y f
    unfold paint_chars
    simp only [fixed_metrics, Bool.false_eq_true, if_false, if_true]
    split_ifs with h1 h2
    · rfl
    · exact absurd h2 id
    · exact (ih _ _ _).trans (paint_chars_hr_congr_mode _ true cs _ _ _ _ rfl rfl rfl)

/-- With fixed metrics `paint_alphabet` ends in paint mode as it does in measure mode. -/
theorem paint_alphabet_fixed_mode (m : Int → SIZE) (f : Font) :
    (paint_alphabet (fixed_metrics m) f false).1 = (paint_alphabet (fixed_metrics m) f true).1 := by
  unfold paint_alphabet
  simp only [fixed_metrics]
  exact paint_chars_fixed_mode m _ _ _ _

/-- Where the packer loop puts the pen when no measured size is negative: inside the atlas vertically, and either fitting horizontally or at the start of a row. -/
theorem painted_chars_inside (gdi : Gdi) (f : Font)
    (hpos : ∀ c size, gdi.GetTextExtentPoint32 c = some size → 0 ≤ size.cx ∧ 0 ≤ size.cy)
    (hsp : 0 ≤ f.spacing) (cs : List Int) :
    ∀ x y : Int, f.spacing ≤ x → 0 ≤ y → ∀ g ∈ painted_chars gdi f cs x y,
      gdi.GetTextExtentPoint32 g.c = some g.size ∧
      f.spacing ≤ g.x ∧ 0 ≤ g.y ∧ g.y + g.size.cy ≤ f.tex_height ∧
      (g.x + g.size.cx + f.spacing ≤ f.tex_width ∨ g.x = f.spacing) := by
  induction cs with
  | nil => intro x y _ _ g hg; simp [painted_chars] at hg
  | cons c cs ih =>
    intro x y hx hy g hg
    unfold painted_chars at hg
    cases hm : gdi.GetTextExtentPoint32 c with
    | none => rw [hm] at hg; simp at hg
    | some size =>
      rw [hm] at hg
      simp only [] at hg
      obtain ⟨hcx, hcy⟩ := hpos c size hm
      have hwrap : f.spacing ≤ (wrap_cursor f x y size).1 ∧ 0 ≤ (wrap_cursor f x y size).2 ∧
          ((wrap_cursor f x y size).1 + size.cx + f.spacing ≤ f.tex_width ∨
            (wrap_cursor f x y size).1 = f.spacing) := by
        unfold wrap_cursor
        split_ifs with h
        · exact ⟨le_refl _, by simp only []; omega, Or.inr rfl⟩
        · exact ⟨hx, hy, Or.inl (by simp only []; omega)⟩
      by_cases h1 : (wrap_cursor f x y size).2 + size.cy > f.tex_height
      · rw [if_pos h1] at hg; simp at hg
      · rw [if_neg h1] at hg
        by_cases h2 : gdi.ExtTextOut (wrap_cursor f x y size).1 (wrap_cursor f x y size).2 c = false
        · rw [if_pos h2] at hg; simp at hg
        · rw [if_neg h2] at hg
          rcases List.mem_cons.mp hg with hgc | hgt
          · subst hgc
            exact ⟨hm, hwrap.1, hwrap.2.1, by simp only []; omega, hwrap.2.2⟩
          · exact ih _ _ (by omega) hwrap.2.1 g hgt

/-- When every side from `128 * 2 ^ j0` up to `2 ^ 30` overflows, the measure loop gives no result. -/
theorem measure_loop_overflow (gdi : Gdi) (f0 : Font) (n : Nat) :
    ∀ (j0 : Nat) (f : Font), j0 ≤ 23 →
      f.tex_width = 128 * 2 ^ j0 → f.tex_height = 128 * 2 ^ j0 →
      (∀ j, j0 ≤ j → j ≤ 23 →
        (paint_alphabet gdi (with_side f0 (128 * 2 ^ j)) true).1 = D3DERR_MOREDATA) →
      measure_loop gdi n f = none := by
  induction n with
  | zero => intro j0 f _ _ _ _; rfl
  | succ n ih =>
    intro j0 f hj hw hh hall
    have hr : (paint_alphabet gdi f true).1 = D3DERR_MOREDATA := by
      rw [paint_alphabet_hr_congr gdi f (with_side f0 (128 * 2 ^ j0)) hw hh]
      exact hall j0 (le_refl _) hj
    have hsz := paint_alphabet_tex_size gdi true f
    unfold measure_loop
    cases hpa : paint_alphabet gdi f true with
    | mk hres f1 =>
      rw [hpa] at hr hsz
      simp only at hr hsz
      subst hr
      simp only
      rcases Nat.lt_or_ge j0 23 with hlt | hge
      · rw [double_long_side f1.tex_width j0 (hsz.1.trans hw) (by omega),
          double_long_side f1.tex_height j0 (hsz.2.trans hh) (by omega)]
        simp only
        exact ih (j0 + 1)
          (Font.mk f1.texture (128 * 2 ^ (j0 + 1)) (128 * 2 ^ (j0 + 1)) f1.text_scale
            f1.tex_coords f1.spacing) (by omega) rfl rfl
          (fun j h1 h2 => hall j (by omega) h2)
      · obtain rfl : j0 = 23 := by omega
        have hnone : double_long f1.tex_width = none := by
          unfold double_long
          rw [if_neg]
          rw [hsz.1, hw]
          norm_num
        rw [hnone]

/-- Claim C10 (atlas size discovery), amended.  For every fixed glyph metrics
with non-negative widths and heights whose single-row need `atlas_need` is
below `2 ^ 29` (no side tried then exceeds `2 ^ 29`, and no sum of the packer
leaves the range of `long`), the measure loop of the constructor, started at
side 128 and doubling on every overflow, terminates (every fuel from some
bound on gives the same result) with result `S_OK` at a side
`S = 128 * 2 ^ k` at most `max 128 (2 * atlas_need)`; `paint_alphabet`
returns `S_OK` at `S`, measuring and painting, and `D3DERR_MOREDATA` at every
smaller side `128 * 2 ^ j`, `j < k`; at `S` the paint pass places the 95
characters, each with `0 <= y`, `y + cy <= S` and `spacing <= x`, and with
`x + cx + spacing <= S` when the glyph with its padding fits a row
(`cx + 2 * spacing <= S`). -/
theorem atlas_size_discovery (metrics : Int → SIZE) (f : Font)
    (hm : ∀ c, 0 ≤ (metrics c).cx ∧ 0 ≤ (metrics c).cy)
    (hrange : atlas_need metrics < 2 ^ 29) :
    ∃ k fuel : Nat,
      (∀ n, fuel ≤ n → ∃ f', measure_phase (fixed_metrics metrics) n f = some (S_OK, f') ∧
        f'.tex_width = 128 * 2 ^ k ∧ f'.tex_height = 128 * 2 ^ k) ∧
      (128 * 2 ^ k : Int) ≤ max 128 (2 * atlas_need metrics) ∧
      (paint_alphabet (fixed_metrics metrics) (with_side f (128 * 2 ^ k)) true).1 = S_OK ∧
      (∀ j, j < k →
        (paint_alphabet (fixed_metrics metrics) (with_side f (128 * 2 ^ j)) true).1
          = D3DERR_MOREDATA) ∧
      (paint_alphabet (fixed_metrics metrics) (with_side f (128 * 2 ^ k)) false).1 = S_OK ∧
      (painted_alphabet (fixed_metrics metrics) (with_side f (128 * 2 ^ k))).map Painted.c
        = alphabet ∧
      ∀ g ∈ painted_alphabet (fixed_metrics metrics) (with_side f (128 * 2 ^ k)),
        g.size = metrics g.c ∧ 0 ≤ g.y ∧ g.y + g.size.cy ≤ 128 * 2 ^ k ∧
        spacing_of (metrics 120).cy ≤ g.x ∧
        (g.size.cx + 2 * spacing_of (metrics 120).cy ≤ 128 * 2 ^ k →
          g.x + g.size.cx + spacing_of (metrics 120).cy ≤ 128 * 2 ^ k) := by
  classical
  have hex : ∃ k : Nat,
      (paint_alphabet (fixed_metrics metrics) (with_side f (128 * 2 ^ k)) true).1 = S_OK := by
    refine ⟨22, paint_alphabet_fits_need metrics hm _ ?_ ?_⟩ <;>
    · simp only [with_side]
      norm_num
      exact hrange.le
  have hk23 : Nat.find hex ≤ 22 := by
    apply Nat.find_min' hex
    refine paint_alphabet_fits_need metrics hm _ ?_ ?_ <;>
    · simp only [with_side]
      norm_num
      exact hrange.le
  have hmin : ∀ j, j < Nat.find hex →
      (paint_alphabet (fixed_metrics metrics) (with_side f (128 * 2 ^ j)) true).1
        = D3DERR_MOREDATA := by
    intro j hj
    rcases paint_alphabet_fixed_cases metrics (with_side f (128 * 2 ^ j)) with h | h
    · exact absurd h (Nat.find_min hex hj)
    · exact h
  have hpaint : (paint_alphabet (fixed_metrics metrics)
      (with_side f (128 * 2 ^ Nat.find hex)) false).1 = S_OK := by
    rw [paint_alphabet_fixed_mode]
    exact Nat.find_spec hex
  refine ⟨Nat.find hex, Nat.find hex + 1, ?_, ?_, Nat.find_spec hex, hmin, hpaint,
    (paint_alphabet_painted _ _).1 hpaint, ?_⟩
  · intro n hn
    have := measure_loop_finds (fixed_metrics metrics) f (Nat.find hex) 0
      (with_side f 128) (by omega) (by simp [with_side]) (by simp [with_side])
      (fun j hj => by rw [Nat.zero_add]; exact hmin j hj)
      (by rw [Nat.zero_add]; exact Nat.find_spec hex) n hn
    simpa [measure_phase, with_side] using this
  · rcases Nat.eq_zero_or_pos (Nat.find hex) with h0 | hpos
    · rw [h0]
      exact le_max_left _ _
    · obtain ⟨j, hj⟩ : ∃ j, Nat.find hex = j + 1 := ⟨Nat.find hex - 1, by omega⟩
      have hover := hmin j (by omega)
      have hlt : (128 * 2 ^ j : Int) < atlas_need metrics := by
        by_contra hge
        push_neg at hge
        have := paint_alphabet_fits_need metrics hm (with_side f (128 * 2 ^ j)) hge hge
        rw [this] at hover
        cases hover
      rw [hj, pow_succ]
      apply le_trans _ (le_max_right _ _)
      omega
  · intro g hg
    unfold painted_alphabet at hg
    simp only [fixed_metrics] at hg
    have hlay := painted_chars_inside (fixed_metrics metrics)
      { with_side f (128 * 2 ^ Nat.find hex) with spacing := spacing_of (metrics 120).cy }
      (fun c size hc => by
        simp only [fixed_metrics, Option.some.injEq] at hc
        subst hc
        exact hm c)
      (spacing_of_nonneg _ (hm 120).2) alphabet (spacing_of (metrics 120).cy) 0 (le_refl _) (le_refl _) g hg
    obtain ⟨h0, h1, h2, h3, h4⟩ := hlay
    simp only [fixed_metrics, Option.some.injEq] at h0
    simp only [with_side] at h1 h3 h4
    refine ⟨h0.symm, h2, h3, h1, fun hfit => ?_⟩
    rcases h4 with h4 | h4
    · exact h4
    · rw [h4]; omega

/-- Counterexample for C10.  First, with every glyph 1000 wide and 1 high
(non-negative metrics) the measure phase ends with `S_OK` at side 256 and the
paint pass at that side succeeds, yet every glyph is painted across the right
edge of the atlas (the space at `x = 1`, `y = 2`, reaching `x = 1001`): the
pass checks the height only.  Second, with a space `2 ^ 30 + 1` high and
every other glyph empty the layout overflows at its first glyph at every side
up to `2 ^ 30` and the next doubling leaves the range of `long`: the measure
loop yields no side, whatever the fuel. -/
theorem atlas_size_counterexample :
    (∀ c, 0 ≤ (wide_metrics c).cx ∧ 0 ≤ (wide_metrics c).cy) ∧
    (∃ f', measure_phase (fixed_metrics wide_metrics) 2 sample_font = some (S_OK, f') ∧
      f'.tex_width = 256 ∧ f'.tex_height = 256) ∧
    (paint_alphabet (fixed_metrics wide_metrics) (with_side sample_font 256) false).1 = S_OK ∧
    (⟨32, 1, 2, ⟨1000, 1⟩⟩ : Painted)
      ∈ painted_alphabet (fixed_metrics wide_metrics) (with_side sample_font 256) ∧
    (∀ g ∈ painted_alphabet (fixed_metrics wide_metrics) (with_side sample_font 256),
      256 < g.x + g.size.cx) ∧
    (∀ c, 0 ≤ (towering_metrics c).cx ∧ 0 ≤ (towering_metrics c).cy) ∧
    ∀ n, measure_phase (fixed_metrics towering_metrics) n sample_font = none := by
  refine ⟨fun _ => ⟨by simp [wide_metrics], by simp [wide_metrics]⟩, ?_, by decide, by decide,
    by decide, fun c => ?_, ?_⟩
  · obtain ⟨f', h1, h2, h3⟩ := measure_loop_finds (fixed_metrics wide_metrics) sample_font 1 0
      (with_side sample_font 128) (by decide) rfl rfl
      (fun j hj => by
        obtain rfl : j = 0 := by omega
        decide)
      (by decide) 2 (le_refl _)
    exact ⟨f', h1, by rw [h2]; norm_num, by rw [h3]; norm_num⟩
  · unfold towering_metrics
    split_ifs <;> exact ⟨by decide, by decide⟩
  · intro n
    apply measure_loop_overflow (fixed_metrics towering_metrics) sample_font n 0
      (with_side sample_font 128) (by decide) rfl rfl
    intro j _ hj
    interval_cases j <;> decide

set_option maxRecDepth 4000 in
/-- Witness for C10: glyphs 20 wide and 50 high (spacing 16) have a single-row
need below `2 ^ 29`, and the measure phase ends with `S_OK` at side 1024. -/
theorem atlas_size_discovery_witness :
    (∀ c, 0 ≤ (banner_metrics c).cx ∧ 0 ≤ (banner_metrics c).cy) ∧
    atlas_need banner_metrics < 2 ^ 29 ∧
    spacing_of (banner_metrics 120).cy = 16 ∧
    ∃ n f', measure_phase (fixed_metrics banner_metrics) n sample_font = some (S_OK, f') ∧
      f'.tex_width = 1024 ∧ f'.tex_height = 1024 := by
  refine ⟨fun _ => ⟨by simp [banner_metrics], by simp [banner_metrics]⟩, by decide, by decide, ?_⟩
  obtain ⟨k, fuel, hfuel, _, hfit, hless, _⟩ :=
    atlas_size_discovery banner_metrics sample_font
      (fun _ => ⟨by simp [banner_metrics], by simp [banner_metrics]⟩) (by decide)
  have hk : k = 3 := by
    rcases Nat.lt_trichotomy k 3 with h | h | h
    · exfalso
      revert hfit
      interval_cases k <;> decide
    · exact h
    · exfalso
      have := hless 3 h
      revert this
      decide
  subst hk
  obtain ⟨f', h1, h2, h3⟩ := hfuel fuel (le_refl _)
  exact ⟨fuel, f', h1, by rw [h2]; norm_num, by rw [h3]; norm_num⟩

/-! ## The scale fallback of the constructor: theorems -/

/-- The packer loop never changes `text_scale`. -/
theorem paint_chars_text_scale (gdi : Gdi) (mo : Bool) (cs : List Int) :
    ∀ (x y : Int) (f : Font), (paint_chars gdi mo cs x y f).2.text_scale = f.text_scale := by
  induction cs with
  | nil => intro x y f; simp [paint_chars]
  | cons c cs ih =>
    intro x y f
    unfold paint_chars
    cases hm : gdi.GetTextExtentPoint32 c with
    | none => simp
    | some size =>
      simp only []
      split_ifs
      · simp
      · exact ih _ _ f
      · simp
      · exact ih _ _ (store_rect f c _ _ size)

/-- `paint_alphabet` never changes `text_scale`. -/
theorem paint_alphabet_text_scale (gdi : Gdi) (mo : Bool) (f : Font) :
    (paint_alphabet gdi f mo).2.text_scale = f.text_scale := by
  unfold paint_alphabet
  cases gdi.GetTextExtentPoint32 120 with
  | none => rfl
  | some size => exact paint_chars_text_scale gdi mo alphabet _ _ _

/-- Whether an attempt overflows depends on the atlas size only. -/
theorem overflows_congr (env : FontEnv) (f g : Font) (hw : f.tex_width = g.tex_width)
    (hh : f.tex_height = g.tex_height) (s : ℚ) : overflows env f s ↔ overflows env g s := by
  unfold overflows
  constructor
  · rintro ⟨gdi, h1, h2⟩
    exact ⟨gdi, h1, by rw [← paint_alphabet_hr_congr gdi f g hw hh]; exact h2⟩
  · rintro ⟨gdi, h1, h2⟩
    exact ⟨gdi, h1, by rw [paint_alphabet_hr_congr gdi f g hw hh]; exact h2⟩

/-- When the fallback loop gives a result, its attempts overflowed up to some `k` and the attempt `k` ended the loop. -/
theorem scale_loop_sound (env : FontEnv) (fuel : Nat) :
    ∀ (first : Bool) (f : Font) (r : Option (HRESULT × Font × Gdi)),
      scale_loop env fuel first f = some r →
      ∃ k, (∀ i, i < k → overflows env f (retry_scale (first_scale first f) i)) ∧
        ends_at env f (retry_scale (first_scale first f) k) r := by
  induction fuel with
  | zero => intro first f r h; simp [scale_loop] at h
  | succ fuel ih =>
    intro first f r h
    unfold scale_loop at h
    have hf1 : (if first = true then f
        else { f with text_scale := f32_round (f.text_scale * FLT_0_9) }).text_scale
        = first_scale first f := by
      unfold first_scale
      split_ifs <;> rfl
    have hw1 : (if first = true then f
        else { f with text_scale := f32_round (f.text_scale * FLT_0_9) }).tex_width = f.tex_width := by
      split_ifs <;> rfl
    have hh1 : (if first = true then f
        else { f with text_scale := f32_round (f.text_scale * FLT_0_9) }).tex_height = f.tex_height := by
      split_ifs <;> rfl
    simp only [] at h
    rw [hf1] at h
    cases hc : env.create_gdi_font (first_scale first f) with
    | none =>
      rw [hc] at h
      simp only [Option.some.injEq] at h
      subst h
      exact ⟨0, fun i hi => absurd hi (Nat.not_lt_zero i), by simpa [ends_at] using hc⟩
    | some gdi =>
      rw [hc] at h
      simp only [] at h
      have hsz := paint_alphabet_tex_size gdi true
        (if first = true then f else { f with text_scale := f32_round (f.text_scale * FLT_0_9) })
      have hts := paint_alphabet_text_scale gdi true
        (if first = true then f else { f with text_scale := f32_round (f.text_scale * FLT_0_9) })
      have hhr := paint_alphabet_hr_congr gdi
        (if first = true then f else { f with text_scale := f32_round (f.text_scale * FLT_0_9) }) f hw1 hh1
      cases hp : paint_alphabet gdi
          (if first = true then f else { f with text_scale := f32_round (f.text_scale * FLT_0_9) }) true with
      | mk hr f2 =>
        rw [hp] at h hsz hts hhr
        simp only [] at hsz hts hhr
        rw [hw1] at hsz
        rw [hh1] at hsz
        rw [hf1] at hts
        cases hr with
        | D3DERR_MOREDATA =>
          simp only [] at h
          obtain ⟨k, hk1, hk2⟩ := ih false f2 r h
          have hfs : first_scale false f2 = f32_round (first_scale first f * FLT_0_9) := by
            simp [first_scale, hts]
          refine ⟨k + 1, ?_, ?_⟩
          · intro i hi
            cases i with
            | zero => exact ⟨gdi, hc, hhr.symm⟩
            | succ i =>
              have := hk1 i (by omega)
              rw [overflows_congr env f2 f hsz.1 hsz.2, hfs] at this
              exact this
          · rw [hfs] at hk2
            show ends_at env f (retry_scale (f32_round (first_scale first f * FLT_0_9)) k) r
            cases r with
            | none => exact hk2
            | some p =>
              obtain ⟨hr', f', gdi'⟩ := p
              simp only [ends_at] at hk2 ⊢
              obtain ⟨a1, a2, a3, a4, a5, a6⟩ := hk2
              refine ⟨a1, a2, ?_, a4, a5.trans hsz.1, a6.trans hsz.2⟩
              rw [← a3]
              exact paint_alphabet_hr_congr gdi' f f2 hsz.1.symm hsz.2.symm
        | S_OK =>
          simp only [Option.some.injEq] at h
          subst h
          refine ⟨0, fun i hi => absurd hi (Nat.not_lt_zero i), ?_⟩
          simp only [ends_at, retry_scale]
          exact ⟨hc, by decide, hhr.symm, hts, hsz.1, hsz.2⟩
        | E_FAIL =>
          simp only [Option.some.injEq] at h
          subst h
          refine ⟨0, fun i hi => absurd hi (Nat.not_lt_zero i), ?_⟩
          simp only [ends_at, retry_scale]
          exact ⟨hc, by decide, hhr.symm, hts, hsz.1, hsz.2⟩


/-- The font state of the first attempt of `scale_loop`. -/
theorem first_scale_attempt (first : Bool) (f : Font) :
    (if first = true then f
      else { f with text_scale := f32_round (f.text_scale * FLT_0_9) }).text_scale = first_scale first f ∧
    (if first = true then f
      else { f with text_scale := f32_round (f.text_scale * FLT_0_9) }).tex_width = f.tex_width ∧
    (if first = true then f
      else { f with text_scale := f32_round (f.text_scale * FLT_0_9) }).tex_height = f.tex_height := by
  unfold first_scale
  split_ifs <;> exact ⟨rfl, rfl, rfl⟩

/-- If the attempts overflow up to `k` and the attempt `k` does not, fuel `k + 1` is enough. -/
theorem scale_loop_complete (env : FontEnv) (k : Nat) :
    ∀ (first : Bool) (f : Font),
      (∀ i, i < k → overflows env f (retry_scale (first_scale first f) i)) →
      ¬ overflows env f (retry_scale (first_scale first f) k) →
      ∀ fuel, k + 1 ≤ fuel → (scale_loop env fuel first f).isSome = true := by
  induction k with
  | zero =>
    intro first f _ hno fuel hfuel
    obtain ⟨n, rfl⟩ : ∃ n, fuel = n + 1 := ⟨fuel - 1, by omega⟩
    obtain ⟨hf1, hw1, hh1⟩ := first_scale_attempt first f
    unfold scale_loop
    simp only []
    rw [hf1]
    cases hc : env.create_gdi_font (first_scale first f) with
    | none => rfl
    | some gdi =>
      simp only []
      have hhr := paint_alphabet_hr_congr gdi
        (if first = true then f else { f with text_scale := f32_round (f.text_scale * FLT_0_9) }) f hw1 hh1
      cases hp : paint_alphabet gdi
          (if first = true then f else { f with text_scale := f32_round (f.text_scale * FLT_0_9) }) true with
      | mk hr f2 =>
        rw [hp] at hhr
        cases hr with
        | D3DERR_MOREDATA =>
          exfalso
          apply hno
          exact ⟨gdi, hc, hhr.symm⟩
        | S_OK => rfl
        | E_FAIL => rfl
  | succ k ih =>
    intro first f hov hno fuel hfuel
    obtain ⟨n, rfl⟩ : ∃ n, fuel = n + 1 := ⟨fuel - 1, by omega⟩
    obtain ⟨hf1, hw1, hh1⟩ := first_scale_attempt first f
    unfold scale_loop
    simp only []
    rw [hf1]
    cases hc : env.create_gdi_font (first_scale first f) with
    | none => rfl
    | some gdi =>
      simp only []
      have hsz := paint_alphabet_tex_size gdi true
        (if first = true then f else { f with text_scale := f32_round (f.text_scale * FLT_0_9) })
      have hts := paint_alphabet_text_scale gdi true
        (if first = true then f else { f with text_scale := f32_round (f.text_scale * FLT_0_9) })
      cases hp : paint_alphabet gdi
          (if first = true then f else { f with text_scale := f32_round (f.text_scale * FLT_0_9) }) true with
      | mk hr f2 =>
        rw [hp] at hsz hts
        simp only [] at hsz hts
        rw [hw1] at hsz
        rw [hh1] at hsz
        rw [hf1] at hts
        cases hr with
        | D3DERR_MOREDATA =>
          simp only []
          have hfs : first_scale false f2 = f32_round (first_scale first f * FLT_0_9) := by
            simp [first_scale, hts]
          apply ih false f2
          · intro i hi
            rw [overflows_congr env f2 f hsz.1 hsz.2, hfs]
            exact hov (i + 1) (by omega)
          · rw [overflows_congr env f2 f hsz.1 hsz.2, hfs]
            exact hno
          · omega
        | S_OK => rfl
        | E_FAIL => rfl

/-- The attempt that ended the loop did not overflow. -/
theorem ends_at_not_overflows (env : FontEnv) (f : Font) (s : ℚ)
    (r : Option (HRESULT × Font × Gdi)) (h : ends_at env f s r) : ¬ overflows env f s := by
  rintro ⟨gdi, hc, hm⟩
  cases r with
  | none =>
    simp only [ends_at] at h
    rw [h] at hc
    cases hc
  | some p =>
    obtain ⟨hr, f', gdi'⟩ := p
    simp only [ends_at] at h
    obtain ⟨a1, a2, a3, _⟩ := h
    rw [a1] at hc
    cases hc
    rw [hm] at a3
    exact a2 a3.symm

/-- When every attempt overflows the loop gives no result. -/
theorem scale_loop_diverges (env : FontEnv) (first : Bool) (f : Font)
    (h : ∀ k, overflows env f (retry_scale (first_scale first f) k)) (fuel : Nat) :
    scale_loop env fuel first f = none := by
  cases hr : scale_loop env fuel first f with
  | none => rfl
  | some r =>
    obtain ⟨k, _, hk⟩ := scale_loop_sound env fuel first f r hr
    exact absurd (h k) (ends_at_not_overflows env f _ r hk)

/-- Claim C19, amended.  The fallback loop has no minimum scale and no retry
count: it stops exactly when some attempt does not overflow.  Writing `s_i`
for the scale `s` multiplied `i` times by `0.9f`: if the attempts at scales
`s_i`, `i < k`, overflow and the attempt at `s_k` does not, every fuel from
`k + 1` on gives a result; the loop gives a result for some fuel if and only
if such a `k` exists; and when every attempt overflows the loop gives no
result, whatever the fuel. -/
theorem scale_fallback_termination (env : FontEnv) (f : Font) :
    (∀ k, (∀ i, i < k → overflows env f (retry_scale f.text_scale i)) →
      ¬ overflows env f (retry_scale f.text_scale k) →
      ∀ fuel, k + 1 ≤ fuel → (scale_loop env fuel true f).isSome = true) ∧
    ((∃ fuel, (scale_loop env fuel true f).isSome = true) ↔
      ∃ k, ¬ overflows env f (retry_scale f.text_scale k)) ∧
    ((∀ k, overflows env f (retry_scale f.text_scale k)) →
      ∀ fuel, scale_loop env fuel true f = none) := by
  classical
  have hfs : first_scale true f = f.text_scale := by simp [first_scale]
  refine ⟨?_, ⟨?_, ?_⟩, ?_⟩
  · intro k hov hno fuel hfuel
    rw [← hfs] at hov hno
    exact scale_loop_complete env k true f hov hno fuel hfuel
  · rintro ⟨fuel, hsome⟩
    obtain ⟨r, hr⟩ := Option.isSome_iff_exists.mp hsome
    obtain ⟨k, _, hk⟩ := scale_loop_sound env fuel true f r hr
    rw [hfs] at hk
    exact ⟨k, ends_at_not_overflows env f _ r hk⟩
  · intro hex
    refine ⟨Nat.find hex + 1, ?_⟩
    apply scale_loop_complete env (Nat.find hex) true f
    · intro i hi
      rw [hfs]
      exact not_not.mp (Nat.find_min hex hi)
    · rw [hfs]
      exact Nat.find_spec hex
    · exact le_refl _
  · intro h fuel
    apply scale_loop_diverges
    rw [hfs]
    exact h

/-- The measure loop keeps `text_scale` and keeps the atlas square. -/
theorem measure_loop_invariants (gdi : Gdi) (n : Nat) :
    ∀ (f f' : Font) (hr : HRESULT), measure_loop gdi n f = some (hr, f') →
      f'.text_scale = f.text_scale ∧ (f.tex_width = f.tex_height → f'.tex_width = f'.tex_height) := by
  induction n with
  | zero => intro f f' hr h; simp [measure_loop] at h
  | succ n ih =>
    intro f f' hr h
    unfold measure_loop at h
    have hsz := paint_alphabet_tex_size gdi true f
    have hts := paint_alphabet_text_scale gdi true f
    cases hp : paint_alphabet gdi f true with
    | mk hr1 f1 =>
      rw [hp] at h hsz hts
      simp only [] at hsz hts
      cases hr1 with
      | D3DERR_MOREDATA =>
        simp only [] at h
        cases hdw : double_long f1.tex_width with
        | none => rw [hdw] at h; cases h
        | some w =>
          cases hdh : double_long f1.tex_height with
          | none => rw [hdw, hdh] at h; cases h
          | some t =>
            rw [hdw, hdh] at h
            simp only [] at h
            obtain ⟨h1, h2⟩ := ih _ f' hr h
            refine ⟨h1.trans hts, fun hsq => h2 ?_⟩
            show w = t
            rw [double_long_some _ _ hdw, double_long_some _ _ hdh, hsz.1, hsz.2, hsq]
      | S_OK =>
        simp only [Option.some.injEq, Prod.mk.injEq] at h
        obtain ⟨_, rfl⟩ := h
        exact ⟨hts, fun hsq => by rw [hsz.1, hsz.2, hsq]⟩
      | E_FAIL =>
        simp only [Option.some.injEq, Prod.mk.injEq] at h
        obtain ⟨_, rfl⟩ := h
        exact ⟨hts, fun hsq => by rw [hsz.1, hsz.2, hsq]⟩

/-- Below `2 ^ 31` the conversion to `long` is the identity. -/
theorem to_long_of_lt (n : Nat) (h : n < 2 ^ 31) : to_long n = (n : Int) ∧ n % 2 ^ 32 = n := by
  have h1 : n % 2 ^ 32 = n := Nat.mod_eq_of_lt (by omega)
  refine ⟨?_, h1⟩
  unfold to_long
  rw [h1, if_pos h]

/-- The paint pass keeps the atlas size and `text_scale`. -/
theorem finish_font_built (env : FontEnv) (f2 f : Font) (gdi : Gdi)
    (h : finish_font env f2 gdi = Construction.built f) :
    f.tex_width = f2.tex_width ∧ f.tex_height = f2.tex_height ∧
    f.text_scale = f2.text_scale := by
  unfold finish_font at h
  cases hc : env.CreateTexture f2.tex_width f2.tex_height with
  | none => rw [hc] at h; cases h
  | some texture =>
    rw [hc] at h
    simp only [] at h
    have hsz := paint_alphabet_tex_size gdi false { f2 with texture := texture }
    have hts := paint_alphabet_text_scale gdi false { f2 with texture := texture }
    cases hp : paint_alphabet gdi { f2 with texture := texture } false with
    | mk hr f' =>
      rw [hp] at h hsz hts
      simp only [] at hsz hts
      cases hr with
      | S_OK =>
        simp only [Construction.built.injEq] at h
        subst h
        exact ⟨hsz.1, hsz.2, hts⟩
      | E_FAIL => cases h
      | D3DERR_MOREDATA => cases h

/-- The value of a rounding, from the value of the grid function. -/
theorem f32_round_eq (N D a b : Nat) (hD : 0 < D) (hb : 0 < b)
    (h : f32_grid (N * 2 ^ 149) D * b = a * 2 ^ 149) :
    f32_round ((N : ℚ) / D) = (a : ℚ) / b := by
  rw [f32_round_div N D hD]
  have hb0 : (b : ℚ) ≠ 0 := by exact_mod_cast hb.ne.symm
  have h2 : ((2 : ℚ) ^ 149) ≠ 0 := pow_ne_zero 149 (by norm_num)
  rw [div_eq_div_iff h2 hb0]
  have hq := congrArg (fun n : Nat => (n : ℚ)) h
  simp only [Nat.cast_mul] at hq
  rw [cast_two_pow_149] at hq
  exact hq

/-- The literal `0.9f` lies between 0 and 1. -/
theorem FLT_0_9_bounds : 0 ≤ FLT_0_9 ∧ FLT_0_9 ≤ 1 := by
  unfold FLT_0_9
  constructor <;> norm_num

/-- One retry keeps a scale a non-negative single-precision number and does not raise it. -/
theorem retry_step (s : ℚ) (h0 : 0 ≤ s) (hs : f32_round s = s) :
    0 ≤ f32_round (s * FLT_0_9) ∧
    f32_round (f32_round (s * FLT_0_9)) = f32_round (s * FLT_0_9) ∧
    f32_round (s * FLT_0_9) ≤ s := by
  have hp : 0 ≤ s * FLT_0_9 := mul_nonneg h0 FLT_0_9_bounds.1
  refine ⟨f32_round_nonneg _ hp, f32_round_idem _ hp, ?_⟩
  have hle : s * FLT_0_9 ≤ s := by
    have := mul_le_mul_of_nonneg_left FLT_0_9_bounds.2 h0
    linarith
  calc f32_round (s * FLT_0_9) ≤ f32_round s := f32_round_mono _ _ hp hle
    _ = s := hs

/-- The scale after one more retry is the single-precision product of the previous one by `0.9f`. -/
theorem retry_scale_succ (k : Nat) :
    ∀ s : ℚ, retry_scale s (k + 1) = f32_round (retry_scale s k * FLT_0_9) := by
  induction k with
  | zero => intro s; rfl
  | succ k ih =>
    intro s
    show retry_scale (f32_round (s * FLT_0_9)) (k + 1) = _
    rw [ih]
    rfl

/-- Retries keep a scale a non-negative single-precision number below the first one. -/
theorem retry_scale_float (k : Nat) :
    ∀ s : ℚ, 0 ≤ s → f32_round s = s →
      0 ≤ retry_scale s k ∧ f32_round (retry_scale s k) = retry_scale s k ∧
      retry_scale s k ≤ s := by
  induction k with
  | zero => intro s h0 hs; exact ⟨h0, hs, le_refl _⟩
  | succ k ih =>
    intro s h0 hs
    obtain ⟨a1, a2, a3⟩ := retry_step s h0 hs
    obtain ⟨b1, b2, b3⟩ := ih _ a1 a2
    exact ⟨b1, b2, le_trans b3 a3⟩

/-- A retry that does not change the scale is repeated for ever. -/
theorem retry_scale_const (s : ℚ) (i : Nat) (h : retry_scale s (i + 1) = retry_scale s i) :
    ∀ j, retry_scale s (i + j) = retry_scale s i := by
  intro j
  induction j with
  | zero => rfl
  | succ j ih =>
    rw [← Nat.add_assoc, retry_scale_succ, ih, ← retry_scale_succ, h]

/-- The scale set when the measured side exceeds the device maximum is a single-precision number between 0 and 1. -/
theorem clamp_scale_bounds (M : Nat) (S : Int) (hM : M < 2 ^ 31) (h : (M : Int) < S) :
    0 ≤ clamp_scale M S ∧ clamp_scale M S ≤ 1 ∧ f32_round (clamp_scale M S) = clamp_scale M S := by
  have hmod : M % 2 ^ 32 = M := Nat.mod_eq_of_lt (by omega)
  have hM0 : (0 : ℚ) ≤ (M : ℚ) := Nat.cast_nonneg M
  have hMS : (M : ℚ) ≤ (S : ℚ) := by
    have : ((M : Int) : ℚ) ≤ (S : ℚ) := by exact_mod_cast h.le
    simpa using this
  have hS1 : (1 : ℚ) ≤ (S : ℚ) := by
    have : (1 : Int) ≤ S := by omega
    exact_mod_cast this
  have ha0 : 0 ≤ f32_round (M : ℚ) := f32_round_nonneg _ hM0
  have hab : f32_round (M : ℚ) ≤ f32_round (S : ℚ) := f32_round_mono _ _ hM0 hMS
  have hb1 : 1 ≤ f32_round (S : ℚ) := by
    have := f32_round_mono 1 (S : ℚ) (by norm_num) hS1
    rwa [f32_round_one] at this
  have hb0 : 0 < f32_round (S : ℚ) := by linarith
  have hq0 : 0 ≤ f32_round (M : ℚ) / f32_round (S : ℚ) := div_nonneg ha0 hb0.le
  have hq1 : f32_round (M : ℚ) / f32_round (S : ℚ) ≤ 1 := (div_le_one hb0).mpr hab
  unfold clamp_scale
  rw [hmod]
  refine ⟨f32_round_nonneg _ hq0, ?_, f32_round_idem _ hq0⟩
  have := f32_round_mono _ 1 hq0 hq1
  rwa [f32_round_one] at this

/-- More fuel does not change the result of the measure loop. -/
theorem measure_loop_mono (gdi : Gdi) (n : Nat) :
    ∀ (f : Font) (r : HRESULT × Font), measure_loop gdi n f = some r →
      ∀ m, n ≤ m → measure_loop gdi m f = some r := by
  induction n with
  | zero => intro f r h; simp [measure_loop] at h
  | succ n ih =>
    intro f r h m hm
    obtain ⟨m', rfl⟩ : ∃ m', m = m' + 1 := ⟨m - 1, by omega⟩
    unfold measure_loop at h ⊢
    cases hp : paint_alphabet gdi f true with
    | mk hr1 f1 =>
      rw [hp] at h
      cases hr1 with
      | D3DERR_MOREDATA =>
        simp only [] at h ⊢
        cases hdw : double_long f1.tex_width with
        | none => rw [hdw] at h; cases h
        | some w =>
          cases hdh : double_long f1.tex_height with
          | none => rw [hdw, hdh] at h; cases h
          | some t =>
            rw [hdw, hdh] at h
            simp only [] at h ⊢
            exact ih _ r h m' (by omega)
      | S_OK => exact h
      | E_FAIL => exact h

/-- When the attempts at the clamped side overflow up to `k` and the attempt `k` finds a font that does not overflow, the fallback ends there. -/
theorem clamp_phase_run (env : FontEnv) (hM : env.MaxTextureWidth < 2 ^ 31)
    (gdi : Gdi) (fm : Font) (k : Nat) (gk : Gdi)
    (hgt : (env.MaxTextureWidth : Int) < fm.tex_width)
    (hov : ∀ i, i < k → overflows env (with_side fm env.MaxTextureWidth)
      (retry_scale (clamp_scale env.MaxTextureWidth fm.tex_width) i))
    (hno : ¬ overflows env (with_side fm env.MaxTextureWidth)
      (retry_scale (clamp_scale env.MaxTextureWidth fm.tex_width) k))
    (hgk : env.create_gdi_font (retry_scale (clamp_scale env.MaxTextureWidth fm.tex_width) k)
      = some gk)
    (fuel : Nat) (hfuel : k + 1 ≤ fuel) :
    ∃ hr2 f2, clamp_phase env fuel S_OK fm gdi = some (some (hr2, f2, gk)) ∧
      f2.text_scale = retry_scale (clamp_scale env.MaxTextureWidth fm.tex_width) k ∧
      f2.tex_width = env.MaxTextureWidth ∧ f2.tex_height = env.MaxTextureWidth := by
  obtain ⟨hlong, _⟩ := to_long_of_lt env.MaxTextureWidth hM
  have hcong : ∀ s, overflows env
      (Font.mk fm.texture env.MaxTextureWidth env.MaxTextureWidth
        (clamp_scale env.MaxTextureWidth fm.tex_width) fm.tex_coords fm.spacing) s
      ↔ overflows env (with_side fm env.MaxTextureWidth) s :=
    fun s => overflows_congr env
      (Font.mk fm.texture env.MaxTextureWidth env.MaxTextureWidth
        (clamp_scale env.MaxTextureWidth fm.tex_width) fm.tex_coords fm.spacing)
      (with_side fm env.MaxTextureWidth) rfl rfl s
  have hsome := scale_loop_complete env k true
    (Font.mk fm.texture env.MaxTextureWidth env.MaxTextureWidth
      (clamp_scale env.MaxTextureWidth fm.tex_width) fm.tex_coords fm.spacing)
    (fun i hi => (hcong _).mpr (hov i hi)) (fun hcon => hno ((hcong _).mp hcon)) fuel hfuel
  obtain ⟨r, hr⟩ := Option.isSome_iff_exists.mp hsome
  obtain ⟨k', hov', hend⟩ := scale_loop_sound env fuel true _ r hr
  have hno' := ends_at_not_overflows env _ _ _ hend
  have hk : k' = k := by
    rcases Nat.lt_trichotomy k' k with h | h | h
    · exact absurd ((hcong _).mpr (hov k' h)) hno'
    · exact h
    · exact absurd ((hcong _).mp (hov' k h)) hno
  subst hk
  have hcl : clamp_phase env fuel S_OK fm gdi = some r := by
    unfold clamp_phase
    rw [hlong, if_pos hgt]
    exact hr
  cases r with
  | none =>
    simp only [ends_at] at hend
    have hgk' : env.create_gdi_font (retry_scale (clamp_scale env.MaxTextureWidth fm.tex_width) k')
        = some gk := hgk
    have hend' : env.create_gdi_font
        (retry_scale (clamp_scale env.MaxTextureWidth fm.tex_width) k') = none := hend
    rw [hend'] at hgk'
    cases hgk'
  | some p =>
    obtain ⟨hr2, f2, g2⟩ := p
    simp only [ends_at] at hend
    obtain ⟨e1, _, _, e4, e5, e6⟩ := hend
    have e1' : env.create_gdi_font
        (retry_scale (clamp_scale env.MaxTextureWidth fm.tex_width) k') = some g2 := e1
    rw [hgk] at e1'
    simp only [Option.some.injEq] at e1'
    subst e1'
    exact ⟨hr2, f2, hcl, e4, e5, e6⟩

/-- When the measure phase ends above the device maximum, the attempts at the
clamped side overflow up to `k`, the attempt `k` finds a font that does not
overflow, and the texture is created and painted, the constructor builds the
font at the scale of the attempt `k`. -/
theorem clamp_forward (env : FontEnv) (tex_coords : Nat → Nat → ℚ)
    (hM : env.MaxTextureWidth < 2 ^ 31) (gdi : Gdi) (fm : Font) (fuel0 k : Nat) (gk : Gdi)
    (tx : Texture) (hc : env.create_gdi_font 1 = some gdi)
    (hm : measure_phase gdi fuel0 (initial_font tex_coords) = some (S_OK, fm))
    (hgt : (env.MaxTextureWidth : Int) < fm.tex_width)
    (hov : ∀ i, i < k → overflows env (with_side fm env.MaxTextureWidth)
      (retry_scale (clamp_scale env.MaxTextureWidth fm.tex_width) i))
    (hno : ¬ overflows env (with_side fm env.MaxTextureWidth)
      (retry_scale (clamp_scale env.MaxTextureWidth fm.tex_width) k))
    (hgk : env.create_gdi_font (retry_scale (clamp_scale env.MaxTextureWidth fm.tex_width) k)
      = some gk)
    (htx : env.CreateTexture env.MaxTextureWidth env.MaxTextureWidth = some tx)
    (hpaint : (paint_alphabet gk (with_side fm env.MaxTextureWidth) false).1 = S_OK)
    (fuel : Nat) (hf0 : fuel0 ≤ fuel) (hfk : k + 1 ≤ fuel) :
    ∃ f, construct env fuel tex_coords = some (Construction.built f) ∧
      f.text_scale = retry_scale (clamp_scale env.MaxTextureWidth fm.tex_width) k ∧
      f.tex_width = env.MaxTextureWidth ∧ f.tex_height = env.MaxTextureWidth := by
  obtain ⟨hr2, f2, hcl, e4, e5, e6⟩ :=
    clamp_phase_run env hM gdi fm k gk hgt hov hno hgk fuel hfk
  have hm' : measure_phase gdi fuel (initial_font tex_coords) = some (S_OK, fm) :=
    measure_loop_mono gdi fuel0 _ _ hm fuel hf0
  have hsz := paint_alphabet_tex_size gk false { f2 with texture := tx }
  have hts := paint_alphabet_text_scale gk false { f2 with texture := tx }
  have hhr := paint_alphabet_hr_congr_mode gk false { f2 with texture := tx }
    (with_side fm env.MaxTextureWidth) e5 e6
  rw [hpaint] at hhr
  cases hp : paint_alphabet gk { f2 with texture := tx } false with
  | mk hr3 f3 =>
    rw [hp] at hsz hts hhr
    simp only [] at hsz hts hhr
    subst hhr
    refine ⟨f3, ?_, hts.trans e4, hsz.1.trans e5, hsz.2.trans e6⟩
    unfold construct
    rw [hc]
    simp only []
    rw [hm']
    simp only [ne_eq, not_true_eq_false, if_false]
    rw [hcl]
    simp only []
    have htx' : env.CreateTexture f2.tex_width f2.tex_height = some tx := by
      rw [e5, e6]
      exact htx
    unfold finish_font
    rw [htx']
    simp only []
    rw [hp]

/-- Claim C18 (hardware-limit clamp), amended.  Let the device maximum `M` be
representable as a `long`.  Whenever the constructor completes with font `f`:
the measure phase ended with `S_OK` at side `S`, both final atlas sides are
`min S M`, so the side never exceeds `M`; when `S <= M` there is no retry and
`text_scale` is exactly 1; when `M < S` there is a number `k` of overflowing
attempts at the clamped size such that `text_scale` is the single-precision
quotient `M / S` multiplied `k` times by `0.9f` in single precision
(`retry_scale (clamp_scale M S) k`), the attempts after `i < k` retries
overflow and the one after `k` retries does not, and each retry's scale is
strictly below the previous one; in both cases `text_scale <= 1`.
Conversely, when the measure phase ends with `S_OK` at a side `S > M`, the
attempts after `i < k` retries overflow, the attempt after `k` retries finds a
font that does not overflow, and the texture of side `M` is created and
painted, then with enough fuel the constructor completes with side `M` and
that `text_scale`. -/
theorem hardware_limit_clamp (env : FontEnv) (tex_coords : Nat → Nat → ℚ)
    (hM : env.MaxTextureWidth < 2 ^ 31) :
    (∀ (fuel : Nat) (f : Font),
      construct env fuel tex_coords = some (Construction.built f) →
      ∃ (gdi : Gdi) (fm : Font) (k : Nat),
        env.create_gdi_font 1 = some gdi ∧
        measure_phase gdi fuel (initial_font tex_coords) = some (S_OK, fm) ∧
        f.tex_width = min fm.tex_width env.MaxTextureWidth ∧
        f.tex_height = min fm.tex_width env.MaxTextureWidth ∧
        f.tex_width ≤ env.MaxTextureWidth ∧
        (fm.tex_width ≤ env.MaxTextureWidth → k = 0 ∧ f.text_scale = 1) ∧
        ((env.MaxTextureWidth : Int) < fm.tex_width →
          f.text_scale = retry_scale (clamp_scale env.MaxTextureWidth fm.tex_width) k ∧
          (∀ i, i < k → overflows env (with_side fm env.MaxTextureWidth)
            (retry_scale (clamp_scale env.MaxTextureWidth fm.tex_width) i)) ∧
          ¬ overflows env (with_side fm env.MaxTextureWidth)
            (retry_scale (clamp_scale env.MaxTextureWidth fm.tex_width) k) ∧
          (∀ i, i < k → retry_scale (clamp_scale env.MaxTextureWidth fm.tex_width) (i + 1)
            < retry_scale (clamp_scale env.MaxTextureWidth fm.tex_width) i)) ∧
        f.text_scale ≤ 1) ∧
    (∀ (gdi : Gdi) (fm : Font) (fuel0 k : Nat) (gk : Gdi) (tx : Texture),
      env.create_gdi_font 1 = some gdi →
      measure_phase gdi fuel0 (initial_font tex_coords) = some (S_OK, fm) →
      (env.MaxTextureWidth : Int) < fm.tex_width →
      (∀ i, i < k → overflows env (with_side fm env.MaxTextureWidth)
        (retry_scale (clamp_scale env.MaxTextureWidth fm.tex_width) i)) →
      ¬ overflows env (with_side fm env.MaxTextureWidth)
        (retry_scale (clamp_scale env.MaxTextureWidth fm.tex_width) k) →
      env.create_gdi_font (retry_scale (clamp_scale env.MaxTextureWidth fm.tex_width) k)
        = some gk →
      env.CreateTexture env.MaxTextureWidth env.MaxTextureWidth = some tx →
      (paint_alphabet gk (with_side fm env.MaxTextureWidth) false).1 = S_OK →
      ∀ fuel, fuel0 ≤ fuel → k + 1 ≤ fuel →
        ∃ f, construct env fuel tex_coords = some (Construction.built f) ∧
          f.text_scale = retry_scale (clamp_scale env.MaxTextureWidth fm.tex_width) k ∧
          f.tex_width = env.MaxTextureWidth ∧ f.tex_height = env.MaxTextureWidth) := by
  refine ⟨?_, fun gdi fm fuel0 k gk tx hc hm hgt hov hno hgk htx hpaint fuel hf0 hfk =>
    clamp_forward env tex_coords hM gdi fm fuel0 k gk tx hc hm hgt hov hno hgk htx hpaint
      fuel hf0 hfk⟩
  intro fuel f h
  obtain ⟨hlong, hmod⟩ := to_long_of_lt env.MaxTextureWidth hM
  unfold construct at h
  cases hc : env.create_gdi_font 1 with
  | none => rw [hc] at h; cases h
  | some gdi =>
    rw [hc] at h
    simp only [] at h
    cases hm : measure_phase gdi fuel (initial_font tex_coords) with
    | none => rw [hm] at h; cases h
    | some p =>
      obtain ⟨hr, fm⟩ := p
      rw [hm] at h
      simp only [] at h
      by_cases hok : hr = S_OK
      swap
      · rw [if_pos hok] at h; cases h
      subst hok
      rw [if_neg (by simp)] at h
      obtain ⟨hts, hsq⟩ := measure_loop_invariants gdi fuel _ fm S_OK hm
      have hsq := hsq rfl
      have hts : fm.text_scale = 1 := hts
      cases hcl : clamp_phase env fuel S_OK fm gdi with
      | none => rw [hcl] at h; cases h
      | some r =>
        cases r with
        | none => rw [hcl] at h; cases h
        | some q =>
          obtain ⟨hr2, f2, gdi2⟩ := q
          rw [hcl] at h
          simp only [Option.some.injEq] at h
          obtain ⟨fw, fh, fs⟩ := finish_font_built env f2 f gdi2 h
          unfold clamp_phase at hcl
          rw [hlong] at hcl
          by_cases hgt : fm.tex_width > (env.MaxTextureWidth : Int)
          · rw [if_pos hgt] at hcl
            simp only [] at hcl
            obtain ⟨k, hov, hend⟩ := scale_loop_sound env fuel true _ _ hcl
            have hno := ends_at_not_overflows env _ _ _ hend
            simp only [ends_at] at hend
            obtain ⟨_, _, _, e4, e5, e6⟩ := hend
            simp only [first_scale, if_true] at hov hno e4
            have hcong : ∀ s, overflows env
                { fm with text_scale := clamp_scale env.MaxTextureWidth fm.tex_width,
                          tex_width := (env.MaxTextureWidth : Int),
                          tex_height := (env.MaxTextureWidth : Int) } s
                ↔ overflows env (with_side fm env.MaxTextureWidth) s :=
              fun s => overflows_congr env
                (Font.mk fm.texture env.MaxTextureWidth env.MaxTextureWidth
                  (clamp_scale env.MaxTextureWidth fm.tex_width) fm.tex_coords fm.spacing)
                (with_side fm env.MaxTextureWidth) rfl rfl s
            obtain ⟨hs0, hs1, hsf⟩ :=
              clamp_scale_bounds env.MaxTextureWidth fm.tex_width hM hgt
            have hov' : ∀ i, i < k → overflows env (with_side fm env.MaxTextureWidth)
                (retry_scale (clamp_scale env.MaxTextureWidth fm.tex_width) i) :=
              fun i hi => (hcong _).mp (hov i hi)
            have hno' : ¬ overflows env (with_side fm env.MaxTextureWidth)
                (retry_scale (clamp_scale env.MaxTextureWidth fm.tex_width) k) :=
              fun hcon => hno ((hcong _).mpr hcon)
            refine ⟨gdi, fm, k, rfl, hm, ?_, ?_, ?_, ?_, ?_, ?_⟩
            · rw [fw, e5, min_eq_right hgt.le]
            · rw [fh, e6, min_eq_right hgt.le]
            · rw [fw, e5]
            · intro hle; omega
            · intro _
              refine ⟨by rw [fs, e4], hov', hno', ?_⟩
              intro i hi
              obtain ⟨a0, a1, _⟩ := retry_scale_float i _ hs0 hsf
              have hle : retry_scale (clamp_scale env.MaxTextureWidth fm.tex_width) (i + 1)
                  ≤ retry_scale (clamp_scale env.MaxTextureWidth fm.tex_width) i := by
                rw [retry_scale_succ]
                exact (retry_step _ a0 a1).2.2
              refine lt_of_le_of_ne hle fun heq => hno' ?_
              have hconst := retry_scale_const _ i heq (k - i)
              rw [show i + (k - i) = k by omega] at hconst
              rw [hconst]
              exact hov' i hi
            · rw [fs, e4]
              exact le_trans (retry_scale_float k _ hs0 hsf).2.2 hs1
          · rw [if_neg hgt] at hcl
            simp only [Option.some.injEq, Prod.mk.injEq] at hcl
            obtain ⟨_, rfl, _⟩ := hcl
            have hle : fm.tex_width ≤ (env.MaxTextureWidth : Int) := by omega
            refine ⟨gdi, fm, 0, rfl, hm, ?_, ?_, ?_, ?_, ?_, ?_⟩
            · rw [fw, min_eq_left hle]
            · rw [fh, ← hsq, min_eq_left hle]
            · rw [fw]; exact hle
            · intro _; exact ⟨rfl, by rw [fs, hts]⟩
            · intro hlt; omega
            · rw [fs, hts]

/-! ## The retried construction -/

set_option maxRecDepth 2000 in
/-- The single-precision quotient `251 / 256` is exact. -/
theorem clamp_scale_251 : clamp_scale 251 256 = 251 / 256 := by
  have e1 : f32_round (251 : ℚ) = 251 := by
    have h := f32_round_eq 251 1 251 1 (by decide) (by decide) (by decide)
    simpa using h
  have e2 : f32_round (256 : ℚ) = 256 := by
    have h := f32_round_eq 256 1 256 1 (by decide) (by decide) (by decide)
    simpa using h
  have e3 : f32_round ((251 : ℚ) / 256) = 251 / 256 := by
    have h := f32_round_eq 251 256 251 256 (by decide) (by decide) (by decide)
    simpa using h
  unfold clamp_scale
  norm_num
  rw [e1, e2, e3]

set_option maxRecDepth 2000 in
/-- The single-precision product of `251 / 256` by `0.9f`. -/
theorem retry_scale_251 : retry_scale (251 / 256) 1 = 7402291 / 8388608 := by
  have h := f32_round_eq (251 * 15099494) (256 * 2 ^ 24) 7402291 8388608 (by decide)
    (by decide) (by decide)
  have key : (251 : ℚ) / 256 * FLT_0_9
      = ((251 * 15099494 : Nat) : ℚ) / ((256 * 2 ^ 24 : Nat) : ℚ) := by
    unfold FLT_0_9
    norm_num
  show f32_round (251 / 256 * FLT_0_9) = 7402291 / 8388608
  rw [key, h]
  norm_num

/-- The measure phase of `retry_env` ends at side 256. -/
theorem retry_env_measure :
    ∃ fm, measure_phase (fixed_metrics fun _ => ⟨20, 20⟩) 2 (initial_font fun _ _ => 0)
      = some (S_OK, fm) ∧ fm.tex_width = 256 := by
  obtain ⟨fm, hfm, hw, _⟩ := measure_loop_finds (fixed_metrics fun _ => ⟨20, 20⟩)
    sample_font 1 0 (with_side (initial_font fun _ _ => 0) 128) (by decide) rfl rfl
    (fun j hj => by
      obtain rfl : j = 0 := by omega
      decide)
    (by decide) 2 (le_refl _)
  exact ⟨fm, hfm, by rw [hw]; norm_num⟩

/-- At side 251 the first attempt of `retry_env`, at scale `251 / 256`, overflows, and the retry does not. -/
theorem retry_env_attempts (fm : Font) :
    retry_env.create_gdi_font 1 = some (fixed_metrics fun _ => ⟨20, 20⟩) ∧
    overflows retry_env (with_side fm 251) (251 / 256) ∧
    retry_env.create_gdi_font (7402291 / 8388608) = some (fixed_metrics fun _ => ⟨16, 16⟩) ∧
    ¬ overflows retry_env (with_side fm 251) (7402291 / 8388608) ∧
    (paint_alphabet (fixed_metrics fun _ => ⟨16, 16⟩) (with_side fm 251) false).1 = S_OK := by
  have c1 : retry_env.create_gdi_font 1 = some (fixed_metrics fun _ => ⟨20, 20⟩) := by
    simp only [retry_env]
    rw [if_neg (by norm_num)]
  have c2 : retry_env.create_gdi_font (251 / 256) = some (fixed_metrics fun _ => ⟨20, 20⟩) := by
    simp only [retry_env]
    rw [if_neg (by norm_num)]
  have c3 : retry_env.create_gdi_font (7402291 / 8388608)
      = some (fixed_metrics fun _ => ⟨16, 16⟩) := by
    simp only [retry_env]
    rw [if_pos (by norm_num)]
  have m1 : (paint_alphabet (fixed_metrics fun _ => ⟨20, 20⟩) (with_side fm 251) true).1
      = D3DERR_MOREDATA := by
    rw [paint_alphabet_hr_congr _ (with_side fm 251) (with_side sample_font 251) rfl rfl]
    decide
  have m2 : (paint_alphabet (fixed_metrics fun _ => ⟨16, 16⟩) (with_side fm 251) true).1
      = S_OK := by
    rw [paint_alphabet_hr_congr _ (with_side fm 251) (with_side sample_font 251) rfl rfl]
    decide
  refine ⟨c1, ⟨_, c2, m1⟩, c3, ?_, ?_⟩
  · rintro ⟨g, hg1, hg2⟩
    rw [c3] at hg1
    simp only [Option.some.injEq] at hg1
    subst hg1
    rw [m2] at hg2
    cases hg2
  · rw [paint_alphabet_fixed_mode, m2]

/-- The font built by `retry_env`: side 251 after one retry, at the single-precision scale `7402291 / 2 ^ 23`. -/
theorem retry_env_built :
    ∃ f, construct retry_env 2 (fun _ _ => 0) = some (Construction.built f) ∧
      f.text_scale = 7402291 / 8388608 ∧ f.tex_width = 251 ∧ f.tex_height = 251 := by
  obtain ⟨fm, hfm, hw⟩ := retry_env_measure
  obtain ⟨c1, hov, c3, hno, hp⟩ := retry_env_attempts fm
  have hs0 : clamp_scale retry_env.MaxTextureWidth fm.tex_width = 251 / 256 := by
    rw [hw]
    exact clamp_scale_251
  have hs1 : retry_scale (clamp_scale retry_env.MaxTextureWidth fm.tex_width) 1
      = 7402291 / 8388608 := by
    rw [hs0]
    exact retry_scale_251
  obtain ⟨f, hf, h1, h2, h3⟩ := clamp_forward retry_env (fun _ _ => 0) (by decide)
    (fixed_metrics fun _ => ⟨20, 20⟩) fm 2 1 (fixed_metrics fun _ => ⟨16, 16⟩) 1 c1 hfm
    (by rw [hw]; decide)
    (fun i hi => by
      obtain rfl : i = 0 := by omega
      show overflows retry_env (with_side fm 251)
        (clamp_scale retry_env.MaxTextureWidth fm.tex_width)
      rw [hs0]
      exact hov)
    (by rw [hs1]; exact hno) (by rw [hs1]; exact c3) rfl hp 2 (le_refl _) (le_refl _)
  exact ⟨f, hf, h1.trans hs1, h2, h3⟩

/-- Counterexample for C18: with glyphs 20 wide and high from scale `9 / 10` up
and 16 wide and high below, on a device whose maximum is 251, the measure
phase ends at side 256, the attempt at the clamped side 251 and scale
`251 / 256` overflows and the retry does not; the constructor completes after
this one overflowing retry with `text_scale = 7402291 / 2 ^ 23`, the
single-precision product of `251 / 256` by `0.9f`, which is not
`(251 / 256) * 0.9 ^ k`, for `k = 1` or any other `k`. -/
theorem clamped_scale_counterexample :
    (∃ fm, measure_phase (fixed_metrics fun _ => ⟨20, 20⟩) 2 (initial_font fun _ _ => 0)
      = some (S_OK, fm) ∧ fm.tex_width = 256) ∧
    overflows retry_env (with_side sample_font 251) (251 / 256) ∧
    ¬ overflows retry_env (with_side sample_font 251) (7402291 / 8388608) ∧
    ∃ f, construct retry_env 2 (fun _ _ => 0) = some (Construction.built f) ∧
      f.tex_width = 251 ∧ f.text_scale = 7402291 / 8388608 ∧
      ∀ k : Nat, f.text_scale ≠ 251 / 256 * (9 / 10) ^ k := by
  obtain ⟨_, hov, _, hno, _⟩ := retry_env_attempts sample_font
  obtain ⟨f, hf, h1, h2, _⟩ := retry_env_built
  refine ⟨retry_env_measure, hov, hno, f, hf, h2, h1, ?_⟩
  intro k
  rw [h1]
  rcases k with _ | _ | k
  · norm_num
  · norm_num
  · have hp : ((9 : ℚ) / 10) ^ k ≤ 1 := pow_le_one₀ (by norm_num) (by norm_num)
    have hp0 : (0 : ℚ) ≤ (9 / 10) ^ k := by positivity
    intro heq
    rw [pow_succ, pow_succ] at heq
    nlinarith

/-- Witness for C18: on `retry_env` (device maximum 251) the measure phase ends
at side 256, the attempt at scale `251 / 256` overflows and the retry does
not, so the constructor completes after one overflowing retry with side 251
and `text_scale = 7402291 / 2 ^ 23`. -/
theorem hardware_limit_clamp_witness :
    retry_env.MaxTextureWidth < 2 ^ 31 ∧
    ∃ f, construct retry_env 2 (fun _ _ => 0) = some (Construction.built f) ∧
      f.text_scale = 7402291 / 8388608 ∧ f.tex_width = 251 ∧ f.tex_height = 251 := by
  obtain ⟨fm, hfm, hw⟩ := retry_env_measure
  obtain ⟨c1, hov, c3, hno, hp⟩ := retry_env_attempts fm
  have hs0 : clamp_scale retry_env.MaxTextureWidth fm.tex_width = 251 / 256 := by
    rw [hw]
    exact clamp_scale_251
  have hs1 : retry_scale (clamp_scale retry_env.MaxTextureWidth fm.tex_width) 1
      = 7402291 / 8388608 := by
    rw [hs0]
    exact retry_scale_251
  obtain ⟨f, hf, h1, h2, h3⟩ := (hardware_limit_clamp retry_env (fun _ _ => 0) (by decide)).2
    (fixed_metrics fun _ => ⟨20, 20⟩) fm 2 1 (fixed_metrics fun _ => ⟨16, 16⟩) 1 c1 hfm
    (by rw [hw]; decide)
    (fun i hi => by
      obtain rfl : i = 0 := by omega
      show overflows retry_env (with_side fm 251)
        (clamp_scale retry_env.MaxTextureWidth fm.tex_width)
      rw [hs0]
      exact hov)
    (by rw [hs1]; exact hno) (by rw [hs1]; exact c3) rfl hp 2 (le_refl _) (le_refl _)
  exact ⟨by decide, f, hf, h1.trans hs1, h2, h3⟩

/-! ## Concrete instances for the glyph atlas, the text walk and the constructor -/

/-- Counterexample for C12: with the space 200 pixels wide and every other
glyph one pixel wide, all one pixel high (positive widths and heights), the
paint pass at side 128 succeeds, and the rectangle stored for the space has
`u2 = 202 / 128`, above 1. -/
theorem wide_glyph_counterexample :
    (∀ c, 0 < (wide_space_metrics c).cx ∧ 0 < (wide_space_metrics c).cy) ∧
    (paint_alphabet (fixed_metrics wide_space_metrics) (with_side sample_font 128) false).1
      = S_OK ∧
    (paint_alphabet (fixed_metrics wide_space_metrics) (with_side sample_font 128)
      false).2.tex_coords 0 2 = 101 / 64 ∧
    ¬ (paint_alphabet (fixed_metrics wide_space_metrics) (with_side sample_font 128)
      false).2.tex_coords 0 2 ≤ 1 := by
  have hok : (paint_alphabet (fixed_metrics wide_space_metrics) (with_side sample_font 128)
      false).1 = S_OK := by decide
  have hmem : (⟨32, 1, 2, ⟨200, 1⟩⟩ : Painted)
      ∈ painted_alphabet (fixed_metrics wide_space_metrics) (with_side sample_font 128) := by
    decide
  have hsp := paint_alphabet_spacing (fixed_metrics wide_space_metrics) false
    (with_side sample_font 128) ⟨1, 1⟩ rfl
  rw [show spacing_of (⟨1, 1⟩ : SIZE).cy = 1 by decide] at hsp
  have hsz := paint_alphabet_tex_size (fixed_metrics wide_space_metrics) false
    (with_side sample_font 128)
  have hst := ((paint_alphabet_painted _ _).2 _ hmem).2
  have h2 := hst.2.2.1
  rw [hsp, hsz.1] at h2
  have hval : (paint_alphabet (fixed_metrics wide_space_metrics) (with_side sample_font 128)
      false).2.tex_coords 0 2 = 101 / 64 := by
    rw [show (0 : Nat) = ((32 : Int) - 32).toNat by decide, h2]
    norm_num [with_side]
  refine ⟨?_, hok, hval, ?_⟩
  · intro c
    unfold wide_space_metrics
    split_ifs <;> decide
  · rw [hval]
    norm_num

/-- Witness for C12 (amended): glyphs 10 wide and 20 high in an atlas of side 256. -/
theorem glyph_rect_invariant_witness :
    (paint_alphabet (fixed_metrics fun _ => ⟨10, 20⟩) (with_side sample_font 256) false).1
      = S_OK ∧
    ∀ i, i < 95 →
      0 ≤ (paint_alphabet (fixed_metrics fun _ => ⟨10, 20⟩) (with_side sample_font 256)
        false).2.tex_coords i 0 ∧
      (paint_alphabet (fixed_metrics fun _ => ⟨10, 20⟩) (with_side sample_font 256)
        false).2.tex_coords i 0
        < (paint_alphabet (fixed_metrics fun _ => ⟨10, 20⟩) (with_side sample_font 256)
          false).2.tex_coords i 2 ∧
      (paint_alphabet (fixed_metrics fun _ => ⟨10, 20⟩) (with_side sample_font 256)
        false).2.tex_coords i 2 ≤ 1 ∧
      0 ≤ (paint_alphabet (fixed_metrics fun _ => ⟨10, 20⟩) (with_side sample_font 256)
        false).2.tex_coords i 1 ∧
      (paint_alphabet (fixed_metrics fun _ => ⟨10, 20⟩) (with_side sample_font 256)
        false).2.tex_coords i 1
        < (paint_alphabet (fixed_metrics fun _ => ⟨10, 20⟩) (with_side sample_font 256)
          false).2.tex_coords i 3 ∧
      (paint_alphabet (fixed_metrics fun _ => ⟨10, 20⟩) (with_side sample_font 256)
        false).2.tex_coords i 3 ≤ 1 :=
  ⟨by decide,
    glyph_rect_invariant (fixed_metrics fun _ => ⟨10, 20⟩) (with_side sample_font 256)
      (by
        intro c size h
        simp only [fixed_metrics, Option.some.injEq] at h
        subst h
        decide)
      (by decide) (by decide)
      (by
        intro c _ size h
        simp only [fixed_metrics, Option.some.injEq] at h
        subst h
        rw [paint_alphabet_spacing (fixed_metrics fun _ => ⟨10, 20⟩) false
          (with_side sample_font 256) ⟨10, 20⟩ rfl]
        decide)
      (by decide)⟩

/-- Witness for C20: glyphs 10 wide and 20 high in an atlas of side 256; the
paint pass succeeds, `A` is painted at pen `(6, 63)` and its advance is 10. -/
theorem glyph_rect_round_trip_witness :
    (paint_alphabet (fixed_metrics fun _ => ⟨10, 20⟩) (with_side sample_font 256) false).1
      = S_OK ∧
    (⟨65, 6, 63, ⟨10, 20⟩⟩ : Painted)
      ∈ painted_alphabet (fixed_metrics fun _ => ⟨10, 20⟩) (with_side sample_font 256) ∧
    advance (paint_alphabet (fixed_metrics fun _ => ⟨10, 20⟩) (with_side sample_font 256)
      false).2 65 = 10 :=
  ⟨by decide, by decide,
    by
      have h := ((glyph_rect_round_trip (fixed_metrics fun _ => ⟨10, 20⟩)
        (with_side sample_font 256) (by decide) (by decide)).2
        ⟨65, 6, 63, ⟨10, 20⟩⟩ (by decide)).2.2.2.2.2.2.2
      simpa using h⟩

/-- Witness for C16: the text `A b` followed by a newline, drawn with the
shadow flag into an empty render list, has two visible characters and appends
ten runs of six vertices, 60 vertices in all. -/
theorem glyph_geometry_count_witness :
    TEXT_SHADOW &&& TEXT_COLORTAGS = 0 ∧ visible_count [65, 32, 98, 10] = 2 ∧
    ∃ (rl' : RenderList) (runs : List (List Vertex)),
      draw_text sample_font RenderList.empty ⟨0, 0⟩ [65, 32, 98, 10] 0xffffffff TEXT_SHADOW
        = some rl' ∧
      rl' = add_runs RenderList.empty sample_font.texture runs ∧
      (∀ r ∈ runs, r.length = 6) ∧
      runs.length
        = (if TEXT_SHADOW &&& TEXT_SHADOW ≠ 0 then 5 else 1) * visible_count [65, 32, 98, 10] ∧
      rl'.vertices.length
        = RenderList.empty.vertices.length
          + (if TEXT_SHADOW &&& TEXT_SHADOW ≠ 0 then 30 else 6)
            * visible_count [65, 32, 98, 10] :=
  ⟨by decide, by decide,
    glyph_geometry_count sample_font RenderList.empty ⟨0, 0⟩ [65, 32, 98, 10] 0xffffffff
      TEXT_SHADOW (by decide) (by decide)⟩

/-- Witness for C17: a two-row text drawn with the shadow flag at origin
`(10, 10)`. -/
theorem alignment_is_origin_shift_witness :
    TEXT_SHADOW &&& (TEXT_RIGHT ||| TEXT_CENTERED) = 0 ∧
    draw_text sample_font RenderList.empty ⟨10, 10⟩ [65, 10, 66] 0xffffffff
        (TEXT_SHADOW ||| TEXT_RIGHT)
      = draw_text sample_font RenderList.empty
          ⟨10 - (get_text_extent sample_font [65, 10, 66]).x, 10⟩ [65, 10, 66] 0xffffffff
          TEXT_SHADOW ∧
    draw_text sample_font RenderList.empty ⟨10, 10⟩ [65, 10, 66] 0xffffffff
        (TEXT_SHADOW ||| TEXT_CENTERED_X)
      = draw_text sample_font RenderList.empty
          ⟨10 - (get_text_extent sample_font [65, 10, 66]).x / 2, 10⟩ [65, 10, 66] 0xffffffff
          TEXT_SHADOW ∧
    draw_text sample_font RenderList.empty ⟨10, 10⟩ [65, 10, 66] 0xffffffff
        (TEXT_SHADOW ||| TEXT_CENTERED_Y)
      = draw_text sample_font RenderList.empty
          ⟨10, 10 - (get_text_extent sample_font [65, 10, 66]).y / 2⟩ [65, 10, 66] 0xffffffff
          TEXT_SHADOW :=
  ⟨by decide,
    (alignment_is_origin_shift sample_font RenderList.empty ⟨10, 10⟩ [65, 10, 66] 0xffffffff
      TEXT_SHADOW (by decide)).1,
    (alignment_is_origin_shift sample_font RenderList.empty ⟨10, 10⟩ [65, 10, 66] 0xffffffff
      TEXT_SHADOW (by decide)).2.1,
    (alignment_is_origin_shift sample_font RenderList.empty ⟨10, 10⟩ [65, 10, 66] 0xffffffff
      TEXT_SHADOW (by decide)).2.2.1⟩

/-- With 16 x 16 glyphs and a device maximum of 250 the constructor builds a font. -/
theorem clamped_env_built :
    ∃ f, construct clamped_env 2 (fun _ _ => 0) = some (Construction.built f) := by
  have h : (built_font (construct clamped_env 2 fun _ _ => 0)).isSome = true := by decide
  cases hc : construct clamped_env 2 (fun _ _ => 0) with
  | none => rw [hc] at h; cases h
  | some r =>
    cases r with
    | built f => exact ⟨f, rfl⟩
    | raised => rw [hc] at h; cases h

/-- Counterexample for C19: with glyphs of one pixel at every scale and a
device maximum of 1, the measure phase ends with `S_OK` at side 128, the
fallback loop entered at side 1 gives no result whatever the fuel, and so the
constructor never finishes: there is no minimum scale and no retry count. -/
theorem stubborn_font_never_built :
    (∃ fm, measure_phase (fixed_metrics fun _ => ⟨1, 1⟩) 1 (initial_font fun _ _ => 0)
        = some (S_OK, fm) ∧ fm.tex_width = 128) ∧
    (∀ s : ℚ, overflows stubborn_env (with_side (initial_font fun _ _ => 0) 1) s) ∧
    (¬ ∃ fuel, (scale_loop stubborn_env fuel true
      { with_side (initial_font fun _ _ => 0) 1 with text_scale := 1 / 128 }).isSome = true) ∧
    ¬ ∃ fuel, (construct stubborn_env fuel fun _ _ => 0).isSome = true := by
  have hover : ∀ (f : Font), f.tex_width = 1 → f.tex_height = 1 → ∀ s : ℚ,
      overflows stubborn_env f s := by
    intro f hw hh s
    refine ⟨fixed_metrics fun _ => ⟨1, 1⟩, rfl, ?_⟩
    rw [paint_alphabet_hr_congr _ f (with_side sample_font 1) hw hh]
    decide
  have hmeasure : ∀ n, 1 ≤ n → ∃ fm, measure_phase (fixed_metrics fun _ => ⟨1, 1⟩) n
      (initial_font fun _ _ => 0) = some (S_OK, fm) ∧ fm.tex_width = 128 := by
    intro n hn
    obtain ⟨fm, h1, h2, _⟩ := measure_loop_finds (fixed_metrics fun _ => ⟨1, 1⟩)
      sample_font 0 0 (with_side (initial_font fun _ _ => 0) 128) (by decide) rfl rfl
      (fun j hj => absurd hj (Nat.not_lt_zero j)) (by decide) n hn
    exact ⟨fm, h1, by rw [h2]; norm_num⟩
  refine ⟨hmeasure 1 (le_refl _), fun s => hover _ rfl rfl s, ?_, ?_⟩
  · rintro ⟨fuel, h⟩
    rw [scale_loop_diverges stubborn_env true _ (fun k => hover _ rfl rfl _) fuel] at h
    cases h
  · rintro ⟨fuel, h⟩
    cases fuel with
    | zero => revert h; decide
    | succ n =>
      obtain ⟨fm, hfm, hw⟩ := hmeasure (n + 1) (by omega)
      have hnone : construct stubborn_env (n + 1) (fun _ _ => 0) = none := by
        unfold construct
        simp only [stubborn_env]
        rw [hfm]
        simp only [ne_eq, not_true_eq_false, if_false]
        have hcl : clamp_phase
            { create_gdi_font := fun _ => some (fixed_metrics fun _ => ⟨1, 1⟩)
              MaxTextureWidth := 1
              CreateTexture := fun _ _ => some 1 } (n + 1) S_OK fm
            (fixed_metrics fun _ => ⟨1, 1⟩) = none := by
          unfold clamp_phase
          rw [if_pos (by rw [hw]; decide)]
          exact scale_loop_diverges stubborn_env true _
            (fun k => hover _ (show to_long 1 = 1 by decide) (show to_long 1 = 1 by decide) _)
            (n + 1)
        rw [hcl]
      rw [hnone] at h
      cases h

/-! ## Start vertices and primitive counts: theorems -/

/-- When every batch that holds vertices is submitted, the start vertices are the pool offsets. -/
theorem draw_from_offsets (bs : List Batch) :
    ∀ pos : Nat, counted_known bs → pos + count_sum bs < UINT_MOD →
      (draw_from pos bs).map DrawCall.start_vertex = pool_offsets pos bs := by
  induction bs with
  | nil => intro pos _ _; rfl
  | cons b bs ih =>
    intro pos hk hlt
    have hk' : counted_known bs := fun a ha => hk a (List.mem_cons_of_mem _ ha)
    have hsum : count_sum (b :: bs) = b.count + count_sum bs := by
      simp [count_sum]
    rw [hsum] at hlt
    unfold draw_from pool_offsets
    by_cases h : b.count ≠ 0 ∧ topology_order b.topology > 0
    · have hs : submitted b = true := by simp [submitted, h]
      rw [if_pos h, if_pos hs, List.map_cons, ih (pos + b.count) hk' (by omega)]
      simp only [List.cons.injEq, and_true]
      exact Nat.mod_eq_of_lt (by omega)
    · have hs : submitted b = false := by simp only [submitted, h, decide_False]
      have h0 : b.count = 0 := by
        by_contra hne
        exact h ⟨hne, hk b (List.mem_cons_self _ _) hne⟩
      rw [if_neg h, hs]
      simp only [Bool.false_eq_true, if_false]
      rw [ih pos hk' (by omega), h0, Nat.add_zero]

/-- Pushing a batch that is empty or of known topology keeps `counted_known`. -/
theorem counted_known_concat (bs : List Batch) (b : Batch) (h : counted_known bs)
    (hb : b.count ≠ 0 → 0 < topology_order b.topology) : counted_known (bs ++ [b]) := by
  intro a ha hne
  rcases List.mem_append.mp ha with h1 | h1
  · exact h a h1 hne
  · rw [List.mem_singleton] at h1
    subst h1
    exact hb hne

/-- A call with a known topology keeps `counted_known`. -/
theorem counted_known_apply (rl : RenderList) (c : Call) (hc : c.known)
    (h : counted_known rl.batches) : counted_known (c.apply rl).batches := by
  cases c with
  | add vs t x =>
    have hc' : 0 < topology_order t := hc
    have h1 : counted_known (bump_back (open_batch rl.batches t x) vs.length) := by
      rw [bump_open]
      cases hl : rl.batches.getLast? with
      | none => exact counted_known_concat _ _ h (fun _ => hc')
      | some back =>
        simp only []
        split_ifs
        · have hs := getLast?_eq_some_split rl.batches back hl
          apply counted_known_concat _ _ _ (fun _ => hc')
          intro a ha
          apply h a
          rw [hs]
          exact List.mem_append_left _ ha
        · exact counted_known_concat _ _ h (fun _ => hc')
    simp only [Call.apply, add_vertices]
    cases t <;> simp only [close_strip] <;> first
      | exact h1
      | exact counted_known_concat _ _ h1 (fun h0 => absurd rfl h0)
  | clear =>
    intro a ha
    simp [Call.apply, RenderList.clear] at ha

/-- Calls with known topologies keep `counted_known`. -/
theorem counted_known_foldl (calls : List Call) (hc : ∀ c ∈ calls, c.known) :
    ∀ rl : RenderList, counted_known rl.batches →
      counted_known (calls.foldl Call.apply rl).batches := by
  induction calls with
  | nil => intro rl h; exact h
  | cons c cs ih =>
    intro rl h
    exact ih (fun a ha => hc a (List.mem_cons_of_mem _ ha)) _
      (counted_known_apply rl c (hc c (List.mem_cons_self _ _)) h)

/-- Claim C21 (each draw call reads its own batch's vertices), evaluated on the
code.  `Renderer::draw` advances `pos` only inside the branch that submits a
batch.  When every call has a known topology and the pool holds fewer than
`2 ^ 32` vertices, the start vertices are the offsets at which the batches'
vertices were stored.  After `add_vertices` of three vertices with topology
`D3DPT_FORCE_DWORD` and of three vertices as a triangle list, the batch list
is `(3, FORCE_DWORD), (3, TRIANGLELIST)`, the pool offset of the triangle list
is 3, and the only draw call starts at vertex 0: it reads the vertices of the
skipped batch. -/
theorem start_vertex_after_skipped_batch :
    (∀ calls : List Call, (∀ c ∈ calls, c.known) →
      (run_calls calls).vertices.length < UINT_MOD →
      (draw (run_calls calls)).map DrawCall.start_vertex
        = pool_offsets 0 (run_calls calls).batches) ∧
    (run_calls [Call.add (sample_run 3) D3DPT_FORCE_DWORD 0,
        Call.add (sample_run 3) D3DPT_TRIANGLELIST 0]).batches
      = [⟨3, D3DPT_FORCE_DWORD, 0⟩, ⟨3, D3DPT_TRIANGLELIST, 0⟩] ∧
    pool_offsets 0 (run_calls [Call.add (sample_run 3) D3DPT_FORCE_DWORD 0,
        Call.add (sample_run 3) D3DPT_TRIANGLELIST 0]).batches = [3] ∧
    draw (run_calls [Call.add (sample_run 3) D3DPT_FORCE_DWORD 0,
        Call.add (sample_run 3) D3DPT_TRIANGLELIST 0])
      = [⟨D3DPT_TRIANGLELIST, 0, 0, 1⟩] := by
  refine ⟨?_, by decide, by decide, by decide⟩
  intro calls hc hlt
  have hk : counted_known (run_calls calls).batches :=
    counted_known_foldl calls hc RenderList.empty
      (fun a ha => absurd ha (List.not_mem_nil a))
  have hlen := foldl_length_consistent calls RenderList.empty rfl
  have hlen' : (run_calls calls).vertices.length = count_sum (run_calls calls).batches := hlen
  exact draw_from_offsets _ 0 hk (by omega)

/-- The primitive count of a list topology covers at most the batch's vertices. -/
theorem primitive_count_list_bound (n : Nat) (t : D3DPRIMITIVETYPE)
    (hl : is_toplogy_list t = true) (hn : n < UINT_MOD) :
    (primitive_count n t : Int) * topology_order t ≤ n := by
  have hmod : n % UINT_MOD = n := Nat.mod_eq_of_lt hn
  cases t <;> simp [is_toplogy_list] at hl <;>
    simp only [primitive_count, is_toplogy_list, topology_order, hmod] <;>
    simp <;> omega

/-- The primitive count of a strip or fan with enough vertices covers exactly the batch. -/
theorem primitive_count_strip_bound (n : Nat) (t : D3DPRIMITIVETYPE)
    (hl : is_toplogy_list t = false) (hk : 0 < topology_order t) (hn : n < UINT_MOD)
    (hge : topology_order t - 1 ≤ n) :
    (primitive_count n t : Int) + (topology_order t - 1) = n := by
  have hmod : n % UINT_MOD = n := Nat.mod_eq_of_lt hn
  have hU : (UINT_MOD : Int) = 4294967296 := by decide
  have hn' : (n : Int) < 4294967296 := by
    have : n < 4294967296 := hn
    omega
  cases t <;> simp [is_toplogy_list] at hl <;> simp [topology_order] at hk hge <;>
    simp only [primitive_count, is_toplogy_list, topology_order, hmod] <;>
    simp [hU] <;> omega

/-- Claim C22 (no primitive-count wraparound), evaluated on the code.  For a
count below `2 ^ 32`, a list topology gives `primitiveCount * order <= count`,
and a strip or fan whose count is at least `order - 1` gives
`primitiveCount + (order - 1) = count`.  The guard of `Renderer::draw` only
excludes a zero count: after `add_vertices` of one vertex as a triangle strip
(or as a triangle fan) the batch `(1, strip)` is submitted with the primitive
count `1 - 2` wrapped to `4294967295`. -/
theorem one_vertex_strip_wraps :
    (∀ (n : Nat) (t : D3DPRIMITIVETYPE), n < UINT_MOD → 0 < topology_order t →
      (is_toplogy_list t = true → (primitive_count n t : Int) * topology_order t ≤ n) ∧
      (is_toplogy_list t = false → topology_order t - 1 ≤ n →
        (primitive_count n t : Int) + (topology_order t - 1) = n)) ∧
    (run_calls [Call.add (sample_run 1) D3DPT_TRIANGLESTRIP 0]).batches
      = [⟨1, D3DPT_TRIANGLESTRIP, 0⟩, ⟨0, D3DPT_FORCE_DWORD, 0⟩] ∧
    draw (run_calls [Call.add (sample_run 1) D3DPT_TRIANGLESTRIP 0])
      = [⟨D3DPT_TRIANGLESTRIP, 0, 0, 4294967295⟩] ∧
    draw (run_calls [Call.add (sample_run 1) D3DPT_TRIANGLEFAN 0])
      = [⟨D3DPT_TRIANGLEFAN, 0, 0, 4294967295⟩] ∧
    ¬ (4294967295 + (topology_order D3DPT_TRIANGLESTRIP - 1) ≤ 1) := by
  refine ⟨?_, by decide, by decide, by decide, by decide⟩
  intro n t hn hk
  exact ⟨fun hl => primitive_count_list_bound n t hl hn,
    fun hl hge => primitive_count_strip_bound n t hl hk hn hge⟩

/-! ## Packed glyphs: theorems -/

/-- Separated glyphs share no pixel. -/
theorem not_overlap_of_separated (a b : Painted) (h : separated a b ∨ separated b a) :
    ¬ overlap a b := by
  rintro ⟨px, py, h1, h2, h3, h4, h5, h6, h7, h8⟩
  unfold separated at h
  omega

/-- Where the packer loop paints from cursor `(x, y)` when every character
still to place is at least `h0` high: in the row of the cursor and not left of
it, or at least `h0 + 1` below. -/
theorem painted_chars_region (gdi : Gdi) (f : Font)
    (hpos : ∀ c size, gdi.GetTextExtentPoint32 c = some size → 0 < size.cx ∧ 0 < size.cy)
    (hsp : 0 ≤ f.spacing) (h0 : Int) (hh0 : 0 ≤ h0) (cs : List Int) :
    ∀ x y : Int, (∀ c ∈ cs, ∀ s, gdi.GetTextExtentPoint32 c = some s → h0 ≤ s.cy) →
      ∀ g ∈ painted_chars gdi f cs x y, (g.y = y ∧ x ≤ g.x) ∨ y + h0 + 1 ≤ g.y := by
  induction cs with
  | nil => intro x y _ g hg; simp [painted_chars] at hg
  | cons c cs ih =>
    intro x y hcs g hg
    unfold painted_chars at hg
    cases hm : gdi.GetTextExtentPoint32 c with
    | none => rw [hm] at hg; simp at hg
    | some size =>
      rw [hm] at hg
      simp only [] at hg
      obtain ⟨hcx, hcy⟩ := hpos c size hm
      have hge := hcs c (List.mem_cons_self _ _) size hm
      have hcs' : ∀ a ∈ cs, ∀ s, gdi.GetTextExtentPoint32 a = some s → h0 ≤ s.cy :=
        fun a ha => hcs a (List.mem_cons_of_mem _ ha)
      split_ifs at hg with h1 h2
      · simp at hg
      · simp at hg
      · have hp : ((wrap_cursor f x y size).2 = y ∧ x ≤ (wrap_cursor f x y size).1) ∨
            y + h0 + 1 ≤ (wrap_cursor f x y size).2 := by
          unfold wrap_cursor
          split_ifs
          · right; simp only []; omega
          · left; exact ⟨rfl, le_refl _⟩
        rcases List.mem_cons.mp hg with hgc | hgt
        · subst hgc
          exact hp
        · have := ih _ _ hcs' g hgt
          rcases this with ⟨e1, e2⟩ | e
          · rcases hp with ⟨p1, p2⟩ | p
            · left; exact ⟨by omega, by omega⟩
            · right; omega
          · rcases hp with ⟨p1, p2⟩ | p
            · right; omega
            · right; omega

/-- With heights that do not decrease along the characters still to place,
every glyph the packer loop paints is separated from the ones painted before. -/
theorem painted_chars_pairwise (gdi : Gdi) (f : Font)
    (hpos : ∀ c size, gdi.GetTextExtentPoint32 c = some size → 0 < size.cx ∧ 0 < size.cy)
    (hmono : ∀ c c' s s', c ≤ c' → gdi.GetTextExtentPoint32 c = some s →
      gdi.GetTextExtentPoint32 c' = some s' → s.cy ≤ s'.cy)
    (hsp : 0 ≤ f.spacing) (cs : List Int) :
    cs.Pairwise (fun a b => a ≤ b) →
      ∀ x y : Int, (painted_chars gdi f cs x y).Pairwise separated := by
  induction cs with
  | nil => intro _ x y; simp [painted_chars]
  | cons c cs ih =>
    intro hsorted x y
    obtain ⟨hhead, htail⟩ := List.pairwise_cons.mp hsorted
    unfold painted_chars
    cases hm : gdi.GetTextExtentPoint32 c with
    | none => exact List.Pairwise.nil
    | some size =>
      simp only []
      obtain ⟨hcx, hcy⟩ := hpos c size hm
      split_ifs
      · exact List.Pairwise.nil
      · exact List.Pairwise.nil
      · rw [List.pairwise_cons]
        refine ⟨?_, ih htail _ _⟩
        intro g hg
        have := painted_chars_region gdi f hpos hsp size.cy hcy.le cs _ _
          (fun a ha s hs => hmono c a size s (hhead a ha) hm hs) g hg
        unfold separated
        simp only []
        rcases this with ⟨e1, e2⟩ | e
        · left; omega
        · right; omega

/-- The alphabet is in increasing order. -/
theorem alphabet_sorted : alphabet.Pairwise (fun a b => a ≤ b) := by
  decide

/-- Claim C23 (packed glyphs do not overlap), amended.  For every rasterizer
whose measured widths and heights are positive and whose heights never
decrease from a character to a later one (in particular one common height, as
a font has), and for every atlas: any two glyphs painted by the paint pass of
`paint_alphabet` for distinct characters occupy disjoint pixel rectangles
`[x, x + cx) x [y, y + cy)`; when the pass succeeds the glyphs painted are the
95 characters of the alphabet. -/
theorem packed_glyphs_disjoint (gdi : Gdi) (f : Font)
    (hpos : ∀ c size, gdi.GetTextExtentPoint32 c = some size → 0 < size.cx ∧ 0 < size.cy)
    (hmono : ∀ c c' s s', c ≤ c' → gdi.GetTextExtentPoint32 c = some s →
      gdi.GetTextExtentPoint32 c' = some s' → s.cy ≤ s'.cy) :
    ((paint_alphabet gdi f false).1 = S_OK →
      (painted_alphabet gdi f).map Painted.c = alphabet) ∧
    ∀ a ∈ painted_alphabet gdi f, ∀ b ∈ painted_alphabet gdi f, a.c ≠ b.c →
      ¬ overlap a b := by
  refine ⟨(paint_alphabet_painted gdi f).1, ?_⟩
  have hpw : (painted_alphabet gdi f).Pairwise separated := by
    unfold painted_alphabet
    cases hm : gdi.GetTextExtentPoint32 120 with
    | none => exact List.Pairwise.nil
    | some size =>
      simp only []
      exact painted_chars_pairwise gdi _ hpos hmono
        (spacing_of_nonneg _ (hpos 120 size hm).2.le) alphabet alphabet_sorted _ _
  have hsym : (painted_alphabet gdi f).Pairwise
      (fun a b => separated a b ∨ separated b a) :=
    hpw.imp (fun h => Or.inl h)
  intro a ha b hb hne
  apply not_overlap_of_separated
  exact hsym.forall (fun _ _ h => h.symm) ha hb (fun h => hne (by rw [h]))

/-- Counterexample for C23: with the space 20 pixels high and every other
glyph 5 pixels high (all widths and heights positive), the paint pass at side
128 succeeds, the space is painted at `(2, 0)` and `)` at `(2, 6)`, and the
two rectangles share the pixel `(2, 6)`. -/
theorem tall_glyph_overlap_counterexample :
    (∀ c, 0 < (tall_space_metrics c).cx ∧ 0 < (tall_space_metrics c).cy) ∧
    (paint_alphabet (fixed_metrics tall_space_metrics) (with_side sample_font 128) false).1
      = S_OK ∧
    (⟨32, 2, 0, ⟨10, 20⟩⟩ : Painted)
      ∈ painted_alphabet (fixed_metrics tall_space_metrics) (with_side sample_font 128) ∧
    (⟨41, 2, 6, ⟨10, 5⟩⟩ : Painted)
      ∈ painted_alphabet (fixed_metrics tall_space_metrics) (with_side sample_font 128) ∧
    overlap ⟨32, 2, 0, ⟨10, 20⟩⟩ ⟨41, 2, 6, ⟨10, 5⟩⟩ := by
  refine ⟨?_, by decide, by decide, by decide, ⟨2, 6, by decide⟩⟩
  intro c
  unfold tall_space_metrics
  split_ifs <;> decide

/-- Witness for C23 (amended): glyphs 10 high below code 80 and 20 high from
code 80 on, in an atlas of side 256; the paint pass succeeds and `A` and `a`
are painted at `(6, 33)` and `(226, 65)`. -/
theorem packed_glyphs_disjoint_witness :
    (paint_alphabet (fixed_metrics rising_metrics) (with_side sample_font 256) false).1
      = S_OK ∧
    (⟨65, 6, 33, ⟨10, 10⟩⟩ : Painted)
      ∈ painted_alphabet (fixed_metrics rising_metrics) (with_side sample_font 256) ∧
    (⟨97, 226, 65, ⟨10, 20⟩⟩ : Painted)
      ∈ painted_alphabet (fixed_metrics rising_metrics) (with_side sample_font 256) ∧
    ¬ overlap ⟨65, 6, 33, ⟨10, 10⟩⟩ ⟨97, 226, 65, ⟨10, 20⟩⟩ :=
  ⟨by decide, by decide, by decide,
    (packed_glyphs_disjoint (fixed_metrics rising_metrics) (with_side sample_font 256)
      (by
        intro c size h
        simp only [fixed_metrics, Option.some.injEq] at h
        subst h
        unfold rising_metrics
        split_ifs <;> decide)
      (by
        intro c c' s s' hle h h'
        simp only [fixed_metrics, Option.some.injEq] at h h'
        subst h h'
        unfold rising_metrics
        split_ifs <;> first | decide | omega)).2
      ⟨65, 6, 33, ⟨10, 10⟩⟩ (by decide) ⟨97, 226, 65, ⟨10, 20⟩⟩ (by decide) (by decide)⟩

/-! ## Totality of `draw_text`: theorems -/

/-- Claim C24 (`Font::draw_text` is total on its text), evaluated on the code.
Without the colour-tag flag the call returns for every text.  With it, the
payload of a tag-shaped token is stripped of its non-alphanumeric characters
and handed to `std::stoul` in base 16, which throws when no hexadecimal digit
leads it: for `{#gggggggg}x` and for `{#--------}x` the tag is matched with 10
characters to skip, the conversion fails and the call raises; it does so too
when glyphs were drawn before the tag (`ab{#gggggggg}x`). -/
theorem no_digit_tag_raises :
    (∀ (f : Font) (rl : RenderList) (pos : Vec2) (text : List Int) (color : Color)
      (flags : Nat), flags &&& TEXT_COLORTAGS = 0 →
      (draw_text f rl pos text color flags).isSome = true) ∧
    color_tag (no_digit_tag ++ [120]) = some (10, none) ∧
    color_tag (dash_tag ++ [120]) = some (10, none) ∧
    draw_text sample_font RenderList.empty ⟨0, 0⟩ (no_digit_tag ++ [120]) 0xffffffff
      TEXT_COLORTAGS = none ∧
    draw_text sample_font RenderList.empty ⟨0, 0⟩ (dash_tag ++ [120]) 0xffffffff
      TEXT_COLORTAGS = none ∧
    draw_text sample_font RenderList.empty ⟨0, 0⟩ ([97, 98] ++ no_digit_tag ++ [120])
      0xffffffff TEXT_COLORTAGS = none := by
  refine ⟨?_, by decide, by decide, ?_, ?_, ?_⟩
  · intro f rl pos text color flags hflag
    unfold draw_text
    simp only []
    rw [draw_text_loop_untagged f flags _ hflag text _ rfl]
    rfl
  · rw [← Option.not_isSome_iff_eq_none]
    decide
  · rw [← Option.not_isSome_iff_eq_none]
    decide
  · rw [← Option.not_isSome_iff_eq_none]
    decide

/-! ## Measured and drawn width: theorems -/

/-- A text without newline is a single row. -/
theorem rows_of_no_newline (text : List Int) (h : ∀ c ∈ text, c ≠ 10) :
    rows text = [text] := by
  induction text with
  | nil => rfl
  | cons c cs ih =>
    have hc : c ≠ 10 := h c (List.mem_cons_self _ _)
    have ih' := ih (fun a ha => h a (List.mem_cons_of_mem _ ha))
    simp [rows, hc, ih']

/-- The pen after a printable character that is no newline. -/
theorem draw_glyph_pos (f : Font) (flags : Nat) (sx : ℚ) (st : TextState) (c : Int)
    (hc : 32 ≤ c) :
    (draw_glyph f flags sx st c).pos = ⟨st.pos.x + drawn_advance f c, st.pos.y⟩ := by
  have h10 : c ≠ 10 := by omega
  have h32 : ¬ c < 32 := by omega
  simp only [draw_glyph, drawn_advance, h10, h32, if_false]

/-- The pen after a text of printable characters: it moved by the sum of the drawn advances. -/
theorem foldl_draw_glyph_pos (f : Font) (flags : Nat) (sx : ℚ) (text : List Int)
    (htext : ∀ c ∈ text, 32 ≤ c) :
    ∀ st : TextState, (text.foldl (draw_glyph f flags sx) st).pos.x
      = st.pos.x + (text.map (drawn_advance f)).sum := by
  induction text with
  | nil => intro st; simp
  | cons c cs ih =>
    intro st
    rw [List.foldl_cons, ih (fun a ha => htext a (List.mem_cons_of_mem _ ha)),
      draw_glyph_pos f flags sx st c (htext c (List.mem_cons_self _ _))]
    simp only [List.map_cons, List.sum_cons]
    ring

/-- Without the colour-tag flag the pen travels the sum of the drawn advances. -/
theorem pen_travel_sum (f : Font) (rl : RenderList) (pos : Vec2) (text : List Int)
    (color : Color) (flags : Nat) (hflag : flags &&& TEXT_COLORTAGS = 0)
    (htext : ∀ c ∈ text, 32 ≤ c) :
    pen_travel f rl pos text color flags = some (text.map (drawn_advance f)).sum := by
  unfold pen_travel
  simp only []
  rw [draw_text_loop_untagged f flags _ hflag text _ rfl, Option.map_some',
    foldl_draw_glyph_pos f flags _ text htext]
  simp

/-- The glyphs painted depend on the font state through the atlas size only. -/
theorem painted_alphabet_congr (gdi : Gdi) (f g : Font) (hw : f.tex_width = g.tex_width)
    (hh : f.tex_height = g.tex_height) : painted_alphabet gdi f = painted_alphabet gdi g := by
  unfold painted_alphabet
  cases gdi.GetTextExtentPoint32 120 with
  | none => rfl
  | some size =>
    exact painted_chars_congr gdi { f with spacing := spacing_of size.cy }
      { g with spacing := spacing_of size.cy } hw hh rfl alphabet _ _

/-- What a completed construction went through. -/
theorem construct_built (env : FontEnv) (fuel : Nat) (tex_coords : Nat → Nat → ℚ) (f : Font)
    (h : construct env fuel tex_coords = some (Construction.built f)) :
    ∃ (gdi : Gdi) (fm : Font) (hr2 : HRESULT) (f2 : Font) (gdi2 : Gdi) (texture : Texture),
      env.create_gdi_font 1 = some gdi ∧
      measure_phase gdi fuel (initial_font tex_coords) = some (S_OK, fm) ∧
      clamp_phase env fuel S_OK fm gdi = some (some (hr2, f2, gdi2)) ∧
      paint_alphabet gdi2 { f2 with texture := texture } false = (S_OK, f) := by
  unfold construct at h
  cases hc : env.create_gdi_font 1 with
  | none => rw [hc] at h; cases h
  | some gdi =>
    rw [hc] at h
    simp only [] at h
    cases hm : measure_phase gdi fuel (initial_font tex_coords) with
    | none => rw [hm] at h; cases h
    | some p =>
      obtain ⟨hr, fm⟩ := p
      rw [hm] at h
      simp only [] at h
      by_cases hok : hr = S_OK
      swap
      · rw [if_pos hok] at h; cases h
      subst hok
      rw [if_neg (by simp)] at h
      cases hcl : clamp_phase env fuel S_OK fm gdi with
      | none => rw [hcl] at h; cases h
      | some r =>
        cases r with
        | none => rw [hcl] at h; cases h
        | some q =>
          obtain ⟨hr2, f2, gdi2⟩ := q
          rw [hcl] at h
          simp only [Option.some.injEq] at h
          unfold finish_font at h
          cases hct : env.CreateTexture f2.tex_width f2.tex_height with
          | none => rw [hct] at h; cases h
          | some texture =>
            rw [hct] at h
            simp only [] at h
            cases hp : paint_alphabet gdi2 { f2 with texture := texture } false with
            | mk hr3 f3 =>
              rw [hp] at h
              cases hr3 with
              | S_OK =>
                simp only [Construction.built.injEq] at h
                subst h
                exact ⟨gdi, fm, hr2, f2, gdi2, texture, rfl, hm, hcl, hp⟩
              | E_FAIL => cases h
              | D3DERR_MOREDATA => cases h

set_option maxRecDepth 2000 in
/-- The single-precision quotient `250 / 256` is exact. -/
theorem clamp_scale_250 : clamp_scale 250 256 = 250 / 256 := by
  have e1 : f32_round (250 : ℚ) = 250 := by
    have h := f32_round_eq 250 1 250 1 (by decide) (by decide) (by decide)
    simpa using h
  have e2 : f32_round (256 : ℚ) = 256 := by
    have h := f32_round_eq 256 1 256 1 (by decide) (by decide) (by decide)
    simpa using h
  have e3 : f32_round ((250 : ℚ) / 256) = 250 / 256 := by
    have h := f32_round_eq 250 256 250 256 (by decide) (by decide) (by decide)
    simpa using h
  unfold clamp_scale
  rw [show ((250 % 2 ^ 32 : Nat) : ℚ) = 250 by norm_num,
    show ((256 : Int) : ℚ) = 256 by norm_num, e1, e2, e3]

/-- The font built with 16 x 16 glyphs on a device whose maximum is 250: side
250, `text_scale = 250 / 256`, spacing 5, and the rectangle of `A`, painted at
pen `(161, 51)`, spans `156 / 250 .. 182 / 250` horizontally. -/
theorem clamped_env_font (f : Font)
    (h : construct clamped_env 2 (fun _ _ => 0) = some (Construction.built f)) :
    f.tex_width = 250 ∧ f.text_scale = 250 / 256 ∧ f.spacing = 5 ∧
    f.tex_coords 33 0 = 156 / 250 ∧ f.tex_coords 33 2 = 182 / 250 := by
  obtain ⟨gdi, fm, hr2, f2, gdi2, texture, hg, hm, hcl, hp⟩ := construct_built _ _ _ f h
  simp only [clamped_env, Option.some.injEq] at hg
  subst hg
  obtain ⟨fm', hfm, hw', _⟩ := measure_loop_finds (fixed_metrics fun _ => ⟨16, 16⟩)
    sample_font 1 0 (with_side (initial_font fun _ _ => 0) 128) (by decide) rfl rfl
    (fun j hj => by
      obtain rfl : j = 0 := by omega
      decide)
    (by decide) 2 (le_refl _)
  have hfm2 : measure_phase (fixed_metrics fun _ => ⟨16, 16⟩) 2 (initial_font fun _ _ => 0)
      = some (S_OK, fm') := hfm
  rw [hfm2] at hm
  simp only [Option.some.injEq, Prod.mk.injEq, true_and] at hm
  subst hm
  have hS : fm'.tex_width = 256 := by rw [hw']; norm_num
  unfold clamp_phase at hcl
  rw [if_pos (by rw [hS]; decide)] at hcl
  simp only [] at hcl
  obtain ⟨k, hov, hend⟩ := scale_loop_sound clamped_env 2 true _ _ hcl
  simp only [ends_at] at hend
  obtain ⟨e1, _, _, e4, e5, e6⟩ := hend
  simp only [clamped_env, Option.some.injEq] at e1
  subst e1
  have hk : k = 0 := by
    rcases Nat.eq_zero_or_pos k with h0 | hpos
    · exact h0
    · exfalso
      obtain ⟨g, hg1, hg2⟩ := hov 0 hpos
      simp only [clamped_env, Option.some.injEq] at hg1
      subst hg1
      rw [paint_alphabet_hr_congr (fixed_metrics fun _ => ⟨16, 16⟩) _
        (with_side sample_font 250) (show to_long 250 = 250 by decide)
        (show to_long 250 = 250 by decide)] at hg2
      revert hg2
      decide
  subst hk
  simp only [first_scale, if_true, retry_scale] at e4
  have e5' : f2.tex_width = 250 := by rw [e5]; decide
  have e6' : f2.tex_height = 250 := by rw [e6]; decide
  have hf : f = (paint_alphabet (fixed_metrics fun _ => ⟨16, 16⟩)
      { f2 with texture := texture } false).2 := by rw [hp]
  have hsz := paint_alphabet_tex_size (fixed_metrics fun _ => ⟨16, 16⟩) false
    { f2 with texture := texture }
  have hts := paint_alphabet_text_scale (fixed_metrics fun _ => ⟨16, 16⟩) false
    { f2 with texture := texture }
  have hsp := paint_alphabet_spacing (fixed_metrics fun _ => ⟨16, 16⟩) false
    { f2 with texture := texture } ⟨16, 16⟩ rfl
  have hmem0 : (⟨65, 161, 51, ⟨16, 16⟩⟩ : Painted)
      ∈ painted_alphabet (fixed_metrics fun _ => ⟨16, 16⟩) (with_side sample_font 250) := by
    decide
  have hcongr := painted_alphabet_congr (fixed_metrics fun _ => ⟨16, 16⟩)
    { f2 with texture := texture } (with_side sample_font 250) e5' e6'
  have hmem : (⟨65, 161, 51, ⟨16, 16⟩⟩ : Painted)
      ∈ painted_alphabet (fixed_metrics fun _ => ⟨16, 16⟩) { f2 with texture := texture } := by
    rw [hcongr]
    exact hmem0
  have hst := ((paint_alphabet_painted (fixed_metrics fun _ => ⟨16, 16⟩)
    { f2 with texture := texture }).2 _ hmem).2
  rw [← hf] at hsz hts hsp hst
  have hw : f.tex_width = 250 := by rw [hsz.1]; exact e5'
  have hscale : f.text_scale = 250 / 256 := by
    rw [hts]
    show f2.text_scale = 250 / 256
    rw [e4, hS]
    exact clamp_scale_250
  have hsp5 : f.spacing = 5 := by rw [hsp]; decide
  obtain ⟨c0, _, c2, _⟩ := hst
  simp only [] at c0 c2
  rw [hsp5, hw] at c0 c2
  refine ⟨hw, hscale, hsp5, ?_, ?_⟩
  · rw [show (33 : Nat) = ((65 : Int) - 32).toNat by decide, c0]
    norm_num
  · rw [show (33 : Nat) = ((65 : Int) - 32).toNat by decide, c2]
    norm_num

/-- Claim C25 (measured width equals drawn width), evaluated on the code.  For
every font and every text of characters from code 32 on, drawn without the
colour-tag flag, the pen of `draw_text` travels the sum of
`(tx2 - tx1) * tex_width / text_scale - 2 * spacing`, while `get_text_extent`
sums `(tx2 - tx1) * tex_width - 2 * spacing` (for non-negative contributions
and no newline): `draw_text` divides the glyph width by `text_scale`,
`get_text_extent` does not.  The two agree when `text_scale = 1`.  For the
font the constructor builds with 16 x 16 glyphs on a device whose maximum
texture width is 250 (`text_scale = 250 / 256`), the text `A` measures 16 and
the pen travels `2078 / 125`. -/
theorem measured_width_ignores_text_scale :
    (∀ (f : Font) (rl : RenderList) (pos : Vec2) (text : List Int) (color : Color)
      (flags : Nat), flags &&& TEXT_COLORTAGS = 0 → (∀ c ∈ text, 32 ≤ c ∧ c ≤ 126) →
      pen_travel f rl pos text color flags = some (text.map (drawn_advance f)).sum ∧
      ((∀ c, 32 ≤ c → c ≤ 126 → 0 ≤ advance f c) →
        (get_text_extent f text).x = (text.map (advance f)).sum) ∧
      (f.text_scale = 1 → (∀ c, 32 ≤ c → c ≤ 126 → 0 ≤ advance f c) →
        pen_travel f rl pos text color flags = some (get_text_extent f text).x)) ∧
    ∃ f : Font,
      construct clamped_env 2 (fun _ _ => 0) = some (Construction.built f) ∧
      f.text_scale = 250 / 256 ∧
      (get_text_extent f [65]).x = 16 ∧
      pen_travel f RenderList.empty ⟨0, 0⟩ [65] 0xffffffff 0 = some (2078 / 125) := by
  constructor
  · intro f rl pos text color flags hflag htext
    have hsum := pen_travel_sum f rl pos text color flags hflag (fun c hc => (htext c hc).1)
    have hext : (∀ c, 32 ≤ c → c ≤ 126 → 0 ≤ advance f c) →
        (get_text_extent f text).x = (text.map (advance f)).sum := by
      intro hadv
      exact extent_single_row f text hadv (fun c hc => Or.inr (htext c hc))
        (rows_of_no_newline text (fun c hc => by have := (htext c hc).1; omega))
    refine ⟨hsum, hext, ?_⟩
    intro hs hadv
    rw [hsum, hext hadv]
    congr 2
    apply List.map_congr_left
    intro c _
    simp [drawn_advance, advance, hs]
  · obtain ⟨f, hf⟩ := clamped_env_built
    obtain ⟨hw, hs, hsp, c0, c2⟩ := clamped_env_font f hf
    have hadv : advance f 65 = 16 := by
      unfold advance
      rw [show ((65 : Int) - 32).toNat = 33 by decide, c0, c2, hw, hsp]
      norm_num
    have hdrawn : drawn_advance f 65 = 2078 / 125 := by
      unfold drawn_advance
      rw [show ((65 : Int) - 32).toNat = 33 by decide, c0, c2, hw, hsp, hs]
      norm_num
    refine ⟨f, hf, hs, ?_, ?_⟩
    · simp only [get_text_extent, List.foldl_cons, List.foldl_nil, get_text_extent_step, hadv]
      norm_num
    · rw [pen_travel_sum f _ _ [65] _ 0 (by decide) (by decide)]
      simp [hdrawn]

end RendererD3D9
